import Mathlib

/-!
# Recipe extraction and transformation pipeline

A shallow embedding of the recipe pipeline of the repository
(`src/recipe-extraction.js`, `src/recipe-helper.js`, `src/wp-recipe-maker.js`,
`src/recipe-formatter.js`) together with theorems about it.

Modelling conventions.

* A JavaScript string is a `List Char` (`Str`): a sequence of Unicode scalar
  values.  String literals are written `"...".toList`.
* JavaScript numbers that hold counts and indices are `Nat` / `Int`.  The
  numbers computed from digits of the input (`parseInt`, the minutes of a time,
  the servings) are values of the type `Number`: a non-negative integer that a double
  holds, or `Infinity`; every operation on them rounds as the arithmetic of
  doubles does.
* Regular expressions are values of the type `Re`, run by the backtracking
  matcher `matchRe`, which follows the ECMAScript matching algorithm
  (continuation passing, priority order of alternatives, greedy and lazy
  quantifiers with the empty-iteration check, capture groups, negative
  lookahead, the flags `i` and `s`).
-/

namespace Recipe

/-! ## Strings -/

/-- A JavaScript string, as a sequence of characters. -/
abbrev Str := List Char

/-- ECMAScript `LineTerminator`: LF, CR, LS, PS. -/
def isLineTerminator (c : Char) : Bool :=
  c.toNat == 0x0A || c.toNat == 0x0D || c.toNat == 0x2028 || c.toNat == 0x2029

/-- ECMAScript `WhiteSpace` or `LineTerminator`: the characters matched by `\s`
and stripped by `String.prototype.trim`. -/
def isWhiteSpace (c : Char) : Bool :=
  c.toNat == 0x09 || c.toNat == 0x0A || c.toNat == 0x0B || c.toNat == 0x0C ||
  c.toNat == 0x0D || c.toNat == 0x20 || c.toNat == 0xA0 || c.toNat == 0x1680 ||
  (0x2000 ≤ c.toNat && c.toNat ≤ 0x200A) || c.toNat == 0x2028 || c.toNat == 0x2029 ||
  c.toNat == 0x202F || c.toNat == 0x205F || c.toNat == 0x3000 || c.toNat == 0xFEFF

/-- The characters matched by `\d` and `[0-9]`. -/
def isDigit (c : Char) : Bool := 0x30 ≤ c.toNat && c.toNat ≤ 0x39

/-- The lower-case mapping of one character, as `String.prototype.toLowerCase`
applies it: ASCII and Latin-1 capitals, the Kelvin sign (to `k`) and the
capital dotted I (to `i` followed by a combining dot, the only mapping that
changes the length).  Other characters are left as they are. -/
def lowerChar (c : Char) : Str :=
  if 0x41 ≤ c.toNat && c.toNat ≤ 0x5A then [Char.ofNat (c.toNat + 32)]
  else if 0xC0 ≤ c.toNat && c.toNat ≤ 0xDE && c.toNat != 0xD7 then [Char.ofNat (c.toNat + 32)]
  else if c.toNat == 0x212A then ['k']
  else if c.toNat == 0x0130 then ['i', Char.ofNat 0x0307]
  else [c]

/-- `String.prototype.toLowerCase`. -/
def toLowerCase : Str → Str
  | [] => []
  | c :: t => lowerChar c ++ toLowerCase t

/-- `String.prototype.startsWith`. -/
def startsWith : Str → Str → Bool
  | _, [] => true
  | [], _ :: _ => false
  | c :: s, d :: p => c == d && startsWith s p

/-- `String.prototype.includes`. -/
def includes : Str → Str → Bool
  | [], p => startsWith [] p
  | c :: s, p => startsWith (c :: s) p || includes s p

/-- `String.prototype.trimStart`. -/
def trimStart : Str → Str
  | [] => []
  | c :: s => if isWhiteSpace c then trimStart s else c :: s

/-- `String.prototype.trim`. -/
def trim (s : Str) : Str := (trimStart (trimStart s).reverse).reverse

/-- The value of a run of decimal digits, most significant first. -/
def digitsValue (s : Str) : Nat := s.foldl (fun acc c => 10 * acc + (c.toNat - 0x30)) 0

/-- A value of the type Number that the functions on times and servings compute:
a non-negative integer (one that a double holds), or `Infinity`. -/
inductive Number where
  | fin (n : Nat)
  | inf
deriving DecidableEq, Repr

instance (n : Nat) : OfNat Number n := ⟨Number.fin n⟩

/-- The number of halvings that bring `n` below `2 ^ 53`: the exponent of the unit
in the last place of the double nearest to `n`. -/
def ulpExp : Nat → Nat → Nat
  | 0, _ => 0
  | fuel + 1, n => if n < 2 ^ 53 then 0 else ulpExp fuel (n / 2) + 1

/-- The Number value of a natural number: the number itself below `2 ^ 53`, and
from there on the nearest double (53 significant bits, a tie going to the even
significand), `Infinity` when that is `2 ^ 1024 = (2 ^ 256) ^ 4` or more. -/
def toNumber (n : Nat) : Number :=
  if n < 2 ^ 53 then .fin n
  else
    let e := ulpExp n n
    let q := n / 2 ^ e
    let r := n % 2 ^ e
    let m := if 2 ^ e < 2 * r || (2 * r == 2 ^ e && q % 2 == 1) then q + 1 else q
    if (2 ^ 256) ^ 4 ≤ m * 2 ^ e then .inf else .fin (m * 2 ^ e)

/-- The sum `a + b` of two Numbers. -/
def Number.add : Number → Number → Number
  | .fin a, .fin b => toNumber (a + b)
  | _, _ => .inf

/-- The product `a * 60`. -/
def Number.times60 : Number → Number
  | .fin a => toNumber (a * 60)
  | .inf => .inf

/-- The call `parseInt(s, 10)` on a string that starts with a decimal digit (the
only strings it is called on here are captures of `\d+`): the Number value of
the leading run of digits. -/
def parseInt (s : Str) : Number := toNumber (digitsValue (s.takeWhile isDigit))

/-! ## Regular expressions -/

/-- The flags of a regular expression: `i` (ignore case) and `s` (dot matches
line terminators). -/
structure Flags where
  i : Bool
  s : Bool

/-- One member of a character class. -/
inductive ClassItem where
  | chr (c : Char)
  | range (lo hi : Char)
  | digit
  | space
  | nspace

/-- The syntax of the regular expressions used by the program. -/
inductive Re where
  | empty
  | chr (c : Char)
  | any
  | cls (neg : Bool) (items : List ClassItem)
  | seq (a b : Re)
  | alt (a b : Re)
  | star (greedy : Bool) (a : Re)
  | plus (greedy : Bool) (a : Re)
  | opt (greedy : Bool) (a : Re)
  | group (i : Nat) (a : Re)
  | nlook (a : Re)

/-- The captures of a match: the most recent binding of a group comes first. -/
abbrev Caps := List (Nat × Str)

/-- A matcher continuation. -/
abbrev Cont := Str → Caps → Option (Str × Caps)

/-- The code of ECMAScript `Canonicalize(c)` without the `u` flag, on the
characters that can equal an ASCII pattern character: ASCII letters are
upper-cased, and a character outside ASCII is never identified with an ASCII
one. -/
def canon (c : Char) : Nat :=
  if 0x61 ≤ c.toNat && c.toNat ≤ 0x7A then c.toNat - 32 else c.toNat

/-- Whether the pattern character `x` matches the input character `y`. -/
def charEq (f : Flags) (x y : Char) : Bool :=
  if f.i then canon x == canon y else x == y

/-- The code of the lower-case partner of an ASCII capital; the code of another
character is unchanged. -/
def uncanon (c : Char) : Nat :=
  if 0x41 ≤ c.toNat && c.toNat ≤ 0x5A then c.toNat + 32 else c.toNat

/-- Whether the code `n` lies in the range `lo-hi`. -/
def inRange (lo hi : Char) (n : Nat) : Bool := lo.toNat ≤ n && n ≤ hi.toNat

/-- Whether a class member matches the input character `y`; with the flag `i`, a
member matches when some character of it has the canonical form of `y`. -/
def itemMatch (f : Flags) (y : Char) : ClassItem → Bool
  | .chr c => charEq f c y
  | .range lo hi =>
    inRange lo hi y.toNat || (f.i && (inRange lo hi (canon y) || inRange lo hi (uncanon y)))
  | .digit => isDigit y
  | .space => isWhiteSpace y
  | .nspace => !isWhiteSpace y

/-- The capture groups that occur in a pattern. -/
def Re.groups : Re → List Nat
  | .empty => []
  | .chr _ => []
  | .any => []
  | .cls _ _ => []
  | .seq a b => a.groups ++ b.groups
  | .alt a b => a.groups ++ b.groups
  | .star _ a => a.groups
  | .plus _ a => a.groups
  | .opt _ a => a.groups
  | .group i a => i :: a.groups
  | .nlook a => a.groups

/-- The captures of the groups `gs` are reset when an iteration of a quantifier
starts. -/
def clearCaps (gs : List Nat) (c : Caps) : Caps := c.filter (fun p => !(gs.contains p.1))

/-- ECMAScript `RepeatMatcher` with minimum 0 and at most `n` iterations: an
iteration that consumes nothing is rejected. -/
def starLoop (step : Str → Caps → Cont → Option (Str × Caps)) (gs : List Nat) (greedy : Bool) :
    Nat → Str → Caps → Cont → Option (Str × Caps)
  | 0, s, c, k => k s c
  | n + 1, s, c, k =>
    if greedy then
      match step s (clearCaps gs c) (fun s' c' =>
          if s'.length < s.length then starLoop step gs greedy n s' c' k else none) with
      | some r => some r
      | none => k s c
    else
      match k s c with
      | some r => some r
      | none => step s (clearCaps gs c) (fun s' c' =>
          if s'.length < s.length then starLoop step gs greedy n s' c' k else none)

/-- The backtracking matcher: `matchRe f r s c k` matches `r` at the start of
the remaining input `s` with captures `c` and hands what is left to `k`; the
first success in priority order is the result. -/
def matchRe (f : Flags) : Re → Str → Caps → Cont → Option (Str × Caps)
  | .empty, s, c, k => k s c
  | .chr x, s, c, k =>
    match s with
    | [] => none
    | y :: t => if charEq f x y then k t c else none
  | .any, s, c, k =>
    match s with
    | [] => none
    | y :: t => if f.s || !isLineTerminator y then k t c else none
  | .cls neg items, s, c, k =>
    match s with
    | [] => none
    | y :: t => if (items.any (itemMatch f y)) != neg then k t c else none
  | .seq a b, s, c, k => matchRe f a s c (fun s' c' => matchRe f b s' c' k)
  | .alt a b, s, c, k =>
    match matchRe f a s c k with
    | some r => some r
    | none => matchRe f b s c k
  | .star g a, s, c, k => starLoop (matchRe f a) a.groups g s.length s c k
  | .plus g a, s, c, k =>
    matchRe f a s (clearCaps a.groups c)
      (fun s' c' => starLoop (matchRe f a) a.groups g s'.length s' c' k)
  | .opt g a, s, c, k => starLoop (matchRe f a) a.groups g 1 s c k
  | .group i a, s, c, k =>
    matchRe f a s c (fun s' c' => k s' ((i, s.take (s.length - s'.length)) :: c'))
  | .nlook a, s, c, k =>
    match matchRe f a s c (fun s' c' => some (s', c')) with
    | some _ => none
    | none => k s c

/-- A literal string as a pattern. -/
def Re.str : Str → Re
  | [] => .empty
  | [c] => .chr c
  | c :: d :: t => .seq (.chr c) (Re.str (d :: t))

/-- A sequence of patterns. -/
def Re.cat : List Re → Re
  | [] => .empty
  | [r] => r
  | r :: r' :: t => .seq r (Re.cat (r' :: t))

/-- A successful match: the text before it, the matched text, the text after
it, and the captures. -/
structure Match where
  pre : Str
  matched : Str
  rest : Str
  caps : Caps
deriving DecidableEq, Repr

/-- The capture `m[i]` of a match (`none` for `undefined`). -/
def Match.cap (m : Match) (i : Nat) : Option Str := m.caps.lookup i

/-- A match attempt at the start of `s`: what is left of the input, and the
captures. -/
def matchAt (f : Flags) (r : Re) (s : Str) : Option (Str × Caps) :=
  matchRe f r s [] (fun s' c' => some (s', c'))

/-- The leftmost match in `s`, the characters already passed being `acc`
(reversed). -/
def searchFrom (f : Flags) (r : Re) : Str → Str → Option Match
  | acc, [] =>
    match matchAt f r [] with
    | some (s', c) => some ⟨acc.reverse, [], s', c⟩
    | none => none
  | acc, x :: t =>
    match matchAt f r (x :: t) with
    | some (s', c) => some ⟨acc.reverse, (x :: t).take ((x :: t).length - s'.length), s', c⟩
    | none => searchFrom f r (x :: acc) t

/-- The call `s.match(r)` for a pattern without the `g` flag (`RegExp.prototype.exec`):
the leftmost match. -/
def search (f : Flags) (r : Re) (s : Str) : Option Match := searchFrom f r [] s

/-- The successive matches of a pattern with the `g` flag, in at most `n` rounds;
after an empty match the next search starts one character further. -/
def globalMatches (f : Flags) (r : Re) : Nat → Str → List Match
  | 0, _ => []
  | n + 1, s =>
    match search f r s with
    | none => []
    | some m =>
      match m.matched, m.rest with
      | [], [] => [m]
      | [], _ :: t => m :: globalMatches f r n t
      | _ :: _, rest => m :: globalMatches f r n rest

/-- The call `s.match(r)` for a pattern with the `g` flag: the matched texts, or
`none` (for `null`) when there is no match. -/
def matchAllG (f : Flags) (r : Re) (s : Str) : Option (List Str) :=
  match globalMatches f r (s.length + 1) s with
  | [] => none
  | ms => some (ms.map (fun m => m.matched))

/-- The call `s.replace(r, repl)` for a pattern without the `g` flag: the
leftmost match is replaced by `repl` applied to it. -/
def replaceFirst (f : Flags) (r : Re) (repl : Match → Str) (s : Str) : Str :=
  match search f r s with
  | none => s
  | some m => m.pre ++ repl m ++ m.rest

/-- The call `s.replace(r, repl)` for a pattern with the `g` flag, in at most `n`
rounds. -/
def replaceAllFrom (f : Flags) (r : Re) (repl : Match → Str) : Nat → Str → Str
  | 0, s => s
  | n + 1, s =>
    match search f r s with
    | none => s
    | some m =>
      match m.matched, m.rest with
      | [], [] => m.pre ++ repl m
      | [], x :: t => m.pre ++ repl m ++ x :: replaceAllFrom f r repl n t
      | _ :: _, rest => m.pre ++ repl m ++ replaceAllFrom f r repl n rest

/-- The call `s.replace(r, repl)` for a pattern with the `g` flag. -/
def replaceAll (f : Flags) (r : Re) (repl : Match → Str) (s : Str) : Str :=
  replaceAllFrom f r repl (s.length + 1) s

/-- The replacement pattern `'$1'`: the first capture, or nothing when the group
did not take part in the match. -/
def dollar1 (m : Match) : Str := (m.cap 1).getD []

/-! ## Extraction of recipe data (`src/recipe-extraction.js`) -/

/-- A literal text as a pattern. -/
def lit (s : String) : Re := Re.str s.toList

/-- The class `[2-3]`. -/
def h23 : Re := .cls false [.range '2' '3']

/-- The class `[0-9]`. -/
def d09 : Re := .cls false [.range '0' '9']

/-- The escape `\s`. -/
def ws : Re := .cls false [.space]

/-- The escape `\d`. -/
def dg : Re := .cls false [.digit]

/-- The flags `i`. -/
def flagsI : Flags := ⟨true, false⟩

/-- The flags `is`. -/
def flagsIS : Flags := ⟨true, true⟩

/-- No flag (the flag `g` is in the choice of the calling function). -/
def flags0 : Flags := ⟨false, false⟩

/-- The pattern `(?:(?!<h[2-3]).)*?`: lazily, characters at which no heading of
level 2 or 3 opens. -/
def noHeading : Re := .star false (.seq (.nlook (.seq (lit "<h") h23)) .any)

/-- The pattern `<h[2-3]>(?:Recipe:\s*)?(.+?)\s*(?:Recipe)?<\/h[2-3]>` (flag `i`). -/
def titleRe1 : Re :=
  Re.cat [lit "<h", h23, .chr '>', .opt true (.seq (lit "Recipe:") (.star true ws)),
    .group 1 (.plus false .any), .star true ws, .opt true (lit "Recipe"), lit "</h", h23, .chr '>']

/-- The pattern `<h[2-3]>(.+?recipe.+?)<\/h[2-3]>` (flag `i`). -/
def titleRe2 : Re :=
  Re.cat [lit "<h", h23, .chr '>',
    .group 1 (Re.cat [.plus false .any, lit "recipe", .plus false .any]), lit "</h", h23, .chr '>']

/-- The pattern `<h[2-3]>(.+?)<\/h[2-3]>(?:(?!<h[2-3]).)*?ingredients` (flags `is`). -/
def titleRe3 : Re :=
  Re.cat [lit "<h", h23, .chr '>', .group 1 (.plus false .any), lit "</h", h23, .chr '>',
    noHeading, lit "ingredients"]

/-- The heading-scoped pattern
`<h[2-3][^>]*>.*?WORD.*?<\/h[2-3]>(?:(?!<h[2-3]).)*?<OPEN>(.*?)<\/CLOSE>`, for a
pattern `word` of the heading and the patterns `tag` of the element names. -/
def sectionRe (word tag : Re) : Re :=
  Re.cat [lit "<h", h23, .star true (.cls true [.chr '>']), .chr '>', .star false .any, word,
    .star false .any, lit "</h", h23, .chr '>', noHeading, .chr '<', tag, .chr '>',
    .group 1 (.star false .any), lit "</", tag, .chr '>']

/-- The pattern
`<h[2-3][^>]*>.*?ingredients.*?<\/h[2-3]>(?:(?!<h[2-3]).)*?<ul>(.*?)<\/ul>` (flags `is`). -/
def ingredientsRegex : Re := sectionRe (lit "ingredients") (lit "ul")

/-- The pattern `<ul>(.*?)<\/ul>` (flags `is`). -/
def anyListRegex : Re := Re.cat [lit "<ul>", .group 1 (.star false .any), lit "</ul>"]

/-- The pattern
`<h[2-3][^>]*>.*?instructions.*?<\/h[2-3]>(?:(?!<h[2-3]).)*?<ol>(.*?)<\/ol>` (flags `is`). -/
def instructionsRegex : Re := sectionRe (lit "instructions") (lit "ol")

/-- The pattern `<ol>(.*?)<\/ol>` (flags `is`). -/
def anyOrderedListRegex : Re := Re.cat [lit "<ol>", .group 1 (.star false .any), lit "</ol>"]

/-- The pattern `<li>(.*?)<\/li>` (used with the flag `g`, and with the flag `i`). -/
def liRe : Re := Re.cat [lit "<li>", .group 1 (.star false .any), lit "</li>"]

/-- The pattern `<[^>]*>` (flag `g`). -/
def tagRe : Re := Re.cat [.chr '<', .star true (.cls true [.chr '>']), .chr '>']

/-- The unit of a duration, `(?:minute|min|hour|hr)s?`. -/
def timeUnit : Re :=
  .seq (.alt (lit "minute") (.alt (lit "min") (.alt (lit "hour") (lit "hr")))) (.opt true (.chr 's'))

/-- The pattern `prep(?:aration)? time:?\s*([0-9]+\s*(?:minute|min|hour|hr)s?)` (flag `i`). -/
def prepTimeRegex : Re :=
  Re.cat [lit "prep", .opt true (lit "aration"), lit " time", .opt true (.chr ':'), .star true ws,
    .group 1 (Re.cat [.plus true d09, .star true ws, timeUnit])]

/-- The pattern `cook(?:ing)? time:?\s*([0-9]+\s*(?:minute|min|hour|hr)s?)` (flag `i`). -/
def cookTimeRegex : Re :=
  Re.cat [lit "cook", .opt true (lit "ing"), lit " time", .opt true (.chr ':'), .star true ws,
    .group 1 (Re.cat [.plus true d09, .star true ws, timeUnit])]

/-- The pattern
`(?:servings|yield|serves):?\s*([0-9]+(?:-[0-9]+)?(?:\s*(?:person|people|serving)s?)?)`
(flag `i`). -/
def servingsRegex : Re :=
  Re.cat [.alt (lit "servings") (.alt (lit "yield") (lit "serves")), .opt true (.chr ':'),
    .star true ws,
    .group 1 (Re.cat [.plus true d09, .opt true (.seq (.chr '-') (.plus true d09)),
      .opt true (Re.cat [.star true ws,
        .alt (lit "person") (.alt (lit "people") (lit "serving")), .opt true (.chr 's')])])]

/-- The pattern
`<h[2-3][^>]*>.*?(?:notes|tips).*?<\/h[2-3]>(?:(?!<h[2-3]).)*?<(?:ul|p)>(.*?)<\/(?:ul|p)>`
(flags `is`). -/
def notesRegex : Re := sectionRe (.alt (lit "notes") (lit "tips")) (.alt (lit "ul") (lit "p"))

/-- The pattern
`<h[2-3][^>]*>.*?nutrition.*?<\/h[2-3]>(?:(?!<h[2-3]).)*?<(?:ul|p)>(.*?)<\/(?:ul|p)>`
(flags `is`). -/
def nutritionRegex : Re := sectionRe (lit "nutrition") (.alt (lit "ul") (lit "p"))

/-- A decimal quantity, `[0-9]+(?:\.[0-9]+)?`. -/
def decimalRe : Re := .seq (.plus true d09) (.opt true (.seq (.chr '.') (.plus true d09)))

/-- The pattern `calories:?\s*([0-9]+(?:\.[0-9]+)?\s*(?:kcal)?)` (flag `i`). -/
def caloriesRegex : Re :=
  Re.cat [lit "calories", .opt true (.chr ':'), .star true ws,
    .group 1 (Re.cat [decimalRe, .star true ws, .opt true (lit "kcal")])]

/-- The patterns `protein:?\s*([0-9]+(?:\.[0-9]+)?\s*g)`, `carbs?:?...` and
`fat:?...` (flag `i`), for the pattern `name` of the nutrient. -/
def gramsRegex (name : Re) : Re :=
  Re.cat [name, .opt true (.chr ':'), .star true ws,
    .group 1 (Re.cat [decimalRe, .star true ws, .chr 'g'])]

/-- The nutrition values of a recipe. -/
structure NutritionInfo where
  Calories : Str
  Protein : Str
  Carbs : Str
  Fat : Str
deriving DecidableEq, Repr

/-- The record returned by `extractRecipeData`. -/
structure RecipeData where
  title : Str
  ingredients : List Str
  instructions : List Str
  prep_time : Str
  cook_time : Str
  yield : Str
  notes : List Str
  nutrition_info : NutritionInfo
deriving DecidableEq, Repr

/-- The seven marker phrases of the indicator gate. -/
def recipeIndicators : List Str :=
  ["ingredients:".toList, "instructions:".toList, "preparation time:".toList,
   "cooking time:".toList, "servings:".toList, "prep time:".toList, "cook time:".toList]

/-- The test `hasRecipeIndicators`: some marker phrase occurs in the lower-cased
content. -/
def hasRecipeIndicators (content : Str) : Bool :=
  recipeIndicators.any (fun p => includes (toLowerCase content) p)

/-- The first capture of a match when it is truthy (a non-empty string), as in
`m && m[1]`. -/
def truthyCap1 (m : Option Match) : Option Str :=
  match m with
  | none => none
  | some m =>
    match m.cap 1 with
    | some (x :: t) => some (x :: t)
    | _ => none

/-- The text of one list item: the mapping
`item.replace(/<li>(.*?)<\/li>/i, '$1').replace(/<[^>]*>/g, '').trim()`. -/
def cleanItem (item : Str) : Str :=
  trim (replaceAll flags0 tagRe (fun _ => []) (replaceFirst flagsI liRe dollar1 item))

/-- The items `inner.match(/<li>(.*?)<\/li>/g)`, each cleaned; `none` when there
is no item. -/
def listItems (inner : Str) : Option (List Str) :=
  (matchAllG flags0 liRe inner).map (fun items => items.map cleanItem)

/-- The title: the first of the three title patterns that matches gives its
trimmed first capture; otherwise the keyword. -/
def extractTitle (content keyword : Str) : Str :=
  match truthyCap1 (search flagsI titleRe1 content) with
  | some t => trim t
  | none =>
    match truthyCap1 (search flagsI titleRe2 content) with
    | some t => trim t
    | none =>
      match truthyCap1 (search flagsIS titleRe3 content) with
      | some t => trim t
      | none => keyword

/-- The items of the list found by `primary`, or else of the list found by
`fallback`, or else none. -/
def extractList (primary fallback : Re) (content : Str) : List Str :=
  let first : List Str :=
    match truthyCap1 (search flagsIS primary content) with
    | some inner => (listItems inner).getD []
    | none => []
  if first.length = 0 then
    match truthyCap1 (search flagsIS fallback content) with
    | some inner => (listItems inner).getD first
    | none => first
  else first

/-- A timing or servings field: the trimmed first capture, or `'N/A'`. -/
def extractField (r : Re) (content : Str) : Str :=
  match truthyCap1 (search flagsI r content) with
  | some t => trim t
  | none => "N/A".toList

/-- The notes: the items of the list, or the text of the paragraph, after a
notes or tips heading. -/
def extractNotes (content : Str) : List Str :=
  match truthyCap1 (search flagsIS notesRegex content) with
  | none => []
  | some inner =>
    if includes inner "<li>".toList then
      (listItems inner).getD []
    else
      let noteText := trim (replaceAll flags0 tagRe (fun _ => []) inner)
      if noteText.length = 0 then [] else [noteText]

/-- One nutrient in grams: the trimmed first capture, or the value so far. -/
def extractGrams (name : Re) (nutritionText old : Str) : Str :=
  match truthyCap1 (search flagsI (gramsRegex name) nutritionText) with
  | some t => trim t
  | none => old

/-- The calories: the trimmed first capture, with `' kcal'` appended when the
unit is missing. -/
def extractCalories (nutritionText : Str) : Str :=
  match truthyCap1 (search flagsI caloriesRegex nutritionText) with
  | some t =>
    if includes (toLowerCase (trim t)) "kcal".toList then trim t else trim t ++ " kcal".toList
  | none => "N/A".toList

/-- The nutrition values found after a nutrition heading. -/
def extractNutrition (content : Str) : NutritionInfo :=
  match truthyCap1 (search flagsIS nutritionRegex content) with
  | none => ⟨"N/A".toList, "N/A".toList, "N/A".toList, "N/A".toList⟩
  | some inner =>
    let nutritionText := trim (replaceAll flags0 tagRe (fun _ => []) inner)
    ⟨extractCalories nutritionText,
     extractGrams (lit "protein") nutritionText "N/A".toList,
     extractGrams (.seq (lit "carb") (.opt true (.chr 's'))) nutritionText "N/A".toList,
     extractGrams (lit "fat") nutritionText "N/A".toList⟩

/-- The function `extractRecipeData(content, keyword)`; `none` is `null`. -/
def extractRecipeData (content keyword : Str) : Option RecipeData :=
  if content.length = 0 then none
  else if !hasRecipeIndicators content then none
  else
    let title := extractTitle content keyword
    let ingredients := extractList ingredientsRegex anyListRegex content
    let instructions := extractList instructionsRegex anyOrderedListRegex content
    let prepTime := extractField prepTimeRegex content
    let cookTime := extractField cookTimeRegex content
    let yield := extractField servingsRegex content
    let notes := extractNotes content
    let nutritionInfo := extractNutrition content
    if ingredients.length = 0 || instructions.length = 0 then none
    else some ⟨title, ingredients, instructions, prepTime, cookTime, yield, notes, nutritionInfo⟩

/-! ## Time and servings (`src/wp-recipe-maker.js`, `src/recipe-helper.js`) -/

/-- The pattern `(\d+)\s*(?:hour|hr)s?` (flag `i`). -/
def hoursRegex : Re :=
  Re.cat [.group 1 (.plus true dg), .star true ws, .alt (lit "hour") (lit "hr"), .opt true (.chr 's')]

/-- The pattern `(\d+)\s*(?:minute|min)s?` (flag `i`). -/
def minutesRegex : Re :=
  Re.cat [.group 1 (.plus true dg), .star true ws, .alt (lit "minute") (lit "min"),
    .opt true (.chr 's')]

/-- The capture `m[i]` of a match, the empty string standing for `undefined`
(the groups used here always take part in the match). -/
def Match.capD (m : Match) (i : Nat) : Str := (m.cap i).getD []

/-- The function `extractTimeMinutes(timeString)` of `wp-recipe-maker.js`. -/
def extractTimeMinutes (timeString : Str) : Number :=
  if timeString.length = 0 || timeString = "N/A".toList then 0
  else
    let minutes : Number := 0
    let minutes :=
      match search flagsI hoursRegex timeString with
      | some m => minutes.add (parseInt (m.capD 1)).times60
      | none => minutes
    let minutes :=
      match search flagsI minutesRegex timeString with
      | some m => minutes.add (parseInt (m.capD 1))
      | none => minutes
    minutes

/-- The function `Math.round` on a rational argument: the nearest integer, a
half rounding up. -/
def mathRound (q : ℚ) : ℤ := ⌊q + 1 / 2⌋

/-- The value `Math.round(x / 2)`: the half of a Number of this kind is a double
(an integer, or an integer and a half below `2 ^ 52`), so the division is exact,
and `Math.round` gives the nearest integer, a half rounding up. -/
def Number.halfRounded : Number → Number
  | .fin v => .fin (mathRound ((v : ℚ) / 2)).toNat
  | .inf => .inf

/-- The test that a Number is a positive integer. -/
def Number.isPositiveInteger : Number → Bool
  | .fin n => decide (1 ≤ n)
  | .inf => false

/-- The pattern `(\d+)\s*-\s*(\d+)` (no flag). -/
def rangeRegex : Re :=
  Re.cat [.group 1 (.plus true dg), .star true ws, .chr '-', .star true ws, .group 2 (.plus true dg)]

/-- The pattern `(\d+)` (no flag). -/
def numberRegex : Re := .group 1 (.plus true dg)

/-- The function `extractServings(yieldString)`, the same in `wp-recipe-maker.js`
and in `recipe-helper.js`. -/
def extractServings (yieldString : Str) : Number :=
  if yieldString.length = 0 || yieldString = "N/A".toList then 4
  else
    match search flags0 rangeRegex yieldString with
    | some m => ((parseInt (m.capD 1)).add (parseInt (m.capD 2))).halfRounded
    | none =>
      match search flags0 numberRegex yieldString with
      | some m => parseInt (m.capD 1)
      | none => 4

/-! ## Instruction groups (`src/recipe-helper.js`, `src/wp-recipe-maker.js`) -/

/-- One step of an instruction group in the payload of WP Recipe Maker. -/
structure InstructionStep where
  uid : Nat
  name : Str
  text : Str
  image : Nat
  ingredients : List Str
deriving DecidableEq, Repr

/-- One instruction group in the payload of WP Recipe Maker. -/
structure InstructionGroup where
  name : Str
  uid : ℤ
  instructions : List InstructionStep
deriving DecidableEq, Repr

/-- A group before formatting: `{ name, instructions }`. -/
structure RawGroup where
  name : Str
  instructions : List Str
deriving DecidableEq, Repr

/-- The variables of the header scan. -/
structure ScanState where
  groupedInstructions : List RawGroup
  currentGroup : Option Str
  groupInstructions : List Str
deriving DecidableEq, Repr

/-- The header test `instruction.startsWith('Step') || instruction.includes(':')`. -/
def isStepHeader (instruction : Str) : Bool :=
  startsWith instruction "Step".toList || includes instruction ":".toList

/-- The body of the loop `for (const instruction of instructions)`. -/
def scanStep (st : ScanState) (instruction : Str) : ScanState :=
  if isStepHeader instruction then
    match st.currentGroup with
    | some (x :: g) =>
      if st.groupInstructions.length > 0 then
        ⟨st.groupedInstructions ++ [⟨x :: g, st.groupInstructions⟩], some instruction, []⟩
      else ⟨st.groupedInstructions, some instruction, st.groupInstructions⟩
    | _ => ⟨st.groupedInstructions, some instruction, st.groupInstructions⟩
  else ⟨st.groupedInstructions, st.currentGroup, st.groupInstructions ++ [instruction]⟩

/-- The flush after the loop: "Don't forget to add the last group". -/
def scanFlush (st : ScanState) : List RawGroup :=
  match st.currentGroup with
  | some (x :: g) =>
    if st.groupInstructions.length > 0 then
      st.groupedInstructions ++ [⟨x :: g, st.groupInstructions⟩]
    else st.groupedInstructions
  | _ => st.groupedInstructions

/-- The header scan: the loop over the instructions, then the flush. -/
def scanGroups (instructions : List Str) : List RawGroup :=
  scanFlush (instructions.foldl scanStep ⟨[], none, []⟩)

/-- The call `xs.map((x, index) => f(x, index))`, the indices counted from `i`. -/
def mapIndexFrom {α β : Type} (f : α → Nat → β) : Nat → List α → List β
  | _, [] => []
  | i, x :: t => f x i :: mapIndexFrom f (i + 1) t

/-- The call `xs.map((x, index) => f(x, index))`. -/
def mapIndex {α β : Type} (f : α → Nat → β) (xs : List α) : List β := mapIndexFrom f 0 xs

/-- One formatted step: `{ uid: index, name: "", text: '<p>' + instruction + '</p>', image: 0,
ingredients: [] }`. -/
def formatStep (instruction : Str) (index : Nat) : InstructionStep :=
  ⟨index, [], "<p>".toList ++ instruction ++ "</p>".toList, 0, []⟩

/-- One formatted group: `{ name: group.name, uid: groupIndex, instructions: ... }`. -/
def formatGroup (group : RawGroup) (groupIndex : Nat) : InstructionGroup :=
  ⟨group.name, (groupIndex : ℤ), mapIndex formatStep group.instructions⟩

/-- The function `processInstructionsIntoGroups(instructions)` of `recipe-helper.js`. -/
def processInstructionsIntoGroups (instructions : List Str) : List InstructionGroup :=
  let groupedInstructions := scanGroups instructions
  let groupedInstructions :=
    if groupedInstructions.length = 0 then [⟨"Instructions".toList, instructions⟩]
    else groupedInstructions
  mapIndex formatGroup groupedInstructions

/-- `String.prototype.indexOf`: the position of the first occurrence, or `-1`. -/
def indexOf : Str → Str → ℤ
  | [], p => if startsWith [] p then 0 else -1
  | c :: s, p =>
    if startsWith (c :: s) p then 0
    else
      let i := indexOf s p
      if i < 0 then -1 else i + 1

/-- The call `s.substring(start)`: a negative `start` counts as 0. -/
def substringFrom (s : Str) (start : ℤ) : Str := s.drop start.toNat

/-- The call `s.split(sep)` for a separator of one character. -/
def splitOnChar (sep : Char) : Str → List Str
  | [] => [[]]
  | c :: t =>
    if c == sep then [] :: splitOnChar sep t
    else
      match splitOnChar sep t with
      | [] => [[c]]
      | w :: rest => (c :: w) :: rest

/-- `Array.prototype.join`. -/
def join (sep : Str) : List Str → Str
  | [] => []
  | [x] => x
  | x :: y :: t => x ++ sep ++ join sep (y :: t)

/-- The decimal numeral of a natural number, as in a template literal. -/
def natToStr (n : Nat) : Str := Nat.toDigits 10 n

/-- The list `cookingActions`. -/
def cookingActions : List Str :=
  ["Prepare".toList, "Mix".toList, "Combine".toList, "Cook".toList, "Bake".toList, "Grill".toList,
   "Roast".toList, "Sauté".toList, "Chop".toList, "Slice".toList, "Dice".toList, "Boil".toList,
   "Simmer".toList, "Fry".toList, "Assemble".toList, "Serve".toList]

/-- The table `defaultTitles` of `wp-recipe-maker.js`, with its fallback
`'Step ' + stepNumber`. -/
def defaultTitle (stepNumber : Nat) : Str :=
  match stepNumber with
  | 1 => "Prepare Ingredients".toList
  | 2 => "Cook".toList
  | 3 => "Combine".toList
  | 4 => "Finish".toList
  | 5 => "Serve".toList
  | n => "Step ".toList ++ natToStr n

/-- The title derived from the first action found: the instruction from the
first occurrence of the action in its lower-cased form, cut to four words. -/
def actionTitle (instruction action : Str) : Str :=
  let actionIndex := indexOf (toLowerCase instruction) (toLowerCase action)
  join " ".toList ((splitOnChar ' ' (substringFrom instruction actionIndex)).take 4)

/-- The function `getStepTitle(stepNumber, instruction)` of `wp-recipe-maker.js`. -/
def getStepTitle (stepNumber : Nat) (instruction : Str) : Str :=
  match cookingActions.find? (fun action =>
      includes instruction action || includes instruction (toLowerCase action)) with
  | some action => actionTitle instruction action
  | none => defaultTitle stepNumber

/-- The loop `for (let i = 0; i < n; i += stepSize)` of the chunking fallback,
from the index `i`, in at most `fuel` rounds. -/
def chunkLoop (instructions : List Str) : Nat → Nat → List RawGroup
  | 0, _ => []
  | fuel + 1, i =>
    if i < instructions.length then
      let stepNum := i / 2 + 1
      let stepInstructions := (instructions.drop i).take 2
      ⟨"Step ".toList ++ natToStr stepNum ++ ": ".toList ++
          getStepTitle stepNum (stepInstructions.headD []), stepInstructions⟩ ::
        chunkLoop instructions fuel (i + 2)
    else []

/-- The grouping of `_originalInstructions` in the custom-formatted branch of
`addRecipeToPost` of `wp-recipe-maker.js` (taken when the list is not empty): the
header scan, the chunks of two when the scan gives no group, and the
formatting. -/
def wprmInstructionGroups (originalInstructions : List Str) : List InstructionGroup :=
  let groupedInstructions := scanGroups originalInstructions
  let groupedInstructions :=
    if groupedInstructions.length = 0 then
      chunkLoop originalInstructions originalInstructions.length 0
    else groupedInstructions
  mapIndex formatGroup groupedInstructions

/-! ## Validation of a parsed reply (`generateRecipeData` in `src/recipe-helper.js`) -/

/-- A JSON value, as `JSON.parse` returns it. -/
inductive JVal where
  | null
  | bool (b : Bool)
  | num (q : ℚ)
  | str (s : Str)
  | arr (xs : List JVal)
  | obj (fields : List (Str × JVal))

/-- The truth value of a JSON value in a condition. -/
def JVal.truthy : JVal → Bool
  | .null => false
  | .bool b => b
  | .num q => q != 0
  | .str s => s.length != 0
  | .arr _ => true
  | .obj _ => true

/-- The test `!recipeData.field`: the property is missing or its value is falsy. -/
def falsy (v : Option JVal) : Bool :=
  match v with
  | none => true
  | some v => !v.truthy

/-- The object parsed from the reply: the properties read by the validation,
each present or missing, and the other properties. -/
structure ParsedReply where
  title : Option JVal
  description : Option JVal
  ingredients : Option JVal
  instructions : Option JVal
  prep_time : Option JVal
  cook_time : Option JVal
  yield : Option JVal
  others : List (Str × JVal)

/-- The simple upper-case mappings of the characters of the Basic Multilingual
Plane (Unicode 14 and 15), in runs: a character `c` with `lo ≤ c ≤ hi` at a multiple of
`step` from `lo` maps to `target + (c - lo)`.  Each entry is
`(lo, hi, step, target)`. -/
def upperRuns : List (Nat × Nat × Nat × Nat) :=
  [
   (0x61, 0x7A, 1, 0x41), (0xB5, 0xB5, 1, 0x39C), (0xE0, 0xF6, 1, 0xC0), (0xF8, 0xFE, 1, 0xD8),
   (0xFF, 0xFF, 1, 0x178), (0x101, 0x12F, 2, 0x100), (0x131, 0x131, 1, 0x49), (0x133, 0x137, 2, 0x132),
   (0x13A, 0x148, 2, 0x139), (0x14B, 0x177, 2, 0x14A), (0x17A, 0x17E, 2, 0x179), (0x17F, 0x17F, 1, 0x53),
   (0x180, 0x180, 1, 0x243), (0x183, 0x185, 2, 0x182), (0x188, 0x188, 1, 0x187), (0x18C, 0x18C, 1, 0x18B),
   (0x192, 0x192, 1, 0x191), (0x195, 0x195, 1, 0x1F6), (0x199, 0x199, 1, 0x198), (0x19A, 0x19A, 1, 0x23D),
   (0x19E, 0x19E, 1, 0x220), (0x1A1, 0x1A5, 2, 0x1A0), (0x1A8, 0x1A8, 1, 0x1A7), (0x1AD, 0x1AD, 1, 0x1AC),
   (0x1B0, 0x1B0, 1, 0x1AF), (0x1B4, 0x1B6, 2, 0x1B3), (0x1B9, 0x1B9, 1, 0x1B8), (0x1BD, 0x1BD, 1, 0x1BC),
   (0x1BF, 0x1BF, 1, 0x1F7), (0x1C5, 0x1C5, 1, 0x1C4), (0x1C6, 0x1C6, 1, 0x1C4), (0x1C8, 0x1C8, 1, 0x1C7),
   (0x1C9, 0x1C9, 1, 0x1C7), (0x1CB, 0x1CB, 1, 0x1CA), (0x1CC, 0x1CC, 1, 0x1CA), (0x1CE, 0x1DC, 2, 0x1CD),
   (0x1DD, 0x1DD, 1, 0x18E), (0x1DF, 0x1EF, 2, 0x1DE), (0x1F2, 0x1F2, 1, 0x1F1), (0x1F3, 0x1F3, 1, 0x1F1),
   (0x1F5, 0x1F5, 1, 0x1F4), (0x1F9, 0x21F, 2, 0x1F8), (0x223, 0x233, 2, 0x222), (0x23C, 0x23C, 1, 0x23B),
   (0x23F, 0x240, 1, 0x2C7E), (0x242, 0x242, 1, 0x241), (0x247, 0x24F, 2, 0x246), (0x250, 0x250, 1, 0x2C6F),
   (0x251, 0x251, 1, 0x2C6D), (0x252, 0x252, 1, 0x2C70), (0x253, 0x253, 1, 0x181), (0x254, 0x254, 1, 0x186),
   (0x256, 0x257, 1, 0x189), (0x259, 0x259, 1, 0x18F), (0x25B, 0x25B, 1, 0x190), (0x25C, 0x25C, 1, 0xA7AB),
   (0x260, 0x260, 1, 0x193), (0x261, 0x261, 1, 0xA7AC), (0x263, 0x263, 1, 0x194), (0x265, 0x265, 1, 0xA78D),
   (0x266, 0x266, 1, 0xA7AA), (0x268, 0x268, 1, 0x197), (0x269, 0x269, 1, 0x196), (0x26A, 0x26A, 1, 0xA7AE),
   (0x26B, 0x26B, 1, 0x2C62), (0x26C, 0x26C, 1, 0xA7AD), (0x26F, 0x26F, 1, 0x19C), (0x271, 0x271, 1, 0x2C6E),
   (0x272, 0x272, 1, 0x19D), (0x275, 0x275, 1, 0x19F), (0x27D, 0x27D, 1, 0x2C64), (0x280, 0x280, 1, 0x1A6),
   (0x282, 0x282, 1, 0xA7C5), (0x283, 0x283, 1, 0x1A9), (0x287, 0x287, 1, 0xA7B1), (0x288, 0x288, 1, 0x1AE),
   (0x289, 0x289, 1, 0x244), (0x28A, 0x28B, 1, 0x1B1), (0x28C, 0x28C, 1, 0x245), (0x292, 0x292, 1, 0x1B7),
   (0x29D, 0x29D, 1, 0xA7B2), (0x29E, 0x29E, 1, 0xA7B0), (0x345, 0x345, 1, 0x399), (0x371, 0x373, 2, 0x370),
   (0x377, 0x377, 1, 0x376), (0x37B, 0x37D, 1, 0x3FD), (0x3AC, 0x3AC, 1, 0x386), (0x3AD, 0x3AF, 1, 0x388),
   (0x3B1, 0x3C1, 1, 0x391), (0x3C2, 0x3C2, 1, 0x3A3), (0x3C3, 0x3CB, 1, 0x3A3), (0x3CC, 0x3CC, 1, 0x38C),
   (0x3CD, 0x3CE, 1, 0x38E), (0x3D0, 0x3D0, 1, 0x392), (0x3D1, 0x3D1, 1, 0x398), (0x3D5, 0x3D5, 1, 0x3A6),
   (0x3D6, 0x3D6, 1, 0x3A0), (0x3D7, 0x3D7, 1, 0x3CF), (0x3D9, 0x3EF, 2, 0x3D8), (0x3F0, 0x3F0, 1, 0x39A),
   (0x3F1, 0x3F1, 1, 0x3A1), (0x3F2, 0x3F2, 1, 0x3F9), (0x3F3, 0x3F3, 1, 0x37F), (0x3F5, 0x3F5, 1, 0x395),
   (0x3F8, 0x3F8, 1, 0x3F7), (0x3FB, 0x3FB, 1, 0x3FA), (0x430, 0x44F, 1, 0x410), (0x450, 0x45F, 1, 0x400),
   (0x461, 0x481, 2, 0x460), (0x48B, 0x4BF, 2, 0x48A), (0x4C2, 0x4CE, 2, 0x4C1), (0x4CF, 0x4CF, 1, 0x4C0),
   (0x4D1, 0x52F, 2, 0x4D0), (0x561, 0x586, 1, 0x531), (0x10D0, 0x10FA, 1, 0x1C90), (0x10FD, 0x10FF, 1, 0x1CBD),
   (0x13F8, 0x13FD, 1, 0x13F0), (0x1C80, 0x1C80, 1, 0x412), (0x1C81, 0x1C81, 1, 0x414), (0x1C82, 0x1C82, 1, 0x41E),
   (0x1C83, 0x1C84, 1, 0x421), (0x1C85, 0x1C85, 1, 0x422), (0x1C86, 0x1C86, 1, 0x42A), (0x1C87, 0x1C87, 1, 0x462),
   (0x1C88, 0x1C88, 1, 0xA64A), (0x1D79, 0x1D79, 1, 0xA77D), (0x1D7D, 0x1D7D, 1, 0x2C63), (0x1D8E, 0x1D8E, 1, 0xA7C6),
   (0x1E01, 0x1E95, 2, 0x1E00), (0x1E9B, 0x1E9B, 1, 0x1E60), (0x1EA1, 0x1EFF, 2, 0x1EA0), (0x1F00, 0x1F07, 1, 0x1F08),
   (0x1F10, 0x1F15, 1, 0x1F18), (0x1F20, 0x1F27, 1, 0x1F28), (0x1F30, 0x1F37, 1, 0x1F38), (0x1F40, 0x1F45, 1, 0x1F48),
   (0x1F51, 0x1F57, 2, 0x1F59), (0x1F60, 0x1F67, 1, 0x1F68), (0x1F70, 0x1F71, 1, 0x1FBA), (0x1F72, 0x1F75, 1, 0x1FC8),
   (0x1F76, 0x1F77, 1, 0x1FDA), (0x1F78, 0x1F79, 1, 0x1FF8), (0x1F7A, 0x1F7B, 1, 0x1FEA), (0x1F7C, 0x1F7D, 1, 0x1FFA),
   (0x1FB0, 0x1FB1, 1, 0x1FB8), (0x1FBE, 0x1FBE, 1, 0x399), (0x1FD0, 0x1FD1, 1, 0x1FD8), (0x1FE0, 0x1FE1, 1, 0x1FE8),
   (0x1FE5, 0x1FE5, 1, 0x1FEC), (0x214E, 0x214E, 1, 0x2132), (0x2170, 0x217F, 1, 0x2160), (0x2184, 0x2184, 1, 0x2183),
   (0x24D0, 0x24E9, 1, 0x24B6), (0x2C30, 0x2C5F, 1, 0x2C00), (0x2C61, 0x2C61, 1, 0x2C60), (0x2C65, 0x2C65, 1, 0x23A),
   (0x2C66, 0x2C66, 1, 0x23E), (0x2C68, 0x2C6C, 2, 0x2C67), (0x2C73, 0x2C73, 1, 0x2C72), (0x2C76, 0x2C76, 1, 0x2C75),
   (0x2C81, 0x2CE3, 2, 0x2C80), (0x2CEC, 0x2CEE, 2, 0x2CEB), (0x2CF3, 0x2CF3, 1, 0x2CF2), (0x2D00, 0x2D25, 1, 0x10A0),
   (0x2D27, 0x2D27, 1, 0x10C7), (0x2D2D, 0x2D2D, 1, 0x10CD), (0xA641, 0xA66D, 2, 0xA640), (0xA681, 0xA69B, 2, 0xA680),
   (0xA723, 0xA72F, 2, 0xA722), (0xA733, 0xA76F, 2, 0xA732), (0xA77A, 0xA77C, 2, 0xA779), (0xA77F, 0xA787, 2, 0xA77E),
   (0xA78C, 0xA78C, 1, 0xA78B), (0xA791, 0xA793, 2, 0xA790), (0xA794, 0xA794, 1, 0xA7C4), (0xA797, 0xA7A9, 2, 0xA796),
   (0xA7B5, 0xA7C3, 2, 0xA7B4), (0xA7C8, 0xA7CA, 2, 0xA7C7), (0xA7D1, 0xA7D1, 1, 0xA7D0), (0xA7D7, 0xA7D9, 2, 0xA7D6),
   (0xA7F6, 0xA7F6, 1, 0xA7F5), (0xAB53, 0xAB53, 1, 0xA7B3), (0xAB70, 0xABBF, 1, 0x13A0), (0xFF41, 0xFF5A, 1, 0xFF21)]

/-- The upper-case mappings that give more than one character (the unconditional
mappings of `SpecialCasing.txt`), such as the sharp s giving `SS`. -/
def upperSpecial : List (Nat × List Nat) :=
  [
   (0xDF, [0x53, 0x53]), (0x149, [0x2BC, 0x4E]), (0x1F0, [0x4A, 0x30C]),
   (0x390, [0x399, 0x308, 0x301]), (0x3B0, [0x3A5, 0x308, 0x301]), (0x587, [0x535, 0x552]),
   (0x1E96, [0x48, 0x331]), (0x1E97, [0x54, 0x308]), (0x1E98, [0x57, 0x30A]),
   (0x1E99, [0x59, 0x30A]), (0x1E9A, [0x41, 0x2BE]), (0x1F50, [0x3A5, 0x313]),
   (0x1F52, [0x3A5, 0x313, 0x300]), (0x1F54, [0x3A5, 0x313, 0x301]), (0x1F56, [0x3A5, 0x313, 0x342]),
   (0x1F80, [0x1F08, 0x399]), (0x1F81, [0x1F09, 0x399]), (0x1F82, [0x1F0A, 0x399]),
   (0x1F83, [0x1F0B, 0x399]), (0x1F84, [0x1F0C, 0x399]), (0x1F85, [0x1F0D, 0x399]),
   (0x1F86, [0x1F0E, 0x399]), (0x1F87, [0x1F0F, 0x399]), (0x1F88, [0x1F08, 0x399]),
   (0x1F89, [0x1F09, 0x399]), (0x1F8A, [0x1F0A, 0x399]), (0x1F8B, [0x1F0B, 0x399]),
   (0x1F8C, [0x1F0C, 0x399]), (0x1F8D, [0x1F0D, 0x399]), (0x1F8E, [0x1F0E, 0x399]),
   (0x1F8F, [0x1F0F, 0x399]), (0x1F90, [0x1F28, 0x399]), (0x1F91, [0x1F29, 0x399]),
   (0x1F92, [0x1F2A, 0x399]), (0x1F93, [0x1F2B, 0x399]), (0x1F94, [0x1F2C, 0x399]),
   (0x1F95, [0x1F2D, 0x399]), (0x1F96, [0x1F2E, 0x399]), (0x1F97, [0x1F2F, 0x399]),
   (0x1F98, [0x1F28, 0x399]), (0x1F99, [0x1F29, 0x399]), (0x1F9A, [0x1F2A, 0x399]),
   (0x1F9B, [0x1F2B, 0x399]), (0x1F9C, [0x1F2C, 0x399]), (0x1F9D, [0x1F2D, 0x399]),
   (0x1F9E, [0x1F2E, 0x399]), (0x1F9F, [0x1F2F, 0x399]), (0x1FA0, [0x1F68, 0x399]),
   (0x1FA1, [0x1F69, 0x399]), (0x1FA2, [0x1F6A, 0x399]), (0x1FA3, [0x1F6B, 0x399]),
   (0x1FA4, [0x1F6C, 0x399]), (0x1FA5, [0x1F6D, 0x399]), (0x1FA6, [0x1F6E, 0x399]),
   (0x1FA7, [0x1F6F, 0x399]), (0x1FA8, [0x1F68, 0x399]), (0x1FA9, [0x1F69, 0x399]),
   (0x1FAA, [0x1F6A, 0x399]), (0x1FAB, [0x1F6B, 0x399]), (0x1FAC, [0x1F6C, 0x399]),
   (0x1FAD, [0x1F6D, 0x399]), (0x1FAE, [0x1F6E, 0x399]), (0x1FAF, [0x1F6F, 0x399]),
   (0x1FB2, [0x1FBA, 0x399]), (0x1FB3, [0x391, 0x399]), (0x1FB4, [0x386, 0x399]),
   (0x1FB6, [0x391, 0x342]), (0x1FB7, [0x391, 0x342, 0x399]), (0x1FBC, [0x391, 0x399]),
   (0x1FC2, [0x1FCA, 0x399]), (0x1FC3, [0x397, 0x399]), (0x1FC4, [0x389, 0x399]),
   (0x1FC6, [0x397, 0x342]), (0x1FC7, [0x397, 0x342, 0x399]), (0x1FCC, [0x397, 0x399]),
   (0x1FD2, [0x399, 0x308, 0x300]), (0x1FD3, [0x399, 0x308, 0x301]), (0x1FD6, [0x399, 0x342]),
   (0x1FD7, [0x399, 0x308, 0x342]), (0x1FE2, [0x3A5, 0x308, 0x300]), (0x1FE3, [0x3A5, 0x308, 0x301]),
   (0x1FE4, [0x3A1, 0x313]), (0x1FE6, [0x3A5, 0x342]), (0x1FE7, [0x3A5, 0x308, 0x342]),
   (0x1FF2, [0x1FFA, 0x399]), (0x1FF3, [0x3A9, 0x399]), (0x1FF4, [0x38F, 0x399]),
   (0x1FF6, [0x3A9, 0x342]), (0x1FF7, [0x3A9, 0x342, 0x399]), (0x1FFC, [0x3A9, 0x399]),
   (0xFB00, [0x46, 0x46]), (0xFB01, [0x46, 0x49]), (0xFB02, [0x46, 0x4C]),
   (0xFB03, [0x46, 0x46, 0x49]), (0xFB04, [0x46, 0x46, 0x4C]), (0xFB05, [0x53, 0x54]),
   (0xFB06, [0x53, 0x54]), (0xFB13, [0x544, 0x546]), (0xFB14, [0x544, 0x535]),
   (0xFB15, [0x544, 0x53B]), (0xFB16, [0x54E, 0x546]), (0xFB17, [0x544, 0x53D])]

/-- The upper-case mapping of one character of the Basic Multilingual Plane, as
`String.prototype.toUpperCase` applies it to a string of one character.  A
character outside this plane is left as it is: `charAt(0)` gives the first half
of its surrogate pair only, which has no upper case. -/
def upperChar (c : Char) : Str :=
  match upperSpecial.lookup c.toNat with
  | some u => u.map Char.ofNat
  | none =>
    match upperRuns.find? (fun r =>
        r.1 ≤ c.toNat && c.toNat ≤ r.2.1 && (c.toNat - r.1) % r.2.2.1 == 0) with
    | some r => [Char.ofNat (r.2.2.2 + (c.toNat - r.1))]
    | none => [c]

/-- The expression `keyword.charAt(0).toUpperCase() + keyword.slice(1)`. -/
def capitalize (keyword : Str) : Str :=
  match keyword with
  | [] => []
  | c :: t => upperChar c ++ t

/-- The default ingredients. -/
def sentinelIngredients : JVal :=
  .arr [.str "Please check the recipe description for ingredients".toList]

/-- The default instructions. -/
def sentinelInstructions : JVal :=
  .arr [.str "Please follow the instructions in the article".toList]

/-- The assignment `if (!recipeData.field) recipeData.field = dflt`. -/
def orDefault (v : Option JVal) (dflt : JVal) : Option JVal :=
  if falsy v then some dflt else v

/-- The validation step of `generateRecipeData`: when the title, the ingredients
or the instructions are missing, the missing fields receive their defaults. -/
def validateRecipe (keyword : Str) (recipeData : ParsedReply) : ParsedReply :=
  if falsy recipeData.title || falsy recipeData.ingredients || falsy recipeData.instructions then
    { title := orDefault recipeData.title (.str (capitalize keyword ++ " Recipe".toList))
      ingredients := orDefault recipeData.ingredients sentinelIngredients
      instructions := orDefault recipeData.instructions sentinelInstructions
      description := orDefault recipeData.description
        (.str ("A delicious ".toList ++ keyword ++ " recipe.".toList))
      prep_time := orDefault recipeData.prep_time (.str "30 mins".toList)
      cook_time := orDefault recipeData.cook_time (.str "30 mins".toList)
      yield := orDefault recipeData.yield (.str "4 servings".toList)
      others := recipeData.others }
  else recipeData

/-! ## The reply of the model (`generateRecipeData` in `src/recipe-helper.js`) -/

/-- The pattern `\{[\s\S]*\}` (no flag). -/
def jsonObjectRegex : Re :=
  Re.cat [.chr '{', .star true (.cls false [.space, .nspace]), .chr '}']

/-- The property `key` of an object parsed by `JSON.parse`: of two members with
the same name the later one counts. -/
def fieldOf (key : String) (fields : List (Str × JVal)) : Option JVal :=
  fields.reverse.lookup key.toList

/-- The names of the properties that the validation reads. -/
def validatedKeys : List Str :=
  ["title".toList, "description".toList, "ingredients".toList, "instructions".toList,
   "prep_time".toList, "cook_time".toList, "yield".toList]

/-- The parsed value as the object `recipeData`; `none` when reading a property
of it (`null`) or the length of its missing ingredients (a number, a string, a
boolean) raises a `TypeError`. -/
def JVal.toReply : JVal → Option ParsedReply
  | .obj fields =>
    some
      { title := fieldOf "title" fields
        description := fieldOf "description" fields
        ingredients := fieldOf "ingredients" fields
        instructions := fieldOf "instructions" fields
        prep_time := fieldOf "prep_time" fields
        cook_time := fieldOf "cook_time" fields
        yield := fieldOf "yield" fields
        others := fields.filter (fun p => !(validatedKeys.contains p.1)) }
  | .arr xs =>
    some
      { title := none
        description := none
        ingredients := none
        instructions := none
        prep_time := none
        cook_time := none
        yield := none
        others := mapIndex (fun x i => (natToStr i, x)) xs }
  | _ => none

/-- The nutrition values of the stub records. -/
def stubNutrition : JVal :=
  .obj [("Calories".toList, .str "N/A".toList), ("Protein".toList, .str "N/A".toList),
    ("Carbs".toList, .str "N/A".toList), ("Fat".toList, .str "N/A".toList)]

/-- The "minimal valid recipe object" returned when the reply cannot be parsed. -/
def fallbackStub (keyword : Str) : ParsedReply :=
  { title := some (.str (capitalize keyword ++ " Recipe".toList))
    description := some (.str ("A delicious ".toList ++ keyword ++ " recipe.".toList))
    ingredients := some sentinelIngredients
    instructions := some sentinelInstructions
    prep_time := some (.str "30 mins".toList)
    cook_time := some (.str "30 mins".toList)
    yield := some (.str "4 servings".toList)
    others := [("notes".toList, .arr [.str "Recipe generated as fallback".toList]),
      ("nutrition_info".toList, stubNutrition)] }

/-- The "minimal valid recipe" returned by the outer `catch`. -/
def errorStub (keyword : Str) : ParsedReply :=
  { title := some (.str (capitalize keyword ++ " Recipe".toList))
    description := some (.str ("A delicious ".toList ++ keyword ++ " recipe.".toList))
    ingredients := some sentinelIngredients
    instructions := some sentinelInstructions
    prep_time := some (.str "30 mins".toList)
    cook_time := some (.str "30 mins".toList)
    yield := some (.str "4 servings".toList)
    others := [("notes".toList, .arr [.str "Recipe generated as fallback due to an error".toList]),
      ("nutrition_info".toList, stubNutrition),
      ("cuisine".toList, .arr [.str "International".toList]),
      ("course".toList, .arr [.str "Main Dish".toList]),
      ("difficulty".toList, .str "Medium".toList),
      ("keywords".toList, .arr [.str keyword])] }

/-- The two parsing attempts on the reply text: `JSON.parse(content)`, then
`JSON.parse` of the match of `\{[\s\S]*\}`; `none` when both raise.  The library
function `JSON.parse` is the parameter `jsonParse` (`none` when it raises). -/
def parseReply (jsonParse : Str → Option JVal) (content : Str) : Option JVal :=
  match jsonParse content with
  | some v => some v
  | none =>
    match search flags0 jsonObjectRegex content with
    | some m => jsonParse m.matched
    | none => none

/-- The function `generateRecipeData` from the reply of the model on: `response`
is the text of the reply (`none` when the call raises), `jsonParse` is
`JSON.parse`, and `format` is the custom formatting of the record, applied last
(`recipeFormatter`, which raises nothing). -/
def generateRecipeData (jsonParse : Str → Option JVal) (format : ParsedReply → ParsedReply)
    (keyword : Str) (response : Option Str) : ParsedReply :=
  match response with
  | none => errorStub keyword
  | some content =>
    match parseReply jsonParse content with
    | none => fallbackStub keyword
    | some v =>
      match v.toReply with
      | none => errorStub keyword
      | some recipeData => format (validateRecipe keyword recipeData)

/-! ## Formatting (`src/recipe-formatter.js`) -/

/-- A recipe record whose lists hold strings, with the properties added by the
formatting. -/
structure RecipeRecord where
  title : Str
  description : Option Str
  ingredients : List Str
  instructions : List Str
  prep_time : Str
  cook_time : Str
  yield : Str
  notes : List Str
  nutrition_info : NutritionInfo
  _originalIngredients : Option (List Str)
  _originalInstructions : Option (List Str)
  _customFormatted : Bool
  _customTemplate : Option Str
deriving DecidableEq, Repr

/-- The configuration `customRecipeFormat`. -/
structure FormatConfig where
  enabled : Bool
  customTemplate : Option Str
  useFixedTemplate : Bool
deriving DecidableEq, Repr

/-- The text before and the text after the first occurrence of `pat` in a
string, if there is one. -/
def splitAtFirst (pat : Str) : Str → Option (Str × Str)
  | [] => if startsWith [] pat then some ([], []) else none
  | c :: t =>
    if startsWith (c :: t) pat then some ([], (c :: t).drop pat.length)
    else
      match splitAtFirst pat t with
      | some (pre, post) => some (c :: pre, post)
      | none => none

/-- ECMAScript `GetSubstitution` for a replacement text when the pattern is a
string (no capture): `$$` is a dollar sign, `$&` the matched text, a dollar sign
with a backtick the text before the match and with an apostrophe the text after
it; every other character stands for itself. -/
def expandDollar (matched pre post : Str) : Str → Str
  | [] => []
  | [c] => [c]
  | c :: d :: t =>
    if c == '$' then
      if d == '$' then '$' :: expandDollar matched pre post t
      else if d == '&' then matched ++ expandDollar matched pre post t
      else if d.toNat == 0x60 then pre ++ expandDollar matched pre post t
      else if d.toNat == 0x27 then post ++ expandDollar matched pre post t
      else c :: expandDollar matched pre post (d :: t)
    else c :: expandDollar matched pre post (d :: t)

/-- The call `s.replace(pat, repl)` for a string pattern: the first occurrence of
`pat` is replaced by the expansion of `repl`. -/
def replaceStr (s pat repl : Str) : Str :=
  match splitAtFirst pat s with
  | none => s
  | some (pre, post) => pre ++ expandDollar pat pre post repl ++ post

/-- The list `ingredients.map(ingredient => '* ' + ingredient).join('\n')`. -/
def bulletList (ingredients : List Str) : Str :=
  join "\n".toList (ingredients.map (fun ingredient => "* ".toList ++ ingredient))

/-- The list of the items `'Step ' + (index + 1) + ': ' + instruction`, joined by
an empty line. -/
def stepList (instructions : List Str) : Str :=
  join "\n\n".toList (mapIndex (fun instruction index =>
    "Step ".toList ++ natToStr (index + 1) ++ ": ".toList ++ instruction) instructions)

/-- The default template of `formatRecipeData`. -/
def defaultTemplate : Str :=
  "**Ingredients**\n**  **\n* {ingredients}\n\n**Instructions**\n** **\n{instructions}".toList

/-- The template after the two substitutions of `formatRecipeData`. -/
def fillTemplate (customTemplate : Str) (ingredients instructions : List Str) : Str :=
  let t1 :=
    if includes customTemplate "{ingredients}".toList then
      replaceStr customTemplate "{ingredients}".toList (bulletList ingredients)
    else customTemplate
  if includes t1 "{instructions}".toList then
    replaceStr t1 "{instructions}".toList (stepList instructions)
  else t1

/-- The function `formatRecipeData(recipeData, formatConfig)`; the deep copy of a
record of strings is the record itself. -/
def formatRecipeData (recipeData : RecipeRecord) (formatConfig : Option FormatConfig) :
    RecipeRecord :=
  match formatConfig with
  | none => recipeData
  | some cfg =>
    if !cfg.enabled then recipeData
    else
      let customTemplate :=
        match cfg.customTemplate with
        | none => defaultTemplate
        | some t => if t.length = 0 || (trim t).length = 0 then defaultTemplate else t
      { recipeData with
        _originalIngredients := some recipeData.ingredients
        _originalInstructions := some recipeData.instructions
        _customFormatted := true
        _customTemplate :=
          some (fillTemplate customTemplate recipeData.ingredients recipeData.instructions) }

namespace Formatter

/-- The table `defaultTitles` of `recipe-formatter.js`, with its fallback
`'Step ' + stepNumber`. -/
def defaultTitle (stepNumber : Nat) : Str :=
  match stepNumber with
  | 1 => "Prepare Ingredients".toList
  | 2 => "Mix Components".toList
  | 3 => "Cook".toList
  | 4 => "Combine".toList
  | 5 => "Finish and Serve".toList
  | n => "Step ".toList ++ natToStr n

/-- The function `getStepTitle(stepNumber, instruction)` of `recipe-formatter.js`. -/
def getStepTitle (stepNumber : Nat) (instruction : Str) : Str :=
  match cookingActions.find? (fun action =>
      includes instruction action || includes instruction (toLowerCase action)) with
  | some action => actionTitle instruction action
  | none => defaultTitle stepNumber

/-- The variables of the scan of `useFixedTemplate`. -/
structure FixedState where
  processedInstructions : List RawGroup
  currentStep : Str
  currentStepInstructions : List Str
deriving DecidableEq, Repr

/-- The body of the loop over `_originalInstructions` in `useFixedTemplate`. -/
def fixedStep (st : FixedState) (instructionText : Str) : FixedState :=
  if includes instructionText ":".toList || startsWith instructionText "Step".toList then
    if st.currentStep.length != 0 && st.currentStepInstructions.length > 0 then
      ⟨st.processedInstructions ++ [⟨st.currentStep, st.currentStepInstructions⟩],
        instructionText, []⟩
    else ⟨st.processedInstructions, instructionText, st.currentStepInstructions⟩
  else ⟨st.processedInstructions, st.currentStep, st.currentStepInstructions ++ [instructionText]⟩

/-- The flush after the loop: "Don't forget to add the last step if exists". -/
def fixedFlush (st : FixedState) : List RawGroup :=
  if st.currentStep.length != 0 && st.currentStepInstructions.length > 0 then
    st.processedInstructions ++ [⟨st.currentStep, st.currentStepInstructions⟩]
  else st.processedInstructions

/-- The loop `for (let i = 0; i < n; i += stepSize)` of `useFixedTemplate`, from the
index `i`, in at most `fuel` rounds. -/
def chunkLoop (instructions : List Str) : Nat → Nat → List RawGroup
  | 0, _ => []
  | fuel + 1, i =>
    if i < instructions.length then
      let stepInstructions := (instructions.drop i).take 2
      if stepInstructions.length > 0 then
        let stepNumber := i / 2 + 1
        ⟨"Step ".toList ++ natToStr stepNumber ++ ": ".toList ++
            getStepTitle stepNumber (stepInstructions.headD []), stepInstructions⟩ ::
          chunkLoop instructions fuel (i + 2)
      else chunkLoop instructions fuel (i + 2)
    else []

/-- The steps of `useFixedTemplate`: the scan, or the chunks of two when the scan
gives no step. -/
def processSteps (instructions : List Str) : List RawGroup :=
  let processedInstructions := fixedFlush (instructions.foldl fixedStep ⟨[], [], []⟩)
  if processedInstructions.length = 0 && instructions.length > 0 then
    chunkLoop instructions instructions.length 0
  else processedInstructions

/-- One step of the template: its title in bold, then its numbered lines. -/
def renderStep (step : RawGroup) : Str :=
  "**".toList ++ step.name ++ "**".toList ++ "\n".toList ++
    join "\n".toList (mapIndex (fun inst idx => natToStr (idx + 1) ++ "- ".toList ++ inst)
      step.instructions)

end Formatter

/-- The function `useFixedTemplate(recipeData)`. -/
def useFixedTemplate (recipeData : RecipeRecord) : RecipeRecord :=
  let ingredientsList := bulletList recipeData.ingredients
  let instructionsList :=
    join "\n\n".toList ((Formatter.processSteps recipeData.instructions).map Formatter.renderStep)
  { recipeData with
    _originalIngredients := some recipeData.ingredients
    _originalInstructions := some recipeData.instructions
    _customFormatted := true
    _customTemplate :=
      some ("**Ingredients**\n**  **\n".toList ++ ingredientsList ++
        "\n\n**Instructions**\n** **\n".toList ++ instructionsList) }

/-! ## The ingredient groups of the payload (`addRecipeToPost` in `src/wp-recipe-maker.js`) -/

/-- One ingredient of the payload of WP Recipe Maker. -/
structure IngredientEntry where
  uid : Nat
  amount : Str
  unit : Str
  name : Str
  notes : Str
deriving DecidableEq, Repr

/-- One ingredient group of the payload of WP Recipe Maker. -/
structure IngredientGroup where
  name : Str
  uid : ℤ
  ingredients : List IngredientEntry
deriving DecidableEq, Repr

/-- One formatted ingredient: `{ uid: index, amount: "", unit: "", name: ingredient,
notes: "" }`. -/
def ingredientEntry (ingredient : Str) (index : Nat) : IngredientEntry :=
  ⟨index, [], [], ingredient, []⟩

/-- The group `{ name: "", uid: -1, ingredients: ... }`. -/
def ingredientGroup (ingredients : List Str) : IngredientGroup :=
  ⟨[], -1, mapIndex ingredientEntry ingredients⟩

/-- The call `s.split(sep)` for a separator that is not empty, in at most `n`
rounds. -/
def splitOnStrFrom (sep : Str) : Nat → Str → List Str
  | 0, s => [s]
  | n + 1, s =>
    match splitAtFirst sep s with
    | none => [s]
    | some (pre, post) => pre :: splitOnStrFrom sep n post

/-- The call `s.split(sep)` for a separator that is not empty. -/
def splitOnStr (sep s : Str) : List Str := splitOnStrFrom sep (s.length + 1) s

/-- The pattern `\s*\*\s*` of `/^\s*\*\s*/`; the anchor is in the use of `matchAt`. -/
def bulletRe : Re := Re.cat [.star true ws, .chr '*', .star true ws]

/-- The call `s.replace(r, repl)` for a pattern that starts with `^` (no flag `m`,
no flag `g`): only a match at the start of the string is replaced. -/
def replaceAnchored (f : Flags) (r : Re) (repl : Str) (s : Str) : Str :=
  match matchAt f r s with
  | some (rest, _) => repl ++ rest
  | none => s

/-- The lines of the ingredients found in a template: the lines that start
with a bullet, before `**Instructions**`, without their bullet. -/
def templateIngredientLines (ingredientsPart : Str) : List Str :=
  ((splitOnChar '\n' ingredientsPart).filter
    (fun line => startsWith (trim line) "*".toList)).map
    (fun line => trim (replaceAnchored flags0 bulletRe [] line))

/-- The value `formattedIngredients` of `addRecipeToPost` in `wp-recipe-maker.js`. -/
def wprmIngredientGroups (recipeData : RecipeRecord) : List IngredientGroup :=
  let hasTemplate :=
    match recipeData._customTemplate with
    | some (_ :: _) => true
    | _ => false
  if recipeData._customFormatted && hasTemplate then
    match recipeData._originalIngredients with
    | some (x :: xs) => [ingredientGroup (x :: xs)]
    | _ =>
      let template := recipeData._customTemplate.getD []
      let ingredientsPart := (splitOnStr "**Instructions**".toList template).headD []
      let ingredientLines := templateIngredientLines ingredientsPart
      if ingredientLines.length > 0 then [ingredientGroup ingredientLines]
      else [⟨[], -1, [⟨0, [], [], trim ingredientsPart, []⟩]⟩]
  else
    [ingredientGroup (recipeData._originalIngredients.getD recipeData.ingredients)]

/-! ## The instruction groups of the payload (`addRecipeToPost` in `src/wp-recipe-maker.js`) -/

/-- `String.prototype.endsWith`. -/
def endsWith (s p : Str) : Bool := startsWith s.reverse p.reverse

/-- The call `line.replace(/^\*\*|\*\*$/g, '')`: two stars at the start of the line
are removed, and two stars at its end when they lie after the ones removed at
the start. -/
def stripBold (line : Str) : Str :=
  if startsWith line "**".toList then
    let rest := line.drop 2
    if endsWith rest "**".toList then rest.take (rest.length - 2) else rest
  else if endsWith line "**".toList then line.take (line.length - 2)
  else line

/-- The pattern `\d+[-\.]` of `/^\d+[-\.]/`; the anchor is in the use of `matchAt`. -/
def numberedRe : Re := Re.cat [.plus true dg, .cls false [.chr '-', .chr '.']]

/-- The pattern `\d+[-\.\s]+` of `/^\d+[-\.\s]+/`. -/
def numberPrefixRe : Re :=
  Re.cat [.plus true dg, .plus true (.cls false [.chr '-', .chr '.', .space])]

/-- The variables of the loop over the lines of the template. -/
structure ParseState where
  processedInstructions : List InstructionStep
  currentStep : Option Str
deriving DecidableEq, Repr

/-- The body of the loop `for (const line of instructionLines)`: a line in bold
is a step title, a line that starts with a number and `-` or `.` is a step, and
another line is skipped. -/
def parseLine (st : ParseState) (line : Str) : ParseState :=
  if startsWith line "**".toList && endsWith line "**".toList then
    ⟨st.processedInstructions ++
      [⟨st.processedInstructions.length, stripBold line,
        "<p><strong>".toList ++ stripBold line ++ "</strong></p>".toList, 0, []⟩],
      some (stripBold line)⟩
  else if (matchAt flags0 numberedRe line).isSome then
    let stepText := trim (replaceAnchored flags0 numberPrefixRe [] line)
    ⟨st.processedInstructions ++
      [⟨st.processedInstructions.length,
        (match st.currentStep with
          | some (c :: t) => (c :: t) ++ " - Step".toList
          | _ => []),
        "<p>".toList ++ stepText ++ "</p>".toList, 0, []⟩],
      st.currentStep⟩
  else st

/-- The instruction groups read from a template, the fallback of `addRecipeToPost`
when there are no original instructions: one group with the uid `-1`. -/
def templateInstructionGroups (template : Str) : List InstructionGroup :=
  let instructionsPart := ((splitOnStr "**Instructions**".toList template).get? 1).getD []
  let instructionLines :=
    ((splitOnChar '\n' instructionsPart).map trim).filter (fun line => line.length > 0)
  let processedInstructions := (instructionLines.foldl parseLine ⟨[], none⟩).processedInstructions
  if processedInstructions.length > 0 then [⟨[], -1, processedInstructions⟩]
  else [⟨[], -1, [⟨0, [], trim instructionsPart, 0, []⟩]⟩]

/-- The value `formattedInstructions` of `addRecipeToPost` in `wp-recipe-maker.js`: for
a custom-formatted record the structured grouping of the original instructions
when there are some, and the groups read from the template otherwise; for
another record one group with the uid `-1`. -/
def wprmFormattedInstructions (recipeData : RecipeRecord) : List InstructionGroup :=
  let hasTemplate :=
    match recipeData._customTemplate with
    | some (_ :: _) => true
    | _ => false
  if recipeData._customFormatted && hasTemplate then
    match recipeData._originalInstructions with
    | some (x :: xs) => wprmInstructionGroups (x :: xs)
    | _ => templateInstructionGroups (recipeData._customTemplate.getD [])
  else
    [⟨[], -1,
      mapIndex formatStep (recipeData._originalInstructions.getD recipeData.instructions)⟩]

/-! ## Keyword eligibility and the dynamic template (`src/recipe-helper.js`) -/

/-- The configuration `recipeConfig`; `keywords` is the comma-separated list, and
`none` stands for a configuration without this property. -/
structure RecipeConfig where
  enabled : Bool
  addToAllKeywords : Bool
  keywords : Option Str
deriving DecidableEq, Repr

/-- The function `shouldAddRecipe(keyword, recipeConfig)`; the result `none` is the
`TypeError` of `recipeConfig.keywords.split` when `keywords` is undefined. -/
def shouldAddRecipe (keyword : Str) (recipeConfig : Option RecipeConfig) : Option Bool :=
  match recipeConfig with
  | none => some false
  | some cfg =>
    if !cfg.enabled then some false
    else if cfg.addToAllKeywords then some true
    else
      match cfg.keywords with
      | none => none
      | some keywords =>
        let recipeKeywords := (splitOnChar ',' keywords).map (fun k => toLowerCase (trim k))
        let keywordLower := toLowerCase keyword
        some (recipeKeywords.any (fun recipeKeyword => includes keywordLower recipeKeyword))

/-- The dynamic template that `addRecipeToPost` of `recipe-helper.js` builds from the
original lists when no custom format applies. -/
def dynamicTemplate (originalIngredients originalInstructions : List Str) : Str :=
  "**Ingredients**\n**  **\n".toList ++ bulletList originalIngredients ++
    "\n\n**Instructions**\n** **\n".toList ++ stepList originalInstructions

/-! ## Auxiliary definitions for the statements and the proofs -/

/-- The instruction list made of sections, each a header line followed by its
body lines. -/
def flattenSections : List (Str × List Str) → List Str
  | [] => []
  | sec :: rest => sec.1 :: (sec.2 ++ flattenSections rest)

/-- What is left of `s` after the literal `p`, compared under the flags. -/
def stripLit (f : Flags) : Str → Str → Option Str
  | [], s => some s
  | _ :: _, [] => none
  | x :: p, y :: s => if charEq f x y then stripLit f p s else none

/-- The test of a character class on one character. -/
def clsTest (f : Flags) (neg : Bool) (items : List ClassItem) (y : Char) : Bool :=
  (items.any (itemMatch f y)) != neg

/-- The test of the dot on one character. -/
def dotTest (f : Flags) (y : Char) : Bool := f.s || !isLineTerminator y

/-- A test on the remaining input that looks at its first character only. -/
def headTest (p : Char → Bool) : Str → Bool
  | [] => false
  | y :: _ => p y

/-- The remaining input after the longest run of steps that pass `P`. -/
def skipWhile (P : Str → Bool) : Str → Str
  | [] => []
  | y :: t => if P (y :: t) then skipWhile P t else y :: t

/-- The first point of the input, moving over characters that pass `P`, at which
the continuation succeeds. -/
def lazyScan (P : Str → Bool) (k : Cont) (c : Caps) : Str → Option (Str × Caps)
  | [] => k [] c
  | y :: t =>
    match k (y :: t) c with
    | some r => some r
    | none => if P (y :: t) then lazyScan P k c t else none

/-- The pattern `r` consumes exactly one character, when the remaining input
passes `P`, and binds no group. -/
def IsStep (f : Flags) (r : Re) (P : Str → Bool) : Prop :=
  r.groups = [] ∧ ∀ s c k, matchRe f r s c k =
    match s with
    | [] => none
    | y :: t => if P (y :: t) then k t c else none

/-- The pattern `(\\d+)\\s*(?:A|B)s?`. -/
def numUnitRe (a b : Str) : Re :=
  Re.cat [.group 1 (.plus true dg), .star true ws, .alt (Re.str a) (Re.str b), .opt true (.chr 's')]

/-- What is left after an optional character `x`. -/
def optChar (f : Flags) (x : Char) : Str → Str
  | [] => []
  | y :: t => if charEq f x y then t else y :: t

/-- What is left after the unit `A` or `B` and an optional `s`. -/
def unitRest (f : Flags) (a b : Str) (u : Str) : Option Str :=
  match stripLit f a u with
  | some t => some (optChar f 's' t)
  | none =>
    match stripLit f b u with
    | some t => some (optChar f 's' t)
    | none => none

/-- The part `\\s*(?:A|B)s?` of the pattern, as a continuation. -/
def tailK (f : Flags) (a b : Str) : Cont := fun s c =>
  matchRe f (Re.cat [.star true ws, .alt (Re.str a) (Re.str b), .opt true (.chr 's')]) s c
    (fun s' c' => some (s', c'))

/-- The literal starts with an ASCII letter. -/
def LetterHead (p : Str) : Prop :=
  ∃ x q, p = x :: q ∧ 0x41 ≤ canon x ∧ canon x ≤ 0x5A

/-- What the pattern `(\\d+)\\s*-\\s*(\\d+)` finds at the start of the input: the
two numbers and what is left. -/
def rangeAt (s : Str) : Option (Str × Str × Str) :=
  if headTest isDigit s then
    match (s.dropWhile isDigit).dropWhile isWhiteSpace with
    | [] => none
    | c :: t =>
      if c == '-' && headTest isDigit (t.dropWhile isWhiteSpace) then
        some (s.takeWhile isDigit, (t.dropWhile isWhiteSpace).takeWhile isDigit,
          (t.dropWhile isWhiteSpace).dropWhile isDigit)
      else none
  else none

/-- The last point of the input, moving over characters that pass `P`, at which
the continuation succeeds. -/
def greedyScan (P : Str → Bool) (k : Cont) (c : Caps) : Str → Option (Str × Caps)
  | [] => k [] c
  | y :: t =>
    if P (y :: t) then
      match greedyScan P k c t with
      | some r => some r
      | none => k (y :: t) c
    else k (y :: t) c

/-- The text after the last occurrence of the character `x`. -/
def afterLast (x : Char) : Str → Option Str
  | [] => none
  | y :: t =>
    match afterLast x t with
    | some r => some r
    | none => if y == x then some t else none

/-- The continuation `k` fails at every position of `x`, when `x` is followed by
`rest`. -/
def MissAll (k : Cont) : Str → Str → Prop
  | [], _ => True
  | y :: v, rest => (∀ c, k (y :: (v ++ rest)) c = none) ∧ MissAll k v rest

/-- The literal `p` fails on `v` by a mismatch inside `v`, whatever follows `v`. -/
def stripFail (f : Flags) : Str → Str → Bool
  | [], _ => false
  | _ :: _, [] => false
  | x :: p, y :: t => if charEq f x y then stripFail f p t else true

/-- The literal `p` fails by a mismatch at every position of `x`. -/
def allTailsFail (f : Flags) (p : Str) : Str → Bool
  | [] => true
  | y :: t => stripFail f p (y :: t) && allTailsFail f p t

/-- The end of the first group: the closing literal `p`; the group started at
`start`. -/
def closeK (f : Flags) (p start : Str) : Cont := fun s c =>
  match stripLit f p s with
  | some t => some (t, (1, start.take (start.length - s.length)) :: c)
  | none => none

/-- The element `<tag>(.*?)</tag>`. -/
def listK (f : Flags) (tag : Str) : Cont := fun s c =>
  match stripLit f ('<' :: (tag ++ ['>'])) s with
  | some t => lazyScan (headTest (dotTest f)) (closeK f ('<' :: '/' :: (tag ++ ['>'])) t) c t
  | none => none

/-- Whether a heading of level 2 or 3 opens at the start of `s`. -/
def opensHeading (f : Flags) (s : Str) : Bool :=
  match stripLit f "<h".toList s with
  | some t => headTest (clsTest f false [.range '2' '3']) t
  | none => false

/-- The test of one step of `(?:(?!<h[2-3]).)`. -/
def noHeadTest (f : Flags) (s : Str) : Bool := !opensHeading f s && headTest (dotTest f) s

/-- The end of the heading, `</h[2-3]>`, and what follows it. -/
def headEndK (f : Flags) (tag : Str) : Cont := fun s c =>
  match stripLit f "</h".toList s with
  | some (y :: z :: t) =>
    if clsTest f false [.range '2' '3'] y && charEq f '>' z then
      lazyScan (noHeadTest f) (listK f tag) c t
    else none
  | _ => none

/-- The word of the heading, and what follows it. -/
def wordK (f : Flags) (word tag : Str) : Cont := fun s c =>
  match stripLit f word s with
  | some t => lazyScan (headTest (dotTest f)) (headEndK f tag) c t
  | none => none

/-- The heading-scoped pattern at the start of `s`. -/
def sectionAt (f : Flags) (word tag : Str) (s : Str) : Option (Str × Caps) :=
  match stripLit f "<h".toList s with
  | some (y :: t) =>
    if clsTest f false [.range '2' '3'] y then
      match skipWhile (headTest (clsTest f true [.chr '>'])) t with
      | z :: u =>
        if charEq f '>' z then lazyScan (headTest (dotTest f)) (wordK f word tag) [] u
        else none
      | [] => none
    else none
  | _ => none

/-- The items of a list element, `<li>a</li>` for each text `a`. -/
def itemsHtml : List Str → Str
  | [] => []
  | a :: t => "<li>".toList ++ (a ++ ("</li>".toList ++ itemsHtml t))

/-- Whether a heading of level 2 or 3 opens somewhere in `s` (compared without
regard to case). -/
def hasHeadingOpener : Str → Bool
  | [] => false
  | y :: t => opensHeading flagsIS (y :: t) || hasHeadingOpener t

/-- A text without `<`, without a line terminator, and without white space at
its ends. -/
def plainItem (a : Str) : Bool :=
  a.all (fun y => y != '<' && !isLineTerminator y) && (trim a == a)

/-- The text
`<h2>Ingredients</h2><ul>` items `</ul><h2>Instructions</h2><ol>` items `</ol>`. -/
def recipeBlock (ingredients instructions : List Str) : Str :=
  "<h2>Ingredients</h2><ul>".toList ++ (itemsHtml ingredients ++
    ("</ul><h2>Instructions</h2><ol>".toList ++ (itemsHtml instructions ++ "</ol>".toList)))

/-- The instruction in its paragraph, `'<p>' + instruction + '</p>'`. -/
def paragraph (instruction : Str) : Str := "<p>".toList ++ instruction ++ "</p>".toList

/-- The texts of the steps of the groups, in the order of the groups. -/
def stepTexts (groups : List InstructionGroup) : List Str :=
  groups.flatMap (fun g => g.instructions.map (fun st => st.text))

/-- The lines that are not headers, in their order. -/
def nonHeaders (instructions : List Str) : List Str :=
  instructions.filter (fun s => !isStepHeader s)

/-- Whether the list has a header line and a line that is not a header. -/
def hasHeaderAndBody (instructions : List Str) : Bool :=
  instructions.any isStepHeader && instructions.any (fun s => !isStepHeader s)

/-- The invariant of the header scan after the lines `p`: the lines that are not
headers are the steps of the groups pushed so far followed by the pending
lines, no pushed group is empty, and a header is current exactly when `p` has a
header. -/
def ScanInv (p : List Str) (st : ScanState) : Prop :=
  st.groupedInstructions.flatMap (fun g => g.instructions) ++ st.groupInstructions =
      nonHeaders p ∧
    (∀ g ∈ st.groupedInstructions, g.instructions ≠ []) ∧
    (st.currentGroup = none → st.groupedInstructions = [] ∧ p.any isStepHeader = false) ∧
    (∀ h, st.currentGroup = some h → h ≠ [] ∧ p.any isStepHeader = true)

/-- The instruction from the first occurrence of the verb onward, the letter
case being disregarded; the empty text when the verb does not occur. -/
def fromFirstOccurrence (verb : Str) : Str → Str
  | [] => []
  | c :: t =>
    if startsWith (toLowerCase (c :: t)) (toLowerCase verb) then c :: t
    else fromFirstOccurrence verb t

/-! ## General lemmas -/

theorem clearCaps_nil (c : Caps) : clearCaps [] c = c := by
  simp [clearCaps]

theorem map_mapIndexFrom {α β γ : Type} (f : α → Nat → β) (g : β → γ) (h : α → γ)
    (hfg : ∀ x i, g (f x i) = h x) (i : Nat) (xs : List α) :
    (mapIndexFrom f i xs).map g = xs.map h := by
  induction xs generalizing i with
  | nil => rfl
  | cons x t ih => simp [mapIndexFrom, hfg, ih]

theorem map_mapIndex {α β γ : Type} (f : α → Nat → β) (g : β → γ) (h : α → γ)
    (hfg : ∀ x i, g (f x i) = h x) (xs : List α) :
    (mapIndex f xs).map g = xs.map h :=
  map_mapIndexFrom f g h hfg 0 xs

/-! ## The header scan -/

theorem isStepHeader_ne_nil {h : Str} (hh : isStepHeader h = true) : h ≠ [] := by
  intro e
  subst e
  simp [isStepHeader, startsWith, includes] at hh

theorem foldl_scanStep_body (bs : List Str) (hb : ∀ b ∈ bs, isStepHeader b = false)
    (st : ScanState) :
    bs.foldl scanStep st =
      ⟨st.groupedInstructions, st.currentGroup, st.groupInstructions ++ bs⟩ := by
  induction bs generalizing st with
  | nil => simp
  | cons b t ih =>
    have hb1 : isStepHeader b = false := hb b (List.mem_cons_self _ _)
    have hb2 : ∀ x ∈ t, isStepHeader x = false := fun x hx => hb x (List.mem_cons_of_mem _ hx)
    rw [List.foldl_cons, ih hb2]
    simp [scanStep, hb1]

theorem scan_sections (secs : List (Str × List Str))
    (hs : ∀ sec ∈ secs, isStepHeader sec.1 = true ∧ sec.2 ≠ [] ∧
      ∀ b ∈ sec.2, isStepHeader b = false)
    (G : List RawGroup) (h0 : Str) (b0 : List Str) (hh0 : h0 ≠ []) (hb0 : b0 ≠ []) :
    scanFlush ((flattenSections secs).foldl scanStep ⟨G, some h0, b0⟩) =
      G ++ ⟨h0, b0⟩ :: secs.map (fun sec => ⟨sec.1, sec.2⟩) := by
  induction secs generalizing G h0 b0 with
  | nil =>
    obtain ⟨x, g, rfl⟩ := List.exists_cons_of_ne_nil hh0
    have : 0 < b0.length := List.length_pos.mpr hb0
    simp [flattenSections, scanFlush, this]
  | cons sec rest ih =>
    obtain ⟨hh, hne, hbody⟩ := hs sec (List.mem_cons_self _ _)
    have hrest : ∀ s ∈ rest, isStepHeader s.1 = true ∧ s.2 ≠ [] ∧
        ∀ b ∈ s.2, isStepHeader b = false := fun s hs' => hs s (List.mem_cons_of_mem _ hs')
    obtain ⟨x, g, rfl⟩ := List.exists_cons_of_ne_nil hh0
    have hpos : 0 < b0.length := List.length_pos.mpr hb0
    have hstep : scanStep ⟨G, some (x :: g), b0⟩ sec.1 =
        ⟨G ++ [⟨x :: g, b0⟩], some sec.1, []⟩ := by
      simp [scanStep, hh, hpos]
    simp only [flattenSections, List.foldl_cons, List.foldl_append, hstep]
    rw [foldl_scanStep_body sec.2 hbody]
    simp only [List.nil_append]
    rw [ih hrest _ _ _ (isStepHeader_ne_nil hh) hne]
    simp

theorem scanGroups_sections (secs : List (Str × List Str))
    (hs : ∀ sec ∈ secs, isStepHeader sec.1 = true ∧ sec.2 ≠ [] ∧
      ∀ b ∈ sec.2, isStepHeader b = false) :
    scanGroups (flattenSections secs) = secs.map (fun sec => ⟨sec.1, sec.2⟩) := by
  cases secs with
  | nil => simp [scanGroups, flattenSections, scanFlush]
  | cons sec rest =>
    obtain ⟨hh, hne, hbody⟩ := hs sec (List.mem_cons_self _ _)
    have hrest : ∀ s ∈ rest, isStepHeader s.1 = true ∧ s.2 ≠ [] ∧
        ∀ b ∈ s.2, isStepHeader b = false := fun s hs' => hs s (List.mem_cons_of_mem _ hs')
    have hstep : scanStep ⟨[], none, []⟩ sec.1 = ⟨[], some sec.1, []⟩ := by
      simp [scanStep, hh]
    simp only [scanGroups, flattenSections, List.foldl_cons, List.foldl_append, hstep]
    rw [foldl_scanStep_body sec.2 hbody]
    simp only [List.nil_append]
    rw [scan_sections rest hrest _ _ _ (isStepHeader_ne_nil hh) hne]
    simp

theorem scanGroups_flat (bs : List Str) (hb : ∀ b ∈ bs, isStepHeader b = false) :
    scanGroups bs = [] := by
  simp [scanGroups, foldl_scanStep_body bs hb, scanFlush]

theorem headD_take_drop (ins : List Str) (i : Nat) (h : i < ins.length) :
    ((ins.drop i).take 2).headD [] = ins.getD i [] := by
  induction ins generalizing i with
  | nil => simp at h
  | cons x t ih =>
    cases i with
    | zero => simp
    | succ i =>
      simp only [List.length_cons, Nat.add_lt_add_iff_right] at h
      simpa using ih i h

theorem chunkLoop_eq (ins : List Str) (fuel j : Nat) (hfuel : ins.length ≤ 2 * j + 2 * fuel) :
    chunkLoop ins fuel (2 * j) =
      (List.range' j ((ins.length + 1) / 2 - j)).map (fun i =>
        (⟨"Step ".toList ++ natToStr (i + 1) ++ ": ".toList ++
            getStepTitle (i + 1) (ins.getD (2 * i) []), (ins.drop (2 * i)).take 2⟩ : RawGroup)) := by
  induction fuel generalizing j with
  | zero =>
    have : (ins.length + 1) / 2 - j = 0 := by omega
    simp [chunkLoop, this]
  | succ fuel ih =>
    by_cases hlt : 2 * j < ins.length
    · have hcount : (ins.length + 1) / 2 - j = ((ins.length + 1) / 2 - (j + 1)) + 1 := by omega
      have hdiv : 2 * j / 2 + 1 = j + 1 := by omega
      have hhead : ((ins.drop (2 * j)).take 2).headD [] = ins.getD (2 * j) [] :=
        headD_take_drop ins (2 * j) hlt
      have hnext : 2 * j + 2 = 2 * (j + 1) := by ring
      rw [chunkLoop, if_pos hlt, hcount, List.range'_succ, List.map_cons, hnext,
        ih (j + 1) (by omega)]
      simp only [hdiv, hhead]
    · have : (ins.length + 1) / 2 - j = 0 := by omega
      simp [chunkLoop, hlt, this]

/-! ## Theorems -/

/-- C1. Indicator gate: when the lower-cased content contains none of the seven
marker phrases, `extractRecipeData` returns `null`, whatever the keyword and
whatever headings and lists the content holds. -/
theorem indicator_gate (content keyword : Str)
    (h : ∀ p ∈ ["ingredients:".toList, "instructions:".toList, "preparation time:".toList,
      "cooking time:".toList, "servings:".toList, "prep time:".toList, "cook time:".toList],
      includes (toLowerCase content) p = false) :
    extractRecipeData content keyword = none := by
  have hgate : hasRecipeIndicators content = false := by
    simp only [hasRecipeIndicators, recipeIndicators, List.any_eq_false]
    intro p hp
    simp [h p hp]
  simp [extractRecipeData, hgate]

/-- The spec's end-to-end text, which holds headings and lists but no marker
phrase, yields `null`. -/
theorem indicator_gate_witness :
    (∀ p ∈ ["ingredients:".toList, "instructions:".toList, "preparation time:".toList,
      "cooking time:".toList, "servings:".toList, "prep time:".toList, "cook time:".toList],
      includes (toLowerCase
        "<h2>Ingredients</h2><ul><li>2 eggs</li></ul><h2>Instructions</h2><ol><li>Mix.</li></ol>".toList)
        p = false) ∧
    extractRecipeData
      "<h2>Ingredients</h2><ul><li>2 eggs</li></ul><h2>Instructions</h2><ol><li>Mix.</li></ol>".toList
      "omelette".toList = none :=
  ⟨by decide, indicator_gate _ _ (by decide)⟩

/-- C2. Non-emptiness of extraction: a record returned by `extractRecipeData`
holds the lists found by the extractors and their fallbacks, and both have at
least one entry; when either list is empty the result is `null`, whatever else
matched. -/
theorem extraction_lists_nonempty (content keyword : Str) :
    (∀ r, extractRecipeData content keyword = some r →
      r.ingredients = extractList ingredientsRegex anyListRegex content ∧
      r.instructions = extractList instructionsRegex anyOrderedListRegex content ∧
      1 ≤ r.ingredients.length ∧ 1 ≤ r.instructions.length) ∧
    (extractList ingredientsRegex anyListRegex content = [] ∨
      extractList instructionsRegex anyOrderedListRegex content = [] →
      extractRecipeData content keyword = none) := by
  constructor
  · intro r hr
    unfold extractRecipeData at hr
    split at hr
    · cases hr
    · split at hr
      · cases hr
      · simp only [] at hr
        split at hr
        · cases hr
        · rename_i hgate
          simp only [Bool.or_eq_true, decide_eq_true_eq, not_or] at hgate
          cases hr
          exact ⟨rfl, rfl, Nat.one_le_iff_ne_zero.mpr hgate.1, Nat.one_le_iff_ne_zero.mpr hgate.2⟩
  · intro h
    unfold extractRecipeData
    rcases h with h | h <;> simp [h]

set_option maxRecDepth 1000000 in
/-- A text with a title, a timing and an ingredient list but no instruction
list yields `null`; the same text with an instruction list yields a record. -/
theorem extraction_lists_nonempty_witness :
    extractRecipeData
      "<h2>Pancake Recipe</h2>Prep time: 5 min<h3>Ingredients</h3><ul><li>2 eggs</li></ul>".toList
      "pancake".toList = none ∧
    (extractRecipeData
      "Prep time: 5 min<h3>Ingredients</h3><ul><li>2 eggs</li></ul><ol><li>Mix.</li></ol>".toList
      "pancake".toList).isSome = true ∧
    ∀ r, extractRecipeData
      "Prep time: 5 min<h3>Ingredients</h3><ul><li>2 eggs</li></ul><ol><li>Mix.</li></ol>".toList
      "pancake".toList = some r → 1 ≤ r.ingredients.length ∧ 1 ≤ r.instructions.length :=
  ⟨(extraction_lists_nonempty _ _).2 (Or.inr (by decide)), by decide,
   fun r hr => ((extraction_lists_nonempty _ _).1 r hr).2.2⟩

/-- C8. Header grouping: on a list of sections, each a header line followed by
at least one non-header line, `processInstructionsIntoGroups` and the scan of
`addRecipeToPost` return one group per section, in order, named by the header
and holding the body lines of the section, each wrapped in a paragraph. -/
theorem header_grouping (secs : List (Str × List Str)) (hne : secs ≠ [])
    (hs : ∀ sec ∈ secs, isStepHeader sec.1 = true ∧ sec.2 ≠ [] ∧
      ∀ b ∈ sec.2, isStepHeader b = false) :
    (processInstructionsIntoGroups (flattenSections secs)).map
        (fun g => (g.name, g.instructions.map (fun st => st.text))) =
      secs.map (fun sec => (sec.1, sec.2.map (fun b => "<p>".toList ++ b ++ "</p>".toList))) ∧
    (wprmInstructionGroups (flattenSections secs)).map
        (fun g => (g.name, g.instructions.map (fun st => st.text))) =
      secs.map (fun sec => (sec.1, sec.2.map (fun b => "<p>".toList ++ b ++ "</p>".toList))) := by
  have hlen : (secs.map (fun sec => (⟨sec.1, sec.2⟩ : RawGroup))).length ≠ 0 := by
    simpa using hne
  have hfmt : ∀ (g : RawGroup) (i : Nat),
      ((formatGroup g i).name, (formatGroup g i).instructions.map (fun st => st.text)) =
        (g.name, g.instructions.map (fun b => "<p>".toList ++ b ++ "</p>".toList)) := by
    intro g i
    simp only [formatGroup]
    rw [map_mapIndex formatStep (fun st => st.text)
      (fun b => "<p>".toList ++ b ++ "</p>".toList) (fun _ _ => rfl)]
  constructor
  · simp only [processInstructionsIntoGroups, scanGroups_sections secs hs, if_neg hlen]
    rw [map_mapIndex formatGroup _ _ hfmt]
    simp
  · simp only [wprmInstructionGroups, scanGroups_sections secs hs, if_neg hlen]
    rw [map_mapIndex formatGroup _ _ hfmt]
    simp

/-- The spec's example: two headers, each followed by one line, give two groups
named by the headers, each with one step. -/
theorem header_grouping_witness :
    ([("Step 1: Prep".toList, ["Chop vegetables".toList]),
      ("Step 2: Cook".toList, ["Boil water".toList])] : List (Str × List Str)) ≠ [] ∧
    (processInstructionsIntoGroups
      ["Step 1: Prep".toList, "Chop vegetables".toList, "Step 2: Cook".toList,
        "Boil water".toList]).map (fun g => (g.name, g.instructions.map (fun st => st.text))) =
      [("Step 1: Prep".toList, ["<p>Chop vegetables</p>".toList]),
       ("Step 2: Cook".toList, ["<p>Boil water</p>".toList])] ∧
    (wprmInstructionGroups
      ["Step 1: Prep".toList, "Chop vegetables".toList, "Step 2: Cook".toList,
        "Boil water".toList]).map (fun g => (g.name, g.instructions.map (fun st => st.text))) =
      [("Step 1: Prep".toList, ["<p>Chop vegetables</p>".toList]),
       ("Step 2: Cook".toList, ["<p>Boil water</p>".toList])] :=
  ⟨by decide,
   header_grouping [("Step 1: Prep".toList, ["Chop vegetables".toList]),
      ("Step 2: Cook".toList, ["Boil water".toList])] (by decide) (by decide)⟩

/-- C9. Chunking fallback: on a non-empty list of `n` lines without any header,
the grouping of `addRecipeToPost` gives `ceil(n/2)` groups; the group of index
`j` (counted from 0) is named `'Step ' + (j+1) + ': '` followed by
`getStepTitle(j+1, line 2j)` and holds the lines `2j` and `2j+1` (counted from
0), the last group holding one line when `n` is odd. -/
theorem chunking_fallback (ins : List Str) (_ : ins ≠ [])
    (hflat : ∀ l ∈ ins, isStepHeader l = false) :
    (wprmInstructionGroups ins).map (fun g => (g.name, g.instructions.map (fun st => st.text))) =
      (List.range ((ins.length + 1) / 2)).map (fun j =>
        ("Step ".toList ++ natToStr (j + 1) ++ ": ".toList ++
            getStepTitle (j + 1) (ins.getD (2 * j) []),
          ((ins.drop (2 * j)).take 2).map (fun b => "<p>".toList ++ b ++ "</p>".toList))) := by
  have hfmt : ∀ (g : RawGroup) (i : Nat),
      ((formatGroup g i).name, (formatGroup g i).instructions.map (fun st => st.text)) =
        (g.name, g.instructions.map (fun b => "<p>".toList ++ b ++ "</p>".toList)) := by
    intro g i
    simp only [formatGroup]
    rw [map_mapIndex formatStep (fun st => st.text)
      (fun b => "<p>".toList ++ b ++ "</p>".toList) (fun _ _ => rfl)]
  have hchunk := chunkLoop_eq ins ins.length 0 (by omega)
  simp only [Nat.mul_zero, Nat.sub_zero] at hchunk
  simp only [wprmInstructionGroups, scanGroups_flat ins hflat, List.length_nil, if_true, hchunk]
  rw [map_mapIndex formatGroup _ _ hfmt, List.range_eq_range']
  simp

/-- A flat list of five lines gives three groups, of two, two and one steps,
with synthesized names. -/
theorem chunking_fallback_witness :
    (["Wash the rice".toList, "Heat the pan".toList, "Add the oil".toList,
      "Stir the rice in".toList, "Rest it".toList] : List Str) ≠ [] ∧
    (∀ l ∈ (["Wash the rice".toList, "Heat the pan".toList, "Add the oil".toList,
      "Stir the rice in".toList, "Rest it".toList] : List Str), isStepHeader l = false) ∧
    (wprmInstructionGroups ["Wash the rice".toList, "Heat the pan".toList, "Add the oil".toList,
      "Stir the rice in".toList, "Rest it".toList]).map
        (fun g => (g.name, g.instructions.map (fun st => st.text))) =
      [("Step 1: Prepare Ingredients".toList,
          ["<p>Wash the rice</p>".toList, "<p>Heat the pan</p>".toList]),
       ("Step 2: Cook".toList, ["<p>Add the oil</p>".toList, "<p>Stir the rice in</p>".toList]),
       ("Step 3: Combine".toList, ["<p>Rest it</p>".toList])] :=
  ⟨by decide, by decide, (chunking_fallback _ (by decide) (by decide)).trans (by decide)⟩

/-- C10 (as amended). Direct-JSON defaulting: a missing (or falsy) ingredients
field becomes the single sentinel ingredient, a missing (or falsy) instructions
field the single sentinel instruction; a field that holds a list, the empty
list included, is kept as it is. -/
theorem validate_lists (keyword : Str) (r : ParsedReply) :
    (falsy r.ingredients = true →
      (validateRecipe keyword r).ingredients =
        some (.arr [.str "Please check the recipe description for ingredients".toList])) ∧
    (falsy r.instructions = true →
      (validateRecipe keyword r).instructions =
        some (.arr [.str "Please follow the instructions in the article".toList])) ∧
    (∀ xs, r.ingredients = some (.arr xs) →
      (validateRecipe keyword r).ingredients = some (.arr xs)) ∧
    (∀ xs, r.instructions = some (.arr xs) →
      (validateRecipe keyword r).instructions = some (.arr xs)) := by
  refine ⟨?_, ?_, ?_, ?_⟩
  · intro h
    simp [validateRecipe, orDefault, h, sentinelIngredients]
  · intro h
    simp [validateRecipe, orDefault, h, sentinelInstructions]
  · intro xs h
    unfold validateRecipe
    split <;> simp [orDefault, h, falsy, JVal.truthy]
  · intro xs h
    unfold validateRecipe
    split <;> simp [orDefault, h, falsy, JVal.truthy]

/-- A reply without ingredients receives the sentinel ingredient. -/
theorem validate_lists_witness :
    falsy (ParsedReply.mk (some (.str "Soup".toList)) none none
      (some (.arr [.str "Boil.".toList])) none none none []).ingredients = true ∧
    (validateRecipe "soup".toList (ParsedReply.mk (some (.str "Soup".toList)) none none
      (some (.arr [.str "Boil.".toList])) none none none [])).ingredients =
        some (.arr [.str "Please check the recipe description for ingredients".toList]) :=
  ⟨rfl, (validate_lists _ _).1 rfl⟩

/-- C10, counterexample. A reply without title whose ingredients field is the
empty list keeps the empty list: the sentinel is not inserted, and the record
has no ingredient. -/
theorem validate_lists_counterexample :
    (validateRecipe "soup".toList (ParsedReply.mk none none (some (.arr []))
      (some (.arr [.str "Boil.".toList])) none none none [])).ingredients = some (.arr []) ∧
    (validateRecipe "soup".toList (ParsedReply.mk none none (some (.arr []))
      (some (.arr [.str "Boil.".toList])) none none none [])).ingredients ≠
        some (.arr [.str "Please check the recipe description for ingredients".toList]) := by
  constructor
  · rfl
  · intro h
    have h2 : (some (JVal.arr []) : Option JVal) =
        some (.arr [.str "Please check the recipe description for ingredients".toList]) := h
    cases h2

/-! ## The matcher on literals, single characters and quantifiers -/

theorem isStep_chr (f : Flags) (x : Char) : IsStep f (.chr x) (headTest (charEq f x)) := by
  refine ⟨rfl, ?_⟩
  intro s c k
  cases s <;> simp [matchRe, headTest]

theorem isStep_any (f : Flags) : IsStep f .any (headTest (dotTest f)) := by
  refine ⟨rfl, ?_⟩
  intro s c k
  cases s <;> simp [matchRe, headTest, dotTest]

theorem isStep_cls (f : Flags) (neg : Bool) (items : List ClassItem) :
    IsStep f (.cls neg items) (headTest (clsTest f neg items)) := by
  refine ⟨rfl, ?_⟩
  intro s c k
  cases s <;> simp [matchRe, headTest, clsTest]

theorem matchRe_str (f : Flags) (p s : Str) (c : Caps) (k : Cont) :
    matchRe f (Re.str p) s c k =
      match stripLit f p s with
      | some t => k t c
      | none => none := by
  induction p generalizing s with
  | nil => simp [Re.str, matchRe, stripLit]
  | cons x p ih =>
    cases p with
    | nil =>
      cases s with
      | nil => simp [Re.str, matchRe, stripLit]
      | cons y t =>
        by_cases h : charEq f x y = true <;> simp [Re.str, matchRe, stripLit, h]
    | cons x' p' =>
      cases s with
      | nil => simp [Re.str, matchRe, stripLit]
      | cons y t =>
        by_cases h : charEq f x y = true
        · simp only [Re.str, matchRe, h, if_true]
          rw [ih]
          simp [stripLit, h]
        · simp [Re.str, matchRe, stripLit, h]

theorem matchRe_lit (f : Flags) (p : String) (s : Str) (c : Caps) (k : Cont) :
    matchRe f (lit p) s c k =
      match stripLit f p.toList s with
      | some t => k t c
      | none => none :=
  matchRe_str f p.toList s c k

theorem matchRe_cat_cons (f : Flags) (r : Re) (rs : List Re) (s : Str) (c : Caps) (k : Cont) :
    matchRe f (Re.cat (r :: rs)) s c k =
      matchRe f r s c (fun s' c' => matchRe f (Re.cat rs) s' c' k) := by
  cases rs with
  | nil => simp [Re.cat, matchRe]
  | cons r' t => simp [Re.cat, matchRe]

theorem matchRe_cat_nil (f : Flags) (s : Str) (c : Caps) (k : Cont) :
    matchRe f (Re.cat []) s c k = k s c := by
  simp [Re.cat, matchRe]

theorem stripLit_length (f : Flags) (p s t : Str) (h : stripLit f p s = some t) :
    t.length + p.length = s.length := by
  induction p generalizing s with
  | nil => simp [stripLit] at h; simp [h]
  | cons x p ih =>
    cases s with
    | nil => simp [stripLit] at h
    | cons y s =>
      simp only [stripLit] at h
      split at h
      · have := ih s h
        simp only [List.length_cons]
        omega
      · cases h

theorem starLoop_greedy (f : Flags) (r : Re) (P : Str → Bool) (hr : IsStep f r P) (k : Cont)
    (hk : ∀ s c, P s = true → k s c = none) (n : Nat) (s : Str) (c : Caps)
    (hn : s.length ≤ n) :
    starLoop (matchRe f r) [] true n s c k = k (skipWhile P s) c := by
  induction n generalizing s with
  | zero =>
    have : s = [] := List.length_eq_zero.mp (Nat.le_zero.mp hn)
    subst this
    simp [starLoop, skipWhile]
  | succ n ih =>
    cases s with
    | nil => simp [starLoop, hr.2, skipWhile]
    | cons y t =>
      by_cases hp : P (y :: t) = true
      · have ht : t.length ≤ n := by simpa using hn
        simp only [starLoop, hr.2, clearCaps_nil, hp, if_true, List.length_cons,
          Nat.lt_succ_self, skipWhile, ih t ht]
        cases hres : k (skipWhile P t) c with
        | none => simp [hk _ c hp]
        | some res => simp
      · simp [starLoop, hr.2, hp, skipWhile]

theorem starLoop_lazy (f : Flags) (r : Re) (P : Str → Bool) (hr : IsStep f r P) (k : Cont)
    (n : Nat) (s : Str) (c : Caps) (hn : s.length ≤ n) :
    starLoop (matchRe f r) [] false n s c k = lazyScan P k c s := by
  induction n generalizing s with
  | zero =>
    have : s = [] := List.length_eq_zero.mp (Nat.le_zero.mp hn)
    subst this
    simp [starLoop, lazyScan]
  | succ n ih =>
    cases s with
    | nil =>
      simp only [starLoop, hr.2, lazyScan]
      cases k [] c <;> simp
    | cons y t =>
      have ht : t.length ≤ n := by simpa using hn
      simp only [starLoop, hr.2, clearCaps_nil, lazyScan, List.length_cons,
        Nat.lt_succ_self, if_true, ih t ht]
      simp

theorem matchRe_star_greedy (f : Flags) (r : Re) (P : Str → Bool) (hr : IsStep f r P)
    (k : Cont) (hk : ∀ s c, P s = true → k s c = none) (s : Str) (c : Caps) :
    matchRe f (.star true r) s c k = k (skipWhile P s) c := by
  simp only [matchRe, hr.1]
  exact starLoop_greedy f r P hr k hk _ s c (le_refl _)

theorem matchRe_star_lazy (f : Flags) (r : Re) (P : Str → Bool) (hr : IsStep f r P)
    (k : Cont) (s : Str) (c : Caps) :
    matchRe f (.star false r) s c k = lazyScan P k c s := by
  simp only [matchRe, hr.1]
  exact starLoop_lazy f r P hr k _ s c (le_refl _)

theorem matchRe_plus_greedy (f : Flags) (r : Re) (P : Str → Bool) (hr : IsStep f r P)
    (k : Cont) (hk : ∀ s c, P s = true → k s c = none) (s : Str) (c : Caps) :
    matchRe f (.plus true r) s c k =
      match s with
      | [] => none
      | y :: t => if P (y :: t) then k (skipWhile P t) c else none := by
  cases s with
  | nil => simp [matchRe, hr.2]
  | cons y t =>
    simp only [matchRe, hr.2, hr.1, clearCaps_nil]
    by_cases hp : P (y :: t) = true
    · simp only [hp, if_true]
      exact starLoop_greedy f r P hr k hk _ t c (le_refl _)
    · simp [hp]

theorem matchRe_plus_lazy (f : Flags) (r : Re) (P : Str → Bool) (hr : IsStep f r P)
    (k : Cont) (s : Str) (c : Caps) :
    matchRe f (.plus false r) s c k =
      match s with
      | [] => none
      | y :: t => if P (y :: t) then lazyScan P k c t else none := by
  cases s with
  | nil => simp [matchRe, hr.2]
  | cons y t =>
    simp only [matchRe, hr.2, hr.1, clearCaps_nil]
    by_cases hp : P (y :: t) = true
    · simp only [hp, if_true]
      exact starLoop_lazy f r P hr k _ t c (le_refl _)
    · simp [hp]

theorem matchRe_opt_step (f : Flags) (r : Re) (P : Str → Bool) (hr : IsStep f r P)
    (k : Cont) (s : Str) (c : Caps) :
    matchRe f (.opt true r) s c k =
      match s with
      | [] => k [] c
      | y :: t =>
        if P (y :: t) then
          match k t c with
          | some res => some res
          | none => k (y :: t) c
        else k (y :: t) c := by
  cases s with
  | nil => simp [matchRe, starLoop, hr.2]
  | cons y t =>
    by_cases hp : P (y :: t) = true
    · simp [matchRe, starLoop, hr.2, hr.1, clearCaps_nil, hp]
    · simp [matchRe, starLoop, hr.2, hp]

theorem matchRe_opt_lit (f : Flags) (p : Str) (hp : p ≠ []) (k : Cont) (s : Str) (c : Caps) :
    matchRe f (.opt true (Re.str p)) s c k =
      match stripLit f p s with
      | some t =>
        match k t c with
        | some res => some res
        | none => k s c
      | none => k s c := by
  have hg : (Re.str p).groups = [] := by
    induction p with
    | nil => rfl
    | cons x p ih =>
      cases p with
      | nil => rfl
      | cons x' p' => simpa [Re.str, Re.groups] using ih (by simp)
  simp only [matchRe, starLoop, hg, clearCaps_nil, matchRe_str, if_true]
  cases h : stripLit f p s with
  | none => simp
  | some t =>
    have hl := stripLit_length f p s t h
    have hpl : 0 < p.length := List.length_pos.mpr hp
    have : t.length < s.length := by omega
    simp [this]

/-! ## Searching -/

theorem searchFrom_hit (f : Flags) (r : Re) (acc s s' : Str) (c : Caps)
    (h : matchAt f r s = some (s', c)) :
    searchFrom f r acc s = some ⟨acc.reverse, s.take (s.length - s'.length), s', c⟩ := by
  cases s with
  | nil => simp [searchFrom, h]
  | cons x t => simp [searchFrom, h]

theorem searchFrom_miss (f : Flags) (r : Re) (acc : Str) (x : Char) (t : Str)
    (h : matchAt f r (x :: t) = none) :
    searchFrom f r acc (x :: t) = searchFrom f r (x :: acc) t := by
  simp [searchFrom, h]

theorem searchFrom_skip (f : Flags) (r : Re) (pre rest acc : Str)
    (h : ∀ u y v, pre = u ++ y :: v → matchAt f r (y :: v ++ rest) = none) :
    searchFrom f r acc (pre ++ rest) = searchFrom f r (pre.reverse ++ acc) rest := by
  induction pre generalizing acc with
  | nil => simp
  | cons x t ih =>
    have hx : matchAt f r (x :: t ++ rest) = none := h [] x t rfl
    have ht : ∀ u y v, t = u ++ y :: v → matchAt f r (y :: v ++ rest) = none := by
      intro u y v e
      exact h (x :: u) y v (by simp [e])
    rw [List.cons_append, searchFrom_miss f r acc x (t ++ rest) hx, ih (x :: acc) ht]
    simp

theorem search_skip_hit (f : Flags) (r : Re) (pre rest s' : Str) (c : Caps)
    (hpre : ∀ u y v, pre = u ++ y :: v → matchAt f r (y :: v ++ rest) = none)
    (hit : matchAt f r rest = some (s', c)) :
    search f r (pre ++ rest) = some ⟨pre, rest.take (rest.length - s'.length), s', c⟩ := by
  rw [search, searchFrom_skip f r pre rest [] hpre, searchFrom_hit f r _ rest s' c hit]
  simp

theorem search_none (f : Flags) (r : Re) (s : Str)
    (h : ∀ u v, s = u ++ v → matchAt f r v = none) :
    search f r s = none := by
  have hpre : ∀ u y v, s = u ++ y :: v → matchAt f r (y :: v ++ []) = none := by
    intro u y v e
    simpa using h u (y :: v) e
  have := searchFrom_skip f r s [] [] hpre
  simp only [List.append_nil] at this
  rw [search, this]
  simp [searchFrom, h s [] (by simp)]

/-! ## Characters -/

theorem skipWhile_headTest (p : Char → Bool) (s : Str) :
    skipWhile (headTest p) s = s.dropWhile p := by
  induction s with
  | nil => rfl
  | cons y t ih =>
    by_cases h : p y = true <;> simp [skipWhile, headTest, List.dropWhile, h, ih]

theorem take_length_sub_dropWhile (p : Char → Bool) (s : Str) :
    s.take (s.length - (s.dropWhile p).length) = s.takeWhile p := by
  induction s with
  | nil => rfl
  | cons y t ih =>
    by_cases h : p y = true
    · have hle : (t.dropWhile p).length ≤ t.length := by
        have := congrArg List.length (List.takeWhile_append_dropWhile p t)
        simp only [List.length_append] at this
        omega
      have : t.length + 1 - (t.dropWhile p).length
          = (t.length - (t.dropWhile p).length) + 1 := by
        omega
      simp [List.dropWhile, List.takeWhile, h, this, ih]
    · simp [List.dropWhile, List.takeWhile, h]

theorem clsTest_digit (f : Flags) : clsTest f false [.digit] = isDigit := by
  funext y
  simp [clsTest, itemMatch]

theorem clsTest_space (f : Flags) : clsTest f false [.space] = isWhiteSpace := by
  funext y
  simp [clsTest, itemMatch]

theorem isDigit_not_ws {y : Char} (h : isDigit y = true) : isWhiteSpace y = false := by
  simp only [isDigit, Bool.and_eq_true, decide_eq_true_eq] at h
  simp only [isWhiteSpace, Bool.or_eq_false_iff, Bool.and_eq_false_iff, beq_eq_false_iff_ne,
    decide_eq_false_iff_not]
  omega

/-! ## A number followed by a unit -/

theorem matchRe_alt (f : Flags) (a b : Re) (s : Str) (c : Caps) (k : Cont) :
    matchRe f (.alt a b) s c k =
      match matchRe f a s c k with
      | some r => some r
      | none => matchRe f b s c k := by
  simp [matchRe]

theorem matchRe_group (f : Flags) (i : Nat) (a : Re) (s : Str) (c : Caps) (k : Cont) :
    matchRe f (.group i a) s c k =
      matchRe f a s c (fun s' c' => k s' ((i, s.take (s.length - s'.length)) :: c')) := by
  simp [matchRe]

theorem isStep_dg (f : Flags) : IsStep f dg (headTest isDigit) := by
  have := isStep_cls f false [.digit]
  rwa [clsTest_digit] at this

theorem isStep_ws (f : Flags) : IsStep f ws (headTest isWhiteSpace) := by
  have := isStep_cls f false [.space]
  rwa [clsTest_space] at this

theorem matchRe_optChar (f : Flags) (x : Char) (t : Str) (c : Caps) :
    matchRe f (.opt true (.chr x)) t c (fun s' c' => some (s', c')) =
      some (optChar f x t, c) := by
  rw [matchRe_opt_step f _ _ (isStep_chr f x)]
  cases t with
  | nil => rfl
  | cons y t =>
    by_cases h : charEq f x y = true <;> simp [headTest, optChar, h]

theorem unitK_eq (f : Flags) (a b : Str) (s : Str) (c : Caps) :
    matchRe f (Re.cat [.alt (Re.str a) (Re.str b), .opt true (.chr 's')]) s c
        (fun s' c' => some (s', c')) =
      match unitRest f a b s with
      | some rest => some (rest, c)
      | none => none := by
  simp only [matchRe_cat_cons, matchRe_cat_nil, matchRe_alt, matchRe_str, unitRest]
  cases ha : stripLit f a s with
  | some t => simp [matchRe_optChar]
  | none =>
    cases hb : stripLit f b s with
    | some t => simp [matchRe_optChar]
    | none => simp

theorem tailK_eq (f : Flags) (a b : Str)
    (ha : ∀ y t, isWhiteSpace y = true → stripLit f a (y :: t) = none)
    (hb : ∀ y t, isWhiteSpace y = true → stripLit f b (y :: t) = none)
    (s : Str) (c : Caps) :
    tailK f a b s c =
      match unitRest f a b (s.dropWhile isWhiteSpace) with
      | some rest => some (rest, c)
      | none => none := by
  unfold tailK
  rw [matchRe_cat_cons, matchRe_star_greedy f ws (headTest isWhiteSpace) (isStep_ws f),
    skipWhile_headTest]
  · exact unitK_eq f a b _ c
  · intro s' c' hs'
    cases s' with
    | nil => simp [headTest] at hs'
    | cons y t =>
      simp only [headTest] at hs'
      rw [unitK_eq]
      simp [unitRest, ha y t hs', hb y t hs']

theorem matchAt_numUnit (f : Flags) (a b : Str)
    (ha : ∀ y t, isWhiteSpace y = true → stripLit f a (y :: t) = none)
    (hb : ∀ y t, isWhiteSpace y = true → stripLit f b (y :: t) = none)
    (ha' : ∀ y t, isDigit y = true → stripLit f a (y :: t) = none)
    (hb' : ∀ y t, isDigit y = true → stripLit f b (y :: t) = none)
    (s : Str) :
    matchAt f (numUnitRe a b) s =
      if headTest isDigit s then
        match unitRest f a b ((s.dropWhile isDigit).dropWhile isWhiteSpace) with
        | some rest => some (rest, [(1, s.takeWhile isDigit)])
        | none => none
      else none := by
  have hk : ∀ (s0 : Str) (s' : Str) (c' : Caps), headTest isDigit s' = true →
      tailK f a b s' ((1, s0.take (s0.length - s'.length)) :: c') = none := by
    intro s0 s' c' hs'
    cases s' with
    | nil => simp [headTest] at hs'
    | cons y t =>
      simp only [headTest] at hs'
      rw [tailK_eq f a b ha hb]
      have hws : isWhiteSpace y = false := isDigit_not_ws hs'
      simp [List.dropWhile, hws, unitRest, ha' y t hs', hb' y t hs']
  unfold matchAt numUnitRe
  rw [matchRe_cat_cons, matchRe_group]
  have hplus := matchRe_plus_greedy f dg (headTest isDigit) (isStep_dg f)
    (fun s' c' => tailK f a b s' ((1, s.take (s.length - s'.length)) :: c')) (hk s) s []
  simp only [tailK] at hplus
  rw [hplus]
  cases s with
  | nil => simp [headTest]
  | cons y t =>
    by_cases hy : isDigit y = true
    · have htk := tailK_eq f a b ha hb (skipWhile (headTest isDigit) t)
        [(1, (y :: t).take ((y :: t).length - (skipWhile (headTest isDigit) t).length))]
      simp only [tailK] at htk
      simp only [headTest, hy, if_true]
      rw [htk]
      have hd : (y :: t).dropWhile isDigit = t.dropWhile isDigit := by
        simp [List.dropWhile, hy]
      have htake := take_length_sub_dropWhile isDigit (y :: t)
      rw [hd] at htake
      rw [skipWhile_headTest, hd, htake]
    · simp [headTest, hy]

theorem charEq_i_of_not_letter (x y : Char) (hx : 0x41 ≤ canon x ∧ canon x ≤ 0x5A)
    (hy : ¬ (0x41 ≤ y.toNat ∧ y.toNat ≤ 0x5A) ∧ ¬ (0x61 ≤ y.toNat ∧ y.toNat ≤ 0x7A)) :
    charEq flagsI x y = false := by
  simp only [charEq, flagsI, if_true, beq_eq_false_iff_ne, ne_eq]
  intro h
  rw [h] at hx
  simp only [canon, Bool.and_eq_true, decide_eq_true_eq] at hx
  split at hx <;> omega

theorem digit_not_letter {y : Char} (h : isDigit y = true) :
    ¬ (0x41 ≤ y.toNat ∧ y.toNat ≤ 0x5A) ∧ ¬ (0x61 ≤ y.toNat ∧ y.toNat ≤ 0x7A) := by
  simp only [isDigit, Bool.and_eq_true, decide_eq_true_eq] at h
  omega

theorem ws_not_letter {y : Char} (h : isWhiteSpace y = true) :
    ¬ (0x41 ≤ y.toNat ∧ y.toNat ≤ 0x5A) ∧ ¬ (0x61 ≤ y.toNat ∧ y.toNat ≤ 0x7A) := by
  simp only [isWhiteSpace, Bool.or_eq_true, Bool.and_eq_true, beq_iff_eq, decide_eq_true_eq] at h
  omega

theorem stripLit_letter_none (x : Char) (p : Str) (y : Char) (t : Str)
    (hx : 0x41 ≤ canon x ∧ canon x ≤ 0x5A)
    (hy : ¬ (0x41 ≤ y.toNat ∧ y.toNat ≤ 0x5A) ∧ ¬ (0x61 ≤ y.toNat ∧ y.toNat ≤ 0x7A)) :
    stripLit flagsI (x :: p) (y :: t) = none := by
  simp [stripLit, charEq_i_of_not_letter x y hx hy]

example : 0x41 ≤ canon 'h' ∧ canon 'h' ≤ 0x5A := by decide

theorem LetterHead.ws {p : Str} (h : LetterHead p) (y : Char) (t : Str)
    (hy : isWhiteSpace y = true) : stripLit flagsI p (y :: t) = none := by
  obtain ⟨x, q, rfl, hx⟩ := h
  exact stripLit_letter_none x q y t hx (ws_not_letter hy)

theorem LetterHead.digit {p : Str} (h : LetterHead p) (y : Char) (t : Str)
    (hy : isDigit y = true) : stripLit flagsI p (y :: t) = none := by
  obtain ⟨x, q, rfl, hx⟩ := h
  exact stripLit_letter_none x q y t hx (digit_not_letter hy)

theorem dropWhile_of_headTest {p : Char → Bool} {s : Str} (h : headTest p s = false) :
    s.dropWhile p = s := by
  cases s with
  | nil => rfl
  | cons y t => simp only [headTest] at h; simp [List.dropWhile, h]

theorem takeWhile_of_headTest {p : Char → Bool} {s : Str} (h : headTest p s = false) :
    s.takeWhile p = [] := by
  cases s with
  | nil => rfl
  | cons y t => simp only [headTest] at h; simp [List.takeWhile, h]

theorem headTest_append_ws_not_digit (w u : Str) (hw : ∀ c ∈ w, isWhiteSpace c = true)
    (hu : headTest isDigit u = false) : headTest isDigit (w ++ u) = false := by
  cases w with
  | nil => simpa using hu
  | cons y t =>
    have := hw y (List.mem_cons_self _ _)
    simp only [List.cons_append, headTest]
    cases hd : isDigit y with
    | false => rfl
    | true => rw [isDigit_not_ws hd] at this; cases this

theorem matchAt_numUnit_digits (a b : Str) (ha : LetterHead a) (hb : LetterHead b)
    (Hs w u : Str) (hne : Hs ≠ []) (hH : ∀ c ∈ Hs, isDigit c = true)
    (hw : ∀ c ∈ w, isWhiteSpace c = true)
    (hud : headTest isDigit u = false) (huw : headTest isWhiteSpace u = false) :
    matchAt flagsI (numUnitRe a b) (Hs ++ (w ++ u)) =
      match unitRest flagsI a b u with
      | some rest => some (rest, [(1, Hs)])
      | none => none := by
  rw [matchAt_numUnit flagsI a b ha.ws hb.ws ha.digit hb.digit]
  have hhead : headTest isDigit (Hs ++ (w ++ u)) = true := by
    obtain ⟨y, t, rfl⟩ := List.exists_cons_of_ne_nil hne
    simpa [headTest] using hH y (List.mem_cons_self _ _)
  have hwu := headTest_append_ws_not_digit w u hw hud
  rw [hhead, if_pos rfl, List.dropWhile_append_of_pos hH, dropWhile_of_headTest hwu,
    List.dropWhile_append_of_pos hw, dropWhile_of_headTest huw,
    List.takeWhile_append_of_pos hH, takeWhile_of_headTest hwu, List.append_nil]

theorem matchAt_numUnit_nondigit (a b : Str) (ha : LetterHead a) (hb : LetterHead b)
    (s : Str) (h : headTest isDigit s = false) :
    matchAt flagsI (numUnitRe a b) s = none := by
  rw [matchAt_numUnit flagsI a b ha.ws hb.ws ha.digit hb.digit, h]
  simp

/-- The search passes over a text without digit. -/
theorem searchFrom_numUnit_nondigits (a b : Str) (ha : LetterHead a) (hb : LetterHead b)
    (D rest acc : Str) (hD : ∀ c ∈ D, isDigit c = false) :
    searchFrom flagsI (numUnitRe a b) acc (D ++ rest) =
      searchFrom flagsI (numUnitRe a b) (D.reverse ++ acc) rest := by
  apply searchFrom_skip
  intro u y v e
  apply matchAt_numUnit_nondigit a b ha hb
  have : y ∈ D := by rw [e]; simp
  simpa [headTest] using hD y this

/-- The search passes over a number that is not followed by the unit. -/
theorem searchFrom_numUnit_digits (a b : Str) (ha : LetterHead a) (hb : LetterHead b)
    (Hs w u acc : Str) (hH : ∀ c ∈ Hs, isDigit c = true)
    (hw : ∀ c ∈ w, isWhiteSpace c = true)
    (hud : headTest isDigit u = false) (huw : headTest isWhiteSpace u = false)
    (hun : unitRest flagsI a b u = none) :
    searchFrom flagsI (numUnitRe a b) acc (Hs ++ (w ++ u)) =
      searchFrom flagsI (numUnitRe a b) ((Hs ++ w).reverse ++ acc) u := by
  have h1 : searchFrom flagsI (numUnitRe a b) acc (Hs ++ (w ++ u)) =
      searchFrom flagsI (numUnitRe a b) (Hs.reverse ++ acc) (w ++ u) := by
    apply searchFrom_skip
    intro p y v e
    have hsub : ∀ c ∈ y :: v, isDigit c = true := by
      intro c hc
      apply hH
      rw [e]
      exact List.mem_append_right _ hc
    have := matchAt_numUnit_digits a b ha hb (y :: v) w u (by simp) hsub hw hud huw
    rw [hun] at this
    exact this
  have h2 : searchFrom flagsI (numUnitRe a b) (Hs.reverse ++ acc) (w ++ u) =
      searchFrom flagsI (numUnitRe a b) (w.reverse ++ (Hs.reverse ++ acc)) u := by
    apply searchFrom_numUnit_nondigits a b ha hb
    intro c hc
    cases hd : isDigit c with
    | false => rfl
    | true => have := hw c hc; rw [isDigit_not_ws hd] at this; cases this
  rw [h1, h2]
  simp

/-- The search stops at a number followed by the unit. -/
theorem searchFrom_numUnit_hit (a b : Str) (ha : LetterHead a) (hb : LetterHead b)
    (Hs w u acc : Str) (hne : Hs ≠ []) (hH : ∀ c ∈ Hs, isDigit c = true)
    (hw : ∀ c ∈ w, isWhiteSpace c = true)
    (hud : headTest isDigit u = false) (huw : headTest isWhiteSpace u = false)
    (hun : (unitRest flagsI a b u).isSome = true) :
    ∃ m, searchFrom flagsI (numUnitRe a b) acc (Hs ++ (w ++ u)) = some m ∧ m.capD 1 = Hs := by
  obtain ⟨rest, hrest⟩ := Option.isSome_iff_exists.mp hun
  have := matchAt_numUnit_digits a b ha hb Hs w u hne hH hw hud huw
  rw [hrest] at this
  exact ⟨_, searchFrom_hit _ _ acc _ _ _ this, rfl⟩

theorem stripLit_self_append (f : Flags) (p t : Str) : stripLit f p (p ++ t) = some t := by
  induction p with
  | nil => rfl
  | cons x p ih => simp [stripLit, charEq, ih]

theorem unitRest_isSome_left (f : Flags) (a b u t : Str) (h : stripLit f a u = some t) :
    (unitRest f a b u).isSome = true := by
  simp [unitRest, h]

theorem unitRest_isSome_right (f : Flags) (a b u t : Str) (h : stripLit f b u = some t) :
    (unitRest f a b u).isSome = true := by
  unfold unitRest
  cases stripLit f a u <;> simp [h]

theorem unitRest_none_of_head (f : Flags) (x x' y : Char) (a b t : Str)
    (h : charEq f x y = false) (h' : charEq f x' y = false) :
    unitRest f (x :: a) (x' :: b) (y :: t) = none := by
  simp [unitRest, stripLit, h, h']

theorem toNumber_of_lt (n : Nat) (h : n < 2 ^ 53) : toNumber n = Number.fin n := by
  unfold toNumber
  rw [if_pos h]

theorem zero_add_num (x : Number) (n : Nat) (h : x = Number.fin n) (hn : n < 2 ^ 53) :
    (0 : Number).add x = Number.fin n := by
  subst h
  show toNumber (0 + n) = Number.fin n
  rw [Nat.zero_add, toNumber_of_lt n hn]

theorem minutes_exact (H M : Nat) (h : 60 * H + M < 2 ^ 53) :
    ((0 : Number).add (toNumber H).times60).add (toNumber M) = Number.fin (60 * H + M) := by
  have hH : H < 2 ^ 53 := by omega
  have hM : M < 2 ^ 53 := by omega
  have hH60 : H * 60 < 2 ^ 53 := by omega
  have h1 : (toNumber H).times60 = Number.fin (H * 60) := by
    rw [toNumber_of_lt H hH]
    show toNumber (H * 60) = Number.fin (H * 60)
    exact toNumber_of_lt _ hH60
  rw [zero_add_num _ _ h1 hH60, toNumber_of_lt M hM]
  show toNumber (H * 60 + M) = Number.fin (60 * H + M)
  rw [toNumber_of_lt _ (by omega)]
  congr 1
  omega

theorem hours_exact (H : Nat) (h : 60 * H < 2 ^ 53) :
    (0 : Number).add (toNumber H).times60 = Number.fin (60 * H) := by
  have hH : H < 2 ^ 53 := by omega
  have hH60 : H * 60 < 2 ^ 53 := by omega
  have h1 : (toNumber H).times60 = Number.fin (H * 60) := by
    rw [toNumber_of_lt H hH]
    show toNumber (H * 60) = Number.fin (H * 60)
    exact toNumber_of_lt _ hH60
  rw [zero_add_num _ _ h1 hH60]
  congr 1
  omega

theorem digitsValue_takeWhile (Hs : Str) (hH : ∀ c ∈ Hs, isDigit c = true) :
    parseInt Hs = toNumber (digitsValue Hs) := by
  have : Hs.takeWhile isDigit = Hs := by
    have := @List.takeWhile_append_of_pos _ isDigit Hs [] hH
    simpa using this
  simp [parseInt, this]

theorem letterHead_hour : LetterHead "hour".toList := ⟨'h', "our".toList, rfl, by decide⟩
theorem letterHead_hr : LetterHead "hr".toList := ⟨'h', "r".toList, rfl, by decide⟩
theorem letterHead_minute : LetterHead "minute".toList := ⟨'m', "inute".toList, rfl, by decide⟩
theorem letterHead_min : LetterHead "min".toList := ⟨'m', "in".toList, rfl, by decide⟩

theorem hoursRegex_eq : hoursRegex = numUnitRe "hour".toList "hr".toList := rfl
theorem minutesRegex_eq : minutesRegex = numUnitRe "minute".toList "min".toList := rfl

theorem hourUnit_facts (hu rest : Str)
    (h : hu ∈ ["hour".toList, "hours".toList, "hr".toList, "hrs".toList]) :
    headTest isDigit (hu ++ rest) = false ∧ headTest isWhiteSpace (hu ++ rest) = false ∧
    (unitRest flagsI "hour".toList "hr".toList (hu ++ rest)).isSome = true ∧
    unitRest flagsI "minute".toList "min".toList (hu ++ rest) = none ∧
    (∀ c ∈ hu, isDigit c = false) := by
  simp only [List.mem_cons, List.mem_singleton, List.not_mem_nil, or_false] at h
  rcases h with rfl | rfl | rfl | rfl
  · refine ⟨rfl, rfl, ?_, ?_, by decide⟩
    · exact unitRest_isSome_left _ _ _ _ _ (stripLit_self_append _ _ _)
    · exact unitRest_none_of_head flagsI 'm' 'm' 'h' _ _ _ (by decide) (by decide)
  · refine ⟨rfl, rfl, ?_, ?_, by decide⟩
    · exact unitRest_isSome_left _ _ _ _ _
        (stripLit_self_append flagsI "hour".toList ("s".toList ++ rest))
    · exact unitRest_none_of_head flagsI 'm' 'm' 'h' _ _ _ (by decide) (by decide)
  · refine ⟨rfl, rfl, ?_, ?_, by decide⟩
    · exact unitRest_isSome_right _ _ _ _ _ (stripLit_self_append _ _ _)
    · exact unitRest_none_of_head flagsI 'm' 'm' 'h' _ _ _ (by decide) (by decide)
  · refine ⟨rfl, rfl, ?_, ?_, by decide⟩
    · exact unitRest_isSome_right _ _ _ _ _
        (stripLit_self_append flagsI "hr".toList ("s".toList ++ rest))
    · exact unitRest_none_of_head flagsI 'm' 'm' 'h' _ _ _ (by decide) (by decide)

theorem minuteUnit_facts (mu rest : Str)
    (h : mu ∈ ["minute".toList, "minutes".toList, "min".toList, "mins".toList]) :
    headTest isDigit (mu ++ rest) = false ∧ headTest isWhiteSpace (mu ++ rest) = false ∧
    (unitRest flagsI "minute".toList "min".toList (mu ++ rest)).isSome = true ∧
    unitRest flagsI "hour".toList "hr".toList (mu ++ rest) = none ∧
    (∀ c ∈ mu, isDigit c = false) := by
  simp only [List.mem_cons, List.mem_singleton, List.not_mem_nil, or_false] at h
  rcases h with rfl | rfl | rfl | rfl
  · refine ⟨rfl, rfl, ?_, ?_, by decide⟩
    · exact unitRest_isSome_left _ _ _ _ _ (stripLit_self_append _ _ _)
    · exact unitRest_none_of_head flagsI 'h' 'h' 'm' _ _ _ (by decide) (by decide)
  · refine ⟨rfl, rfl, ?_, ?_, by decide⟩
    · exact unitRest_isSome_left _ _ _ _ _
        (stripLit_self_append flagsI "minute".toList ("s".toList ++ rest))
    · exact unitRest_none_of_head flagsI 'h' 'h' 'm' _ _ _ (by decide) (by decide)
  · refine ⟨rfl, rfl, ?_, ?_, by decide⟩
    · exact unitRest_isSome_right _ _ _ _ _ (stripLit_self_append _ _ _)
    · exact unitRest_none_of_head flagsI 'h' 'h' 'm' _ _ _ (by decide) (by decide)
  · refine ⟨rfl, rfl, ?_, ?_, by decide⟩
    · exact unitRest_isSome_right _ _ _ _ _
        (stripLit_self_append flagsI "min".toList ("s".toList ++ rest))
    · exact unitRest_none_of_head flagsI 'h' 'h' 'm' _ _ _ (by decide) (by decide)

theorem guard_of_digit_mem (s : Str) (c : Char) (hc : c ∈ s) (hd : isDigit c = true) :
    (decide (s.length = 0) || decide (s = "N/A".toList)) = false := by
  have h1 : s.length ≠ 0 := by
    intro h
    rw [List.length_eq_zero] at h
    subst h
    simp at hc
  have h2 : s ≠ "N/A".toList := by
    intro h
    subst h
    have : ∀ x ∈ "N/A".toList, isDigit x = false := by decide
    rw [this c hc] at hd
    cases hd
  rw [decide_eq_false h1, decide_eq_false h2]
  rfl

theorem extractTimeMinutes_eq (s : Str) (c : Char) (hc : c ∈ s) (hd : isDigit c = true) :
    extractTimeMinutes s =
      match searchFrom flagsI (numUnitRe "minute".toList "min".toList) [] s with
      | some m =>
        (match searchFrom flagsI (numUnitRe "hour".toList "hr".toList) [] s with
          | some m => (0 : Number).add (parseInt (m.capD 1)).times60
          | none => 0).add (parseInt (m.capD 1))
      | none =>
        match searchFrom flagsI (numUnitRe "hour".toList "hr".toList) [] s with
        | some m => (0 : Number).add (parseInt (m.capD 1)).times60
        | none => 0 := by
  unfold extractTimeMinutes
  rw [guard_of_digit_mem s c hc hd]
  rfl

theorem extractTimeMinutes_hours_minutes (H w1 hu sep M w2 mu tail : Str)
    (hH0 : H ≠ []) (hH : ∀ c ∈ H, isDigit c = true)
    (hM0 : M ≠ []) (hM : ∀ c ∈ M, isDigit c = true)
    (hw1 : ∀ c ∈ w1, isWhiteSpace c = true) (hw2 : ∀ c ∈ w2, isWhiteSpace c = true)
    (hhu : hu ∈ ["hour".toList, "hours".toList, "hr".toList, "hrs".toList])
    (hmu : mu ∈ ["minute".toList, "minutes".toList, "min".toList, "mins".toList])
    (hsep : ∀ c ∈ sep, isDigit c = false) :
    extractTimeMinutes (H ++ w1 ++ hu ++ sep ++ M ++ w2 ++ mu ++ tail) =
      ((0 : Number).add (toNumber (digitsValue H)).times60).add (toNumber (digitsValue M)) := by
  obtain ⟨hd1, hws1, hsome1, hnone1, hdf1⟩ :=
    hourUnit_facts hu (sep ++ (M ++ (w2 ++ (mu ++ tail)))) hhu
  obtain ⟨hd2, hws2, hsome2, _, _⟩ := minuteUnit_facts mu tail hmu
  have hs : H ++ w1 ++ hu ++ sep ++ M ++ w2 ++ mu ++ tail =
      H ++ (w1 ++ (hu ++ (sep ++ (M ++ (w2 ++ (mu ++ tail)))))) := by simp
  obtain ⟨y, t, rfl⟩ := List.exists_cons_of_ne_nil hH0
  rw [hs, extractTimeMinutes_eq _ y (by simp) (hH y (List.mem_cons_self _ _))]
  obtain ⟨m1, hm1, hc1⟩ := searchFrom_numUnit_hit "hour".toList "hr".toList letterHead_hour
    letterHead_hr (y :: t) w1 _ [] hH0 hH hw1 hd1 hws1 hsome1
  have hskip := searchFrom_numUnit_digits "minute".toList "min".toList letterHead_minute
    letterHead_min (y :: t) w1 _ [] hH hw1 hd1 hws1 hnone1
  have hdf : ∀ c ∈ hu ++ sep, isDigit c = false := by
    intro c hc
    rcases List.mem_append.mp hc with h | h
    · exact hdf1 c h
    · exact hsep c h
  have hskip2 := searchFrom_numUnit_nondigits "minute".toList "min".toList letterHead_minute
    letterHead_min (hu ++ sep) (M ++ (w2 ++ (mu ++ tail))) (((y :: t) ++ w1).reverse ++ []) hdf
  obtain ⟨m2, hm2, hc2⟩ := searchFrom_numUnit_hit "minute".toList "min".toList letterHead_minute
    letterHead_min M w2 (mu ++ tail) ((hu ++ sep).reverse ++ (((y :: t) ++ w1).reverse ++ []))
    hM0 hM hw2 hd2 hws2 hsome2
  rw [List.append_assoc hu sep] at hskip2
  rw [hskip, hskip2, hm2, hm1]
  simp only [hc1, hc2, digitsValue_takeWhile _ hH, digitsValue_takeWhile _ hM]

theorem searchFrom_nil_numUnit (a b : Str) (ha : LetterHead a) (hb : LetterHead b) (acc : Str) :
    searchFrom flagsI (numUnitRe a b) acc [] = none := by
  simp [searchFrom, matchAt_numUnit_nondigit a b ha hb [] rfl]

theorem extractTimeMinutes_minutes_only (pre M w mu tail : Str)
    (hM0 : M ≠ []) (hM : ∀ c ∈ M, isDigit c = true)
    (hw : ∀ c ∈ w, isWhiteSpace c = true)
    (hmu : mu ∈ ["minute".toList, "minutes".toList, "min".toList, "mins".toList])
    (hpre : ∀ c ∈ pre, isDigit c = false) (htail : ∀ c ∈ tail, isDigit c = false) :
    extractTimeMinutes (pre ++ M ++ w ++ mu ++ tail) =
      (0 : Number).add (toNumber (digitsValue M)) := by
  obtain ⟨hd2, hws2, hsome2, hnone2, hdf2⟩ := minuteUnit_facts mu tail hmu
  have hs : pre ++ M ++ w ++ mu ++ tail = pre ++ (M ++ (w ++ (mu ++ tail))) := by simp
  obtain ⟨y, t, rfl⟩ := List.exists_cons_of_ne_nil hM0
  rw [hs, extractTimeMinutes_eq _ y (by simp) (hM y (List.mem_cons_self _ _))]
  have hdf : ∀ c ∈ mu ++ tail, isDigit c = false := by
    intro c hc
    rcases List.mem_append.mp hc with h | h
    · exact hdf2 c h
    · exact htail c h
  -- the hours pattern matches nowhere
  have hh1 := searchFrom_numUnit_nondigits "hour".toList "hr".toList letterHead_hour
    letterHead_hr pre ((y :: t) ++ (w ++ (mu ++ tail))) [] hpre
  have hh2 := searchFrom_numUnit_digits "hour".toList "hr".toList letterHead_hour
    letterHead_hr (y :: t) w (mu ++ tail) (pre.reverse ++ []) hM hw hd2 hws2 hnone2
  have hh3 := searchFrom_numUnit_nondigits "hour".toList "hr".toList letterHead_hour
    letterHead_hr (mu ++ tail) [] (((y :: t) ++ w).reverse ++ (pre.reverse ++ [])) hdf
  simp only [List.append_nil] at hh1 hh2 hh3
  -- the minutes pattern matches at the number
  have hm1 := searchFrom_numUnit_nondigits "minute".toList "min".toList letterHead_minute
    letterHead_min pre ((y :: t) ++ (w ++ (mu ++ tail))) [] hpre
  obtain ⟨m2, hm2, hc2⟩ := searchFrom_numUnit_hit "minute".toList "min".toList letterHead_minute
    letterHead_min (y :: t) w (mu ++ tail) pre.reverse hM0 hM hw hd2 hws2 hsome2
  simp only [List.append_nil] at hm1
  rw [hm1, hm2, hh1, hh2, hh3, searchFrom_nil_numUnit _ _ letterHead_hour letterHead_hr]
  simp only [hc2, digitsValue_takeWhile _ hM]

theorem extractTimeMinutes_hours_only (pre H w hu tail : Str)
    (hH0 : H ≠ []) (hH : ∀ c ∈ H, isDigit c = true)
    (hw : ∀ c ∈ w, isWhiteSpace c = true)
    (hhu : hu ∈ ["hour".toList, "hours".toList, "hr".toList, "hrs".toList])
    (hpre : ∀ c ∈ pre, isDigit c = false) (htail : ∀ c ∈ tail, isDigit c = false) :
    extractTimeMinutes (pre ++ H ++ w ++ hu ++ tail) =
      (0 : Number).add (toNumber (digitsValue H)).times60 := by
  obtain ⟨hd1, hws1, hsome1, hnone1, hdf1⟩ := hourUnit_facts hu tail hhu
  have hs : pre ++ H ++ w ++ hu ++ tail = pre ++ (H ++ (w ++ (hu ++ tail))) := by simp
  obtain ⟨y, t, rfl⟩ := List.exists_cons_of_ne_nil hH0
  rw [hs, extractTimeMinutes_eq _ y (by simp) (hH y (List.mem_cons_self _ _))]
  have hdf : ∀ c ∈ hu ++ tail, isDigit c = false := by
    intro c hc
    rcases List.mem_append.mp hc with h | h
    · exact hdf1 c h
    · exact htail c h
  have hm1 := searchFrom_numUnit_nondigits "minute".toList "min".toList letterHead_minute
    letterHead_min pre ((y :: t) ++ (w ++ (hu ++ tail))) [] hpre
  have hm2 := searchFrom_numUnit_digits "minute".toList "min".toList letterHead_minute
    letterHead_min (y :: t) w (hu ++ tail) (pre.reverse ++ []) hH hw hd1 hws1 hnone1
  have hm3 := searchFrom_numUnit_nondigits "minute".toList "min".toList letterHead_minute
    letterHead_min (hu ++ tail) [] (((y :: t) ++ w).reverse ++ (pre.reverse ++ [])) hdf
  simp only [List.append_nil] at hm1 hm2 hm3
  have hh1 := searchFrom_numUnit_nondigits "hour".toList "hr".toList letterHead_hour
    letterHead_hr pre ((y :: t) ++ (w ++ (hu ++ tail))) [] hpre
  obtain ⟨m2, hh2, hc2⟩ := searchFrom_numUnit_hit "hour".toList "hr".toList letterHead_hour
    letterHead_hr (y :: t) w (hu ++ tail) pre.reverse hH0 hH hw hd1 hws1 hsome1
  simp only [List.append_nil] at hh1
  rw [hm1, hm2, hm3, searchFrom_nil_numUnit _ _ letterHead_minute letterHead_min, hh1, hh2]
  simp only [hc2, digitsValue_takeWhile _ hH]

/-- C4 (as amended). Time parsing: `extractTimeMinutes` gives 0 on the empty
string and on `'N/A'`; on a number `H` with an hour unit followed by a number `M`
with a minute unit it gives `60 * H + M` computed in doubles, which is exactly
`60 * H + M` when this is below `2 ^ 53`; on a text whose only number is `M` with
a minute unit it gives the double of `M`, which is `M` below `2 ^ 53`, and on one
whose only number is `H` with an hour unit, the double `60 * H`, exact when
`60 * H` is below `2 ^ 53`. -/
theorem time_parsing :
    extractTimeMinutes [] = 0 ∧ extractTimeMinutes "N/A".toList = 0 ∧
    (∀ H w1 hu sep M w2 mu tail : Str,
      H ≠ [] → (∀ c ∈ H, isDigit c = true) → M ≠ [] → (∀ c ∈ M, isDigit c = true) →
      (∀ c ∈ w1, isWhiteSpace c = true) → (∀ c ∈ w2, isWhiteSpace c = true) →
      hu ∈ ["hour".toList, "hours".toList, "hr".toList, "hrs".toList] →
      mu ∈ ["minute".toList, "minutes".toList, "min".toList, "mins".toList] →
      (∀ c ∈ sep, isDigit c = false) →
      extractTimeMinutes (H ++ w1 ++ hu ++ sep ++ M ++ w2 ++ mu ++ tail) =
        ((0 : Number).add (toNumber (digitsValue H)).times60).add (toNumber (digitsValue M)) ∧
      (60 * digitsValue H + digitsValue M < 2 ^ 53 →
        extractTimeMinutes (H ++ w1 ++ hu ++ sep ++ M ++ w2 ++ mu ++ tail) =
          Number.fin (60 * digitsValue H + digitsValue M))) ∧
    (∀ pre M w mu tail : Str,
      M ≠ [] → (∀ c ∈ M, isDigit c = true) → (∀ c ∈ w, isWhiteSpace c = true) →
      mu ∈ ["minute".toList, "minutes".toList, "min".toList, "mins".toList] →
      (∀ c ∈ pre, isDigit c = false) → (∀ c ∈ tail, isDigit c = false) →
      extractTimeMinutes (pre ++ M ++ w ++ mu ++ tail) =
        (0 : Number).add (toNumber (digitsValue M)) ∧
      (digitsValue M < 2 ^ 53 →
        extractTimeMinutes (pre ++ M ++ w ++ mu ++ tail) = Number.fin (digitsValue M))) ∧
    (∀ pre H w hu tail : Str,
      H ≠ [] → (∀ c ∈ H, isDigit c = true) → (∀ c ∈ w, isWhiteSpace c = true) →
      hu ∈ ["hour".toList, "hours".toList, "hr".toList, "hrs".toList] →
      (∀ c ∈ pre, isDigit c = false) → (∀ c ∈ tail, isDigit c = false) →
      extractTimeMinutes (pre ++ H ++ w ++ hu ++ tail) =
        (0 : Number).add (toNumber (digitsValue H)).times60 ∧
      (60 * digitsValue H < 2 ^ 53 →
        extractTimeMinutes (pre ++ H ++ w ++ hu ++ tail) = Number.fin (60 * digitsValue H))) := by
  refine ⟨by decide, by decide, ?_, ?_, ?_⟩
  · intro H w1 hu sep M w2 mu tail hH0 hH hM0 hM hw1 hw2 hhu hmu hsep
    have h := extractTimeMinutes_hours_minutes H w1 hu sep M w2 mu tail hH0 hH hM0 hM hw1 hw2
      hhu hmu hsep
    exact ⟨h, fun hb => h.trans (minutes_exact _ _ hb)⟩
  · intro pre M w mu tail hM0 hM hw hmu hpre htail
    have h := extractTimeMinutes_minutes_only pre M w mu tail hM0 hM hw hmu hpre htail
    exact ⟨h, fun hb => h.trans (zero_add_num _ _ (toNumber_of_lt _ hb) hb)⟩
  · intro pre H w hu tail hH0 hH hw hhu hpre htail
    have h := extractTimeMinutes_hours_only pre H w hu tail hH0 hH hw hhu hpre htail
    exact ⟨h, fun hb => h.trans (hours_exact _ hb)⟩

/-- The spec's example `'1 hour 15 minutes'` gives 75, `'30 mins'` gives 30 and
`'2 hrs'` gives 120. -/
theorem time_parsing_witness :
    extractTimeMinutes "1 hour 15 minutes".toList = 75 ∧
    extractTimeMinutes "30 mins".toList = 30 ∧
    extractTimeMinutes "2 hrs".toList = 120 :=
  ⟨(time_parsing.2.2.1 "1".toList " ".toList "hour".toList " ".toList "15".toList " ".toList
      "minutes".toList [] (by decide) (by decide) (by decide) (by decide) (by decide)
      (by decide) (by decide) (by decide) (by decide)).2 (by decide),
   (time_parsing.2.2.2.1 [] "30".toList " ".toList "mins".toList [] (by decide) (by decide)
      (by decide) (by decide) (by decide) (by decide)).2 (by decide),
   (time_parsing.2.2.2.2 [] "2".toList " ".toList "hrs".toList [] (by decide) (by decide)
      (by decide) (by decide) (by decide) (by decide)).2 (by decide)⟩

set_option maxRecDepth 1000000 in
/-- C4, counterexample. On `'9007199254740993 minutes'`, a text whose only number
is `M = 9007199254740993` with a minute unit, `extractTimeMinutes` gives
9007199254740992, the double nearest to `M`, and not `M`; on
`'150119987579016 hours 33 minutes'` it gives 9007199254740992 and not
`60 * H + M`, which is 9007199254740993. -/
theorem time_rounding_counterexample :
    digitsValue "9007199254740993".toList = 9007199254740993 ∧
    extractTimeMinutes "9007199254740993 minutes".toList = 9007199254740992 ∧
    extractTimeMinutes "9007199254740993 minutes".toList ≠
      Number.fin (digitsValue "9007199254740993".toList) ∧
    60 * digitsValue "150119987579016".toList + digitsValue "33".toList = 9007199254740993 ∧
    extractTimeMinutes "150119987579016 hours 33 minutes".toList = 9007199254740992 := by
  refine ⟨by decide, by decide, by decide, by decide, by decide⟩

/-! ## Ranges and numbers -/

theorem starLoop_greedy_some (f : Flags) (r : Re) (P : Str → Bool) (hr : IsStep f r P) (k : Cont)
    (n : Nat) (s : Str) (c : Caps) (hn : s.length ≤ n)
    (hk : (k (skipWhile P s) c).isSome = true) :
    starLoop (matchRe f r) [] true n s c k = k (skipWhile P s) c := by
  induction n generalizing s with
  | zero =>
    have : s = [] := List.length_eq_zero.mp (Nat.le_zero.mp hn)
    subst this
    simp [starLoop, skipWhile]
  | succ n ih =>
    cases s with
    | nil => simp [starLoop, hr.2, skipWhile]
    | cons y t =>
      by_cases hp : P (y :: t) = true
      · have ht : t.length ≤ n := by simpa using hn
        simp only [skipWhile, hp, if_true] at hk
        simp only [starLoop, hr.2, clearCaps_nil, hp, if_true, List.length_cons,
          Nat.lt_succ_self, skipWhile, ih t ht hk]
        obtain ⟨res, hres⟩ := Option.isSome_iff_exists.mp hk
        simp [hres]
      · simp [starLoop, hr.2, hp, skipWhile]

/-- A greedy `+` before the end of the pattern takes the longest run. -/
theorem matchRe_plus_greedy_some (f : Flags) (r : Re) (P : Str → Bool) (hr : IsStep f r P)
    (k : Cont) (hk : ∀ s c, (k s c).isSome = true) (s : Str) (c : Caps) :
    matchRe f (.plus true r) s c k =
      match s with
      | [] => none
      | y :: t => if P (y :: t) then k (skipWhile P t) c else none := by
  cases s with
  | nil => simp [matchRe, hr.2]
  | cons y t =>
    simp only [matchRe, hr.2, hr.1, clearCaps_nil]
    by_cases hp : P (y :: t) = true
    · simp only [hp, if_true]
      exact starLoop_greedy_some f r P hr k _ t c (le_refl _) (hk _ _)
    · simp [hp]

/-- The match of `(\\d+)` at the start of the input. -/
theorem matchAt_number (f : Flags) (s : Str) :
    matchAt f numberRegex s =
      if headTest isDigit s then some (s.dropWhile isDigit, [(1, s.takeWhile isDigit)])
      else none := by
  unfold matchAt numberRegex
  rw [matchRe_group, matchRe_plus_greedy_some f dg (headTest isDigit) (isStep_dg f)
    (fun s' c' => some (s', (1, s.take (s.length - s'.length)) :: c')) (fun _ _ => rfl)]
  cases s with
  | nil => simp [headTest]
  | cons y t =>
    by_cases hy : isDigit y = true
    · have hd : (y :: t).dropWhile isDigit = t.dropWhile isDigit := by
        simp [List.dropWhile, hy]
      have htake := take_length_sub_dropWhile isDigit (y :: t)
      rw [hd] at htake
      simp only [headTest, hy, if_true, skipWhile_headTest, hd, htake]
    · simp [headTest, hy]

theorem charEq_flags0 (x y : Char) : charEq flags0 x y = (x == y) := by
  simp [charEq, flags0]

theorem matchAt_range (s : Str) :
    matchAt flags0 rangeRegex s =
      match rangeAt s with
      | some (a, b, rest) => some (rest, [(2, b), (1, a)])
      | none => none := by
  -- the part after the hyphen
  have h4 : ∀ (u : Str) (c : Caps),
      matchRe flags0 (Re.cat [.star true ws, .group 2 (.plus true dg)]) u c
        (fun s' c' => some (s', c')) =
      if headTest isDigit (u.dropWhile isWhiteSpace) then
        some ((u.dropWhile isWhiteSpace).dropWhile isDigit,
          (2, (u.dropWhile isWhiteSpace).takeWhile isDigit) :: c)
      else none := by
    intro u c
    have hnum : ∀ (v : Str) (c : Caps),
        matchRe flags0 (Re.cat [.group 2 (.plus true dg)]) v c (fun s' c' => some (s', c')) =
        if headTest isDigit v then some (v.dropWhile isDigit, (2, v.takeWhile isDigit) :: c)
        else none := by
      intro v c
      rw [matchRe_cat_cons, matchRe_group]
      simp only [matchRe_cat_nil]
      rw [matchRe_plus_greedy_some flags0 dg (headTest isDigit) (isStep_dg flags0)
        (fun s' c' => some (s', (2, v.take (v.length - s'.length)) :: c')) (fun _ _ => rfl)]
      cases v with
      | nil => simp [headTest]
      | cons y t =>
        by_cases hy : isDigit y = true
        · have hd : (y :: t).dropWhile isDigit = t.dropWhile isDigit := by
            simp [List.dropWhile, hy]
          have htake := take_length_sub_dropWhile isDigit (y :: t)
          rw [hd] at htake
          simp only [headTest, hy, if_true, skipWhile_headTest, hd, htake]
        · simp [headTest, hy]
    rw [matchRe_cat_cons, matchRe_star_greedy flags0 ws (headTest isWhiteSpace) (isStep_ws flags0),
      skipWhile_headTest]
    · exact hnum _ c
    · intro s' c' hs'
      rw [hnum]
      cases s' with
      | nil => simp [headTest] at hs'
      | cons y t =>
        simp only [headTest] at hs'
        cases hd : isDigit y with
        | false => simp [headTest, hd]
        | true => rw [isDigit_not_ws hd] at hs'; cases hs'
  -- the part after the first number
  have h2 : ∀ (u : Str) (c : Caps),
      matchRe flags0 (Re.cat [.star true ws, .chr '-', .star true ws, .group 2 (.plus true dg)])
        u c (fun s' c' => some (s', c')) =
      match u.dropWhile isWhiteSpace with
      | [] => none
      | x :: t =>
        if x == '-' && headTest isDigit (t.dropWhile isWhiteSpace) then
          some ((t.dropWhile isWhiteSpace).dropWhile isDigit,
            (2, (t.dropWhile isWhiteSpace).takeWhile isDigit) :: c)
        else none := by
    intro u c
    have hhy : ∀ (v : Str) (c : Caps),
        matchRe flags0 (Re.cat [.chr '-', .star true ws, .group 2 (.plus true dg)]) v c
          (fun s' c' => some (s', c')) =
        match v with
        | [] => none
        | x :: t =>
          if x == '-' && headTest isDigit (t.dropWhile isWhiteSpace) then
            some ((t.dropWhile isWhiteSpace).dropWhile isDigit,
              (2, (t.dropWhile isWhiteSpace).takeWhile isDigit) :: c)
          else none := by
      intro v c
      rw [matchRe_cat_cons, (isStep_chr flags0 '-').2]
      cases v with
      | nil => rfl
      | cons x t =>
        have e : headTest (charEq flags0 '-') (x :: t) = (x == '-') := by
          simp only [headTest, charEq_flags0]
          rw [Bool.eq_iff_iff, beq_iff_eq, beq_iff_eq]
          exact eq_comm
        dsimp only
        rw [e]
        cases hx : (x == '-') with
        | true =>
          simp only [if_true, Bool.true_and, h4]
        | false => simp
    rw [matchRe_cat_cons, matchRe_star_greedy flags0 ws (headTest isWhiteSpace) (isStep_ws flags0),
      skipWhile_headTest]
    · exact hhy _ c
    · intro s' c' hs'
      rw [hhy]
      cases s' with
      | nil => simp [headTest] at hs'
      | cons y t =>
        simp only [headTest] at hs'
        have : (y == '-') = false := by
          rw [beq_eq_false_iff_ne]
          intro e
          subst e
          revert hs'
          decide
        simp [this]
  have hk : ∀ (s0 : Str) (s' : Str) (c' : Caps), headTest isDigit s' = true →
      matchRe flags0 (Re.cat [.star true ws, .chr '-', .star true ws, .group 2 (.plus true dg)])
        s' ((1, s0.take (s0.length - s'.length)) :: c') (fun s' c' => some (s', c')) = none := by
    intro s0 s' c' hs'
    rw [h2]
    cases s' with
    | nil => simp [headTest] at hs'
    | cons y t =>
      simp only [headTest] at hs'
      have hws : isWhiteSpace y = false := isDigit_not_ws hs'
      have : (y == '-') = false := by
        rw [beq_eq_false_iff_ne]
        intro e
        subst e
        revert hs'
        decide
      simp [List.dropWhile, hws, this]
  unfold matchAt rangeRegex
  rw [matchRe_cat_cons, matchRe_group,
    matchRe_plus_greedy flags0 dg (headTest isDigit) (isStep_dg flags0) _ (hk s)]
  cases s with
  | nil => simp [headTest, rangeAt]
  | cons y t =>
    by_cases hy : isDigit y = true
    · have hd : (y :: t).dropWhile isDigit = t.dropWhile isDigit := by
        simp [List.dropWhile, hy]
      have htake := take_length_sub_dropWhile isDigit (y :: t)
      rw [hd] at htake
      simp only [headTest, hy, if_true, h2, skipWhile_headTest, htake, rangeAt, hd]
      cases (t.dropWhile isDigit).dropWhile isWhiteSpace with
      | nil => rfl
      | cons x t' =>
        simp only []
        split <;> rfl
    · simp [headTest, hy, rangeAt]

theorem mathRound_half (n : ℕ) : mathRound ((n : ℚ) / 2) = ((n + 1) / 2 : ℕ) := by
  unfold mathRound
  have h : (n : ℚ) / 2 + 1 / 2 = ((n + 1 : ℕ) : ℤ) / ((2 : ℕ) : ℚ) := by
    push_cast
    ring
  rw [h, Rat.floor_intCast_div_natCast]
  norm_cast

theorem rangeAt_shape (A w1 w2 B tail : Str)
    (hA0 : A ≠ []) (hA : ∀ c ∈ A, isDigit c = true)
    (hB0 : B ≠ []) (hB : ∀ c ∈ B, isDigit c = true)
    (hw1 : ∀ c ∈ w1, isWhiteSpace c = true) (hw2 : ∀ c ∈ w2, isWhiteSpace c = true)
    (htail : headTest isDigit tail = false) :
    rangeAt (A ++ (w1 ++ '-' :: (w2 ++ (B ++ tail)))) = some (A, B, tail) := by
  have hhy : headTest isDigit ('-' :: (w2 ++ (B ++ tail))) = false := rfl
  have hhw : headTest isWhiteSpace ('-' :: (w2 ++ (B ++ tail))) = false := rfl
  have h1 := headTest_append_ws_not_digit w1 _ hw1 hhy
  have hheadA : headTest isDigit (A ++ (w1 ++ '-' :: (w2 ++ (B ++ tail)))) = true := by
    obtain ⟨y, t, rfl⟩ := List.exists_cons_of_ne_nil hA0
    simpa [headTest] using hA y (List.mem_cons_self _ _)
  have hheadB : headTest isDigit (B ++ tail) = true := by
    obtain ⟨y, t, rfl⟩ := List.exists_cons_of_ne_nil hB0
    simpa [headTest] using hB y (List.mem_cons_self _ _)
  have hBws : headTest isWhiteSpace (B ++ tail) = false := by
    obtain ⟨y, t, rfl⟩ := List.exists_cons_of_ne_nil hB0
    simpa [headTest] using isDigit_not_ws (hB y (List.mem_cons_self _ _))
  unfold rangeAt
  rw [hheadA, if_pos rfl, List.dropWhile_append_of_pos hA, dropWhile_of_headTest h1,
    List.dropWhile_append_of_pos hw1, dropWhile_of_headTest hhw]
  simp only [beq_self_eq_true, Bool.true_and]
  rw [List.dropWhile_append_of_pos hw2, dropWhile_of_headTest hBws, hheadB, if_pos rfl,
    List.takeWhile_append_of_pos hA, takeWhile_of_headTest h1, List.append_nil,
    List.takeWhile_append_of_pos hB, takeWhile_of_headTest htail, List.append_nil,
    List.dropWhile_append_of_pos hB, dropWhile_of_headTest htail]

theorem search_range_hit (pre rest a b r : Str)
    (hpre : ∀ v ∈ pre.tails, v ≠ [] → rangeAt (v ++ rest) = none)
    (hit : rangeAt rest = some (a, b, r)) :
    ∃ m, search flags0 rangeRegex (pre ++ rest) = some m ∧ m.capD 1 = a ∧ m.capD 2 = b := by
  have hmiss : ∀ u y v, pre = u ++ y :: v → matchAt flags0 rangeRegex (y :: v ++ rest) = none := by
    intro u y v e
    have hmem : (y :: v) ∈ pre.tails := by
      rw [List.mem_tails, e]
      exact List.suffix_append _ _
    rw [matchAt_range, hpre (y :: v) hmem (by simp)]
  have hhit : matchAt flags0 rangeRegex rest = some (r, [(2, b), (1, a)]) := by
    rw [matchAt_range, hit]
  exact ⟨_, search_skip_hit flags0 rangeRegex pre rest r _ hmiss hhit, rfl, rfl⟩

theorem search_range_none (s : Str) (h : ∀ v ∈ s.tails, rangeAt v = none) :
    search flags0 rangeRegex s = none := by
  apply search_none
  intro u v e
  have hmem : v ∈ s.tails := by
    rw [List.mem_tails, e]
    exact List.suffix_append _ _
  rw [matchAt_range, h v hmem]

theorem rangeAt_nondigit (s : Str) (h : headTest isDigit s = false) : rangeAt s = none := by
  simp [rangeAt, h]

theorem headTest_of_mem_false (p : Char → Bool) (s : Str) (h : ∀ c ∈ s, p c = false) :
    headTest p s = false := by
  cases s with
  | nil => rfl
  | cons y t => simpa [headTest] using h y (List.mem_cons_self _ _)

theorem search_number_hit (pre N tail : Str) (hN0 : N ≠ []) (hN : ∀ c ∈ N, isDigit c = true)
    (hpre : ∀ c ∈ pre, isDigit c = false) (htail : headTest isDigit tail = false) :
    ∃ m, search flags0 numberRegex (pre ++ (N ++ tail)) = some m ∧ m.capD 1 = N := by
  have hmiss : ∀ u y v, pre = u ++ y :: v →
      matchAt flags0 numberRegex (y :: v ++ (N ++ tail)) = none := by
    intro u y v e
    have : y ∈ pre := by rw [e]; simp
    rw [matchAt_number]
    simp [headTest, hpre y this]
  have hhead : headTest isDigit (N ++ tail) = true := by
    obtain ⟨y, t, rfl⟩ := List.exists_cons_of_ne_nil hN0
    simpa [headTest] using hN y (List.mem_cons_self _ _)
  have hhit : matchAt flags0 numberRegex (N ++ tail) = some (tail, [(1, N)]) := by
    rw [matchAt_number, hhead, if_pos rfl, List.dropWhile_append_of_pos hN,
      dropWhile_of_headTest htail, List.takeWhile_append_of_pos hN,
      takeWhile_of_headTest htail, List.append_nil]
  exact ⟨_, search_skip_hit flags0 numberRegex pre _ tail _ hmiss hhit, rfl⟩

theorem search_nodigit_none (s : Str) (h : ∀ c ∈ s, isDigit c = false) :
    search flags0 rangeRegex s = none ∧ search flags0 numberRegex s = none := by
  have hsub : ∀ u v, s = u ++ v → headTest isDigit v = false := by
    intro u v e
    apply headTest_of_mem_false
    intro c hc
    apply h
    rw [e]
    exact List.mem_append_right _ hc
  constructor
  · apply search_none
    intro u v e
    rw [matchAt_range, rangeAt_nondigit v (hsub u v e)]
  · apply search_none
    intro u v e
    rw [matchAt_number, hsub u v e]
    simp

theorem extractServings_nodigit (s : Str) (h : ∀ c ∈ s, isDigit c = false) :
    extractServings s = 4 := by
  unfold extractServings
  split
  · rfl
  · rw [(search_nodigit_none s h).1, (search_nodigit_none s h).2]

theorem halfRounded_fin (v : Nat) : (Number.fin v).halfRounded = Number.fin ((v + 1) / 2) := by
  show Number.fin (mathRound ((v : ℚ) / 2)).toNat = Number.fin ((v + 1) / 2)
  rw [mathRound_half]
  rfl

theorem average_exact (A B : Nat) (h : A + B < 2 ^ 53) :
    ((toNumber A).add (toNumber B)).halfRounded = Number.fin ((A + B + 1) / 2) := by
  rw [toNumber_of_lt A (by omega), toNumber_of_lt B (by omega)]
  show (toNumber (A + B)).halfRounded = Number.fin ((A + B + 1) / 2)
  rw [toNumber_of_lt _ h, halfRounded_fin]

theorem extractServings_eq (s : Str) (c : Char) (hc : c ∈ s) (hd : isDigit c = true) :
    extractServings s =
      match search flags0 rangeRegex s with
      | some m => ((parseInt (m.capD 1)).add (parseInt (m.capD 2))).halfRounded
      | none =>
        match search flags0 numberRegex s with
        | some m => parseInt (m.capD 1)
        | none => 4 := by
  unfold extractServings
  rw [guard_of_digit_mem s c hc hd]
  rfl

theorem extractServings_range (pre A w1 w2 B tail : Str)
    (hA0 : A ≠ []) (hA : ∀ c ∈ A, isDigit c = true)
    (hB0 : B ≠ []) (hB : ∀ c ∈ B, isDigit c = true)
    (hw1 : ∀ c ∈ w1, isWhiteSpace c = true) (hw2 : ∀ c ∈ w2, isWhiteSpace c = true)
    (htail : headTest isDigit tail = false)
    (hleft : ∀ v ∈ pre.tails, v ≠ [] →
      rangeAt (v ++ (A ++ (w1 ++ '-' :: (w2 ++ (B ++ tail))))) = none) :
    extractServings (pre ++ (A ++ (w1 ++ '-' :: (w2 ++ (B ++ tail))))) =
      ((toNumber (digitsValue A)).add (toNumber (digitsValue B))).halfRounded := by
  obtain ⟨y, t, rfl⟩ := List.exists_cons_of_ne_nil hA0
  rw [extractServings_eq _ y (by simp) (hA y (List.mem_cons_self _ _))]
  obtain ⟨m, hm, h1, h2⟩ := search_range_hit pre _ _ _ _ hleft
    (rangeAt_shape (y :: t) w1 w2 B tail hA0 hA hB0 hB hw1 hw2 htail)
  rw [hm]
  simp only [h1, h2, digitsValue_takeWhile _ hA, digitsValue_takeWhile _ hB]

theorem extractServings_number (pre N tail : Str)
    (hN0 : N ≠ []) (hN : ∀ c ∈ N, isDigit c = true)
    (hpre : ∀ c ∈ pre, isDigit c = false) (htail : headTest isDigit tail = false)
    (hnr : ∀ v ∈ (pre ++ (N ++ tail)).tails, rangeAt v = none) :
    extractServings (pre ++ (N ++ tail)) = toNumber (digitsValue N) := by
  obtain ⟨y, t, rfl⟩ := List.exists_cons_of_ne_nil hN0
  rw [extractServings_eq _ y (by simp) (hN y (List.mem_cons_self _ _)),
    search_range_none _ hnr]
  obtain ⟨m, hm, h1⟩ := search_number_hit pre (y :: t) tail hN0 hN hpre htail
  simp only [hm, h1, digitsValue_takeWhile _ hN]

/-- C6 (as amended). Servings parsing: `extractServings` gives 4 on the empty
string, on `'N/A'` and on every string without a decimal digit; when the leftmost
range of the string is `A-B` (whitespace allowed around the hyphen) it gives the
half of the double `A + B`, a half rounding up, which is the average of `A` and
`B`, a half rounding up, when `A + B` is below `2 ^ 53`; when the string has no
range and its first number is `N` it gives the double of `N`, which is `N` below
`2 ^ 53`. -/
theorem servings_parsing :
    extractServings [] = 4 ∧ extractServings "N/A".toList = 4 ∧
    (∀ s : Str, (∀ c ∈ s, isDigit c = false) → extractServings s = 4) ∧
    (∀ pre A w1 w2 B tail : Str,
      A ≠ [] → (∀ c ∈ A, isDigit c = true) → B ≠ [] → (∀ c ∈ B, isDigit c = true) →
      (∀ c ∈ w1, isWhiteSpace c = true) → (∀ c ∈ w2, isWhiteSpace c = true) →
      headTest isDigit tail = false →
      (∀ v ∈ pre.tails, v ≠ [] →
        rangeAt (v ++ (A ++ (w1 ++ '-' :: (w2 ++ (B ++ tail))))) = none) →
      extractServings (pre ++ (A ++ (w1 ++ '-' :: (w2 ++ (B ++ tail))))) =
        ((toNumber (digitsValue A)).add (toNumber (digitsValue B))).halfRounded ∧
      (digitsValue A + digitsValue B < 2 ^ 53 →
        extractServings (pre ++ (A ++ (w1 ++ '-' :: (w2 ++ (B ++ tail))))) =
          Number.fin ((digitsValue A + digitsValue B + 1) / 2))) ∧
    (∀ pre N tail : Str,
      N ≠ [] → (∀ c ∈ N, isDigit c = true) → (∀ c ∈ pre, isDigit c = false) →
      headTest isDigit tail = false →
      (∀ v ∈ (pre ++ (N ++ tail)).tails, rangeAt v = none) →
      extractServings (pre ++ (N ++ tail)) = toNumber (digitsValue N) ∧
      (digitsValue N < 2 ^ 53 →
        extractServings (pre ++ (N ++ tail)) = Number.fin (digitsValue N))) := by
  refine ⟨by decide, by decide, extractServings_nodigit, ?_, ?_⟩
  · intro pre A w1 w2 B tail hA0 hA hB0 hB hw1 hw2 htail hleft
    have h := extractServings_range pre A w1 w2 B tail hA0 hA hB0 hB hw1 hw2 htail hleft
    exact ⟨h, fun hb => h.trans (average_exact _ _ hb)⟩
  · intro pre N tail hN0 hN hpre htail hnr
    have h := extractServings_number pre N tail hN0 hN hpre htail hnr
    exact ⟨h, fun hb => h.trans (toNumber_of_lt _ hb)⟩

/-- The spec's examples: `'4-6 servings'` gives 5, `'4-7'` gives 6, `'4 servings'`
gives 4 and `'serves 3 - 4'` gives 4. -/
theorem servings_parsing_witness :
    extractServings "4-6 servings".toList = 5 ∧ extractServings "4-7".toList = 6 ∧
    extractServings "4 servings".toList = 4 ∧ extractServings "serves 3 - 4".toList = 4 :=
  ⟨(servings_parsing.2.2.2.1 [] "4".toList [] [] "6".toList " servings".toList (by decide)
      (by decide) (by decide) (by decide) (by decide) (by decide) (by decide)
      (by decide)).2 (by decide),
   (servings_parsing.2.2.2.1 [] "4".toList [] [] "7".toList [] (by decide)
      (by decide) (by decide) (by decide) (by decide) (by decide) (by decide)
      (by decide)).2 (by decide),
   (servings_parsing.2.2.2.2 [] "4".toList " servings".toList (by decide) (by decide)
      (by decide) (by decide) (by decide)).2 (by decide),
   (servings_parsing.2.2.2.1 "serves ".toList "3".toList " ".toList " ".toList "4".toList []
      (by decide) (by decide) (by decide) (by decide) (by decide) (by decide) (by decide)
      (by decide)).2 (by decide)⟩

set_option maxRecDepth 1000000 in
/-- C6, counterexample. On `'9007199254740991-2'`, whose range has
`A = 9007199254740991` and `B = 2`, `extractServings` gives 4503599627370496: the
sum `A + B` is rounded to the double 9007199254740992 before it is halved. The
average of `A` and `B`, a half rounding up, is 4503599627370497. -/
theorem servings_rounding_counterexample :
    extractServings "9007199254740991-2".toList = 4503599627370496 ∧
    (digitsValue "9007199254740991".toList + digitsValue "2".toList + 1) / 2 =
      4503599627370497 := by
  refine ⟨?_, by decide⟩
  have h := extractServings_range [] "9007199254740991".toList [] [] "2".toList []
    (by decide) (by decide) (by decide) (by decide) (by decide) (by decide) (by decide)
    (by decide)
  have hs : (toNumber (digitsValue "9007199254740991".toList)).add
      (toNumber (digitsValue "2".toList)) = Number.fin 9007199254740992 := by decide
  rw [hs, halfRounded_fin] at h
  exact h

theorem mem_of_mem_dropWhile (p : Char → Bool) (s : Str) (d : Char)
    (h : d ∈ s.dropWhile p) : d ∈ s :=
  (List.dropWhile_suffix p).subset h

theorem rangeAt_some_digit_after (v : Str) (r : Str × Str × Str) (h : rangeAt v = some r) :
    ∃ x z d, v = x ++ '-' :: z ∧ d ∈ z ∧ isDigit d = true := by
  unfold rangeAt at h
  split at h
  · split at h
    · cases h
    · rename_i c t heq
      split at h
      · rename_i hc
        simp only [Bool.and_eq_true, beq_iff_eq] at hc
        obtain ⟨hc1, hc2⟩ := hc
        subst hc1
        have hv : v = (v.takeWhile isDigit ++ (v.dropWhile isDigit).takeWhile isWhiteSpace) ++
            '-' :: t := by
          rw [List.append_assoc, ← heq, List.takeWhile_append_dropWhile,
            List.takeWhile_append_dropWhile]
        cases hdw : t.dropWhile isWhiteSpace with
        | nil => rw [hdw] at hc2; simp [headTest] at hc2
        | cons d t' =>
          rw [hdw] at hc2
          simp only [headTest] at hc2
          refine ⟨_, t, d, hv, ?_, hc2⟩
          apply mem_of_mem_dropWhile isWhiteSpace
          rw [hdw]
          exact List.mem_cons_self _ _
      · cases h
  · cases h

theorem rangeAt_none_of_tail (A tail v : Str) (hA : ∀ c ∈ A, isDigit c = true)
    (htail : ∀ c ∈ tail, isDigit c = false) (hv : v ∈ (A ++ tail).tails) :
    rangeAt v = none := by
  cases h : rangeAt v with
  | none => rfl
  | some r =>
    exfalso
    obtain ⟨x, z, d, hvx, hdz, hd⟩ := rangeAt_some_digit_after v r h
    rw [List.mem_tails] at hv
    obtain ⟨u, hu⟩ := hv
    rw [hvx, ← List.append_assoc] at hu
    have hz : ∀ c ∈ z, isDigit c = false := by
      rcases List.append_eq_append_iff.mp hu with ⟨a', h1, h2⟩ | ⟨c', h1, h2⟩
      · cases a' with
        | nil =>
          simp only [List.nil_append] at h2
          intro c hc
          apply htail
          rw [← h2]
          exact List.mem_cons_of_mem _ hc
        | cons y a'' =>
          simp only [List.cons_append, List.cons.injEq] at h2
          have : '-' ∈ A := by
            rw [h1, ← h2.1]
            simp
          have hd' : isDigit '-' = true := hA _ this
          have hn : isDigit '-' = false := by decide
          rw [hn] at hd'
          cases hd'
      · intro c hc
        apply htail
        rw [h2]
        simp [hc]
    rw [hz d hdz] at hd
    cases hd

theorem isPositiveInteger_fin (n : Nat) : (Number.fin n).isPositiveInteger = true ↔ 1 ≤ n := by
  simp [Number.isPositiveInteger]

/-- C7 (as amended). On a string of the form the servings pattern captures, a
number `N` or a range `A-B` followed by a text without digit, `extractServings`
returns the double of `N`, respectively the half of the double `A + B`, a half
rounding up; below `2 ^ 53` that is `N`, respectively the rounded average of `A`
and `B`, a positive integer exactly when `N ≥ 1`, respectively `A + B ≥ 1`. -/
theorem servings_positive_iff :
    (∀ N tail : Str, N ≠ [] → (∀ c ∈ N, isDigit c = true) → (∀ c ∈ tail, isDigit c = false) →
      extractServings (N ++ tail) = toNumber (digitsValue N) ∧
      (digitsValue N < 2 ^ 53 →
        extractServings (N ++ tail) = Number.fin (digitsValue N) ∧
        ((extractServings (N ++ tail)).isPositiveInteger = true ↔ 1 ≤ digitsValue N))) ∧
    (∀ A B tail : Str, A ≠ [] → (∀ c ∈ A, isDigit c = true) → B ≠ [] →
      (∀ c ∈ B, isDigit c = true) → (∀ c ∈ tail, isDigit c = false) →
      extractServings (A ++ '-' :: (B ++ tail)) =
        ((toNumber (digitsValue A)).add (toNumber (digitsValue B))).halfRounded ∧
      (digitsValue A + digitsValue B < 2 ^ 53 →
        extractServings (A ++ '-' :: (B ++ tail)) =
          Number.fin ((digitsValue A + digitsValue B + 1) / 2) ∧
        ((extractServings (A ++ '-' :: (B ++ tail))).isPositiveInteger = true ↔
          1 ≤ digitsValue A + digitsValue B))) := by
  refine ⟨?_, ?_⟩
  · intro N tail hN0 hN htail
    have h := extractServings_number [] N tail hN0 hN (by simp)
      (headTest_of_mem_false _ _ htail)
      (fun v hv => rangeAt_none_of_tail N tail v hN htail (by simpa using hv))
    simp only [List.nil_append] at h
    refine ⟨h, fun hb => ?_⟩
    rw [h, toNumber_of_lt _ hb]
    exact ⟨rfl, isPositiveInteger_fin _⟩
  · intro A B tail hA0 hA hB0 hB htail
    have h := extractServings_range [] A [] [] B tail hA0 hA hB0 hB (by simp) (by simp)
      (headTest_of_mem_false _ _ htail) (by simp)
    simp only [List.nil_append] at h
    refine ⟨h, fun hb => ?_⟩
    rw [h, average_exact _ _ hb]
    refine ⟨rfl, ?_⟩
    rw [isPositiveInteger_fin]
    omega

/-- The strings `'2 servings'` and `'1-2 people'` give the positive integers 2
and 2. -/
theorem servings_positive_iff_witness :
    (extractServings "2 servings".toList = 2 ∧
      (extractServings "2 servings".toList).isPositiveInteger = true) ∧
    (extractServings "1-2 people".toList = 2 ∧
      (extractServings "1-2 people".toList).isPositiveInteger = true) :=
  ⟨⟨((servings_positive_iff.1 "2".toList " servings".toList (by decide) (by decide)
        (by decide)).2 (by decide)).1,
    ((servings_positive_iff.1 "2".toList " servings".toList (by decide) (by decide)
        (by decide)).2 (by decide)).2.mpr (by decide)⟩,
   ⟨((servings_positive_iff.2 "1".toList "2".toList " people".toList (by decide) (by decide)
        (by decide) (by decide) (by decide)).2 (by decide)).1,
    ((servings_positive_iff.2 "1".toList "2".toList " people".toList (by decide) (by decide)
        (by decide) (by decide) (by decide)).2 (by decide)).2.mpr (by decide)⟩⟩

set_option maxRecDepth 1000000 in
/-- C7, counterexample. The servings pattern of the extractor captures
`'0 servings'` from the text `'Servings: 0 servings'`, and `extractServings` gives
0 on it, which is not a positive integer. -/
theorem servings_zero_counterexample :
    (search flagsI servingsRegex "Servings: 0 servings".toList).map (fun m => m.capD 1) =
      some "0 servings".toList ∧
    extractServings "0 servings".toList = 0 ∧
    (extractServings "0 servings".toList).isPositiveInteger = false := by
  refine ⟨by decide, by decide, by decide⟩

set_option maxRecDepth 1000000 in
/-- C5, the failing input. From a text with `'Prep Time: 1 hour 15 minutes'` and
`'Cook Time: 2 hours 5 minutes'` the extractor captures `'1 hour'` and `'2 hours'`
only: the minutes are dropped, and the times in minutes are 60 and 120, not 75
and 125. -/
theorem prep_time_drops_minutes :
    (extractRecipeData
      ("Prep Time: 1 hour 15 minutes. Cook Time: 2 hours 5 minutes." ++
        "<h2>Ingredients</h2><ul><li>2 eggs</li></ul>" ++
        "<h2>Instructions</h2><ol><li>Mix.</li></ol>").toList
      "omelette".toList).map
        (fun r => (r.prep_time, extractTimeMinutes r.prep_time,
          r.cook_time, extractTimeMinutes r.cook_time)) =
      some ("1 hour".toList, 60, "2 hours".toList, 120) ∧
    extractTimeMinutes "1 hour 15 minutes".toList = 75 := by
  refine ⟨by decide, by decide⟩

/-! ## The validation step -/

theorem falsy_orDefault (v : Option JVal) (d : JVal) (hd : d.truthy = true) :
    falsy (orDefault v d) = false := by
  unfold orDefault
  split
  · simp [falsy, hd]
  · rename_i h
    simpa using h

theorem truthy_title (keyword : Str) :
    (JVal.str (capitalize keyword ++ " Recipe".toList)).truthy = true := by
  simp [JVal.truthy]

/-- C11 (as amended). Description default: when the description is missing and
the title, the ingredients or the instructions are missing too, the validation
step sets the description to `'A delicious <keyword> recipe.'`; when the title,
the ingredients and the instructions are all present the reply is returned
unchanged, and a missing description stays missing. -/
theorem description_default (keyword : Str) (r : ParsedReply) :
    (falsy r.description = true →
      (falsy r.title = true ∨ falsy r.ingredients = true ∨ falsy r.instructions = true) →
      (validateRecipe keyword r).description =
        some (.str ("A delicious ".toList ++ keyword ++ " recipe.".toList))) ∧
    (falsy r.title = false → falsy r.ingredients = false → falsy r.instructions = false →
      validateRecipe keyword r = r) := by
  constructor
  · intro hd h
    have hg : (falsy r.title || falsy r.ingredients || falsy r.instructions) = true := by
      rcases h with h | h | h <;> simp [h]
    simp [validateRecipe, hg, orDefault, hd]
  · intro h1 h2 h3
    simp [validateRecipe, h1, h2, h3]

/-- A reply with neither title nor description receives the default description. -/
theorem description_default_witness :
    (validateRecipe "soup".toList (ParsedReply.mk none none
      (some (.arr [.str "Water".toList])) (some (.arr [.str "Boil.".toList]))
      none none none [])).description = some (.str "A delicious soup recipe.".toList) :=
  (description_default "soup".toList _).1 rfl (Or.inl rfl)

/-- C11, counterexample. A reply with title, ingredients and instructions but
without description is returned as it is: the description stays missing. -/
theorem description_default_counterexample :
    (validateRecipe "soup".toList (ParsedReply.mk (some (.str "Soup".toList)) none
      (some (.arr [.str "Water".toList])) (some (.arr [.str "Boil.".toList]))
      none none none [])).description = none := by
  rfl

/-- C13. Idempotence of the validation step: applied to its own output it
returns that output. -/
theorem validate_idempotent (keyword : Str) (r : ParsedReply) :
    validateRecipe keyword (validateRecipe keyword r) = validateRecipe keyword r := by
  by_cases hg : (falsy r.title || falsy r.ingredients || falsy r.instructions) = true
  · have h1 := falsy_orDefault r.title (.str (capitalize keyword ++ " Recipe".toList))
      (truthy_title keyword)
    have h2 := falsy_orDefault r.ingredients sentinelIngredients rfl
    have h3 := falsy_orDefault r.instructions sentinelInstructions rfl
    have hv : validateRecipe keyword r =
        { title := orDefault r.title (.str (capitalize keyword ++ " Recipe".toList))
          ingredients := orDefault r.ingredients sentinelIngredients
          instructions := orDefault r.instructions sentinelInstructions
          description := orDefault r.description
            (.str ("A delicious ".toList ++ keyword ++ " recipe.".toList))
          prep_time := orDefault r.prep_time (.str "30 mins".toList)
          cook_time := orDefault r.cook_time (.str "30 mins".toList)
          yield := orDefault r.yield (.str "4 servings".toList)
          others := r.others } := by
      simp only [validateRecipe, hg, if_true]
    rw [hv]
    simp only [validateRecipe, h1, h2, h3, Bool.or_self, Bool.false_eq_true, if_false]
  · have hv : validateRecipe keyword r = r := by
      simp [validateRecipe, hg]
    rw [hv, hv]

/-- C12 (as amended). Missing timing of an extraction result: when no prep-time
phrase (respectively cook-time phrase) matches, the record of `extractRecipeData`
carries `'N/A'`, which `extractTimeMinutes` converts to 0 minutes; the default
`'30 mins'` of the direct-JSON validation converts to 30. -/
theorem missing_time_is_zero (content keyword : Str) (r : RecipeData)
    (h : extractRecipeData content keyword = some r) :
    (search flagsI prepTimeRegex content = none →
      r.prep_time = "N/A".toList ∧ extractTimeMinutes r.prep_time = 0) ∧
    (search flagsI cookTimeRegex content = none →
      r.cook_time = "N/A".toList ∧ extractTimeMinutes r.cook_time = 0) ∧
    extractTimeMinutes "30 mins".toList = 30 := by
  have hr : r.prep_time = extractField prepTimeRegex content ∧
      r.cook_time = extractField cookTimeRegex content := by
    unfold extractRecipeData at h
    split at h
    · cases h
    · split at h
      · cases h
      · simp only [] at h
        split at h
        · cases h
        · cases h
          exact ⟨rfl, rfl⟩
  have hna : extractTimeMinutes "N/A".toList = 0 := by decide
  refine ⟨?_, ?_, by decide⟩
  · intro hs
    have : r.prep_time = "N/A".toList := by
      rw [hr.1]
      simp [extractField, hs, truthyCap1]
    exact ⟨this, by rw [this]; exact hna⟩
  · intro hs
    have : r.cook_time = "N/A".toList := by
      rw [hr.2]
      simp [extractField, hs, truthyCap1]
    exact ⟨this, by rw [this]; exact hna⟩

set_option maxRecDepth 1000000 in
/-- A text with a cook time and no prep time: the prep time of its record is 0
minutes. -/
theorem missing_time_is_zero_witness :
    extractRecipeData
      ("Cook time: 20 min<h2>Ingredients</h2><ul><li>2 eggs</li></ul>" ++
        "<h2>Instructions</h2><ol><li>Mix.</li></ol>").toList "omelette".toList =
      some (RecipeData.mk "Ingredients".toList ["2 eggs".toList] ["Mix.".toList] "N/A".toList
        "20 min".toList "N/A".toList []
        (NutritionInfo.mk "N/A".toList "N/A".toList "N/A".toList "N/A".toList)) ∧
    search flagsI prepTimeRegex
      ("Cook time: 20 min<h2>Ingredients</h2><ul><li>2 eggs</li></ul>" ++
        "<h2>Instructions</h2><ol><li>Mix.</li></ol>").toList = none ∧
    extractTimeMinutes "N/A".toList = 0 :=
  ⟨by decide, by decide,
   ((missing_time_is_zero
      ("Cook time: 20 min<h2>Ingredients</h2><ul><li>2 eggs</li></ul>" ++
        "<h2>Instructions</h2><ol><li>Mix.</li></ol>").toList "omelette".toList
      (RecipeData.mk "Ingredients".toList ["2 eggs".toList] ["Mix.".toList] "N/A".toList
        "20 min".toList "N/A".toList []
        (NutritionInfo.mk "N/A".toList "N/A".toList "N/A".toList "N/A".toList))
      (by decide)).1 (by decide)).2⟩

set_option maxRecDepth 1000000 in
/-- C12, counterexample. The record extracted from a text without any timing
phrase has the prep and cook times `'N/A'`, which reach the payload as 0
minutes, not 30. -/
theorem missing_time_counterexample :
    (extractRecipeData
      ("Ingredients: see below<h2>Ingredients</h2><ul><li>2 eggs</li></ul>" ++
        "<h2>Instructions</h2><ol><li>Mix.</li></ol>").toList "omelette".toList).map
        (fun r => (extractTimeMinutes r.prep_time, extractTimeMinutes r.cook_time)) =
      some (0, 0) := by
  decide

/-! ## Step titles and the payload -/

/-- C19. Ordinal title table of `recipe-formatter.js`: for an instruction that
contains no action of the vocabulary, neither capitalised nor in lower case,
`getStepTitle` returns the title of the table for the step numbers 1 to 5 and
`'Step ' + n` for every other number. -/
theorem formatter_ordinal_titles (n : Nat) (instruction : Str)
    (h : ∀ a ∈ cookingActions,
      includes instruction a = false ∧ includes instruction (toLowerCase a) = false) :
    Formatter.getStepTitle n instruction =
      if n = 1 then "Prepare Ingredients".toList
      else if n = 2 then "Mix Components".toList
      else if n = 3 then "Cook".toList
      else if n = 4 then "Combine".toList
      else if n = 5 then "Finish and Serve".toList
      else "Step ".toList ++ natToStr n := by
  have hfind : cookingActions.find? (fun action =>
      includes instruction action || includes instruction (toLowerCase action)) = none := by
    rw [List.find?_eq_none]
    intro a ha
    simp [(h a ha).1, (h a ha).2]
  unfold Formatter.getStepTitle
  rw [hfind]
  rcases n with _ | _ | _ | _ | _ | _ | n <;> simp [Formatter.defaultTitle]

/-- The instruction `'Wash the rice'` holds no action: the titles of the steps 2
and 7 are `'Mix Components'` and `'Step 7'`. -/
theorem formatter_ordinal_titles_witness :
    (∀ a ∈ cookingActions, includes "Wash the rice".toList a = false ∧
      includes "Wash the rice".toList (toLowerCase a) = false) ∧
    Formatter.getStepTitle 2 "Wash the rice".toList = "Mix Components".toList ∧
    Formatter.getStepTitle 7 "Wash the rice".toList = "Step 7".toList :=
  ⟨by decide, (formatter_ordinal_titles 2 _ (by decide)).trans (by decide),
   (formatter_ordinal_titles 7 _ (by decide)).trans (by decide)⟩

/-- C20, the failing input. For four instructions without any action the groups
built by `addRecipeToPost` are named `'Step 1: Prepare Ingredients'` and
`'Step 2: Cook'`: the table of `wp-recipe-maker.js` has `'Cook'` where the table of
`recipe-formatter.js` has `'Mix Components'`. -/
theorem wprm_ordinal_titles_differ :
    (wprmInstructionGroups ["Wash the rice".toList, "Heat the pan".toList,
      "Add the oil".toList, "Stir the rice in".toList]).map (fun g => g.name) =
      ["Step 1: Prepare Ingredients".toList, "Step 2: Cook".toList] ∧
    Formatter.getStepTitle 2 "Add the oil".toList = "Mix Components".toList ∧
    getStepTitle 2 "Add the oil".toList = "Cook".toList ∧
    (List.range 7).map (fun n => (defaultTitle n, Formatter.defaultTitle n)) =
      [("Step 0".toList, "Step 0".toList),
       ("Prepare Ingredients".toList, "Prepare Ingredients".toList),
       ("Cook".toList, "Mix Components".toList), ("Combine".toList, "Cook".toList),
       ("Finish".toList, "Combine".toList), ("Serve".toList, "Finish and Serve".toList),
       ("Step 6".toList, "Step 6".toList)] := by
  refine ⟨by decide, by decide, by decide, by decide⟩

theorem mapIndexFrom_eq_enumFrom {α β : Type} (f : α → Nat → β) (i : Nat) (xs : List α) :
    mapIndexFrom f i xs = (xs.enumFrom i).map (fun p => f p.2 p.1) := by
  induction xs generalizing i with
  | nil => rfl
  | cons x t ih => simp [mapIndexFrom, List.enumFrom, ih]

theorem mapIndex_eq_enum {α β : Type} (f : α → Nat → β) (xs : List α) :
    mapIndex f xs = xs.enum.map (fun p => f p.2 p.1) :=
  mapIndexFrom_eq_enumFrom f 0 xs

/-- C18. Structured ingredient group: for a record that is not custom-formatted
(no `_customFormatted` flag or no template) or that carries a non-empty
`_originalIngredients` list, the payload has exactly one ingredient group, named
`''` with uid `-1`, whose entries are the original ingredients
(`_originalIngredients` when present, else `ingredients`) in order, the entry of
index `i` having uid `i`, the ingredient as its name and empty amount, unit and
notes. -/
theorem single_ingredient_group (r : RecipeRecord)
    (h : ¬ (r._customFormatted = true ∧ ∃ c t, r._customTemplate = some (c :: t)) ∨
      ∃ x xs, r._originalIngredients = some (x :: xs)) :
    wprmIngredientGroups r =
      [⟨[], -1, (r._originalIngredients.getD r.ingredients).enum.map
        (fun p => ⟨p.1, [], [], p.2, []⟩)⟩] := by
  have hgroup : ∀ xs : List Str, ingredientGroup xs =
      ⟨[], -1, xs.enum.map (fun p => (⟨p.1, [], [], p.2, []⟩ : IngredientEntry))⟩ := by
    intro xs
    simp only [ingredientGroup, mapIndex_eq_enum]
    rfl
  unfold wprmIngredientGroups
  by_cases hc : r._customFormatted = true ∧ ∃ c t, r._customTemplate = some (c :: t)
  · obtain ⟨hf, c, t, ht⟩ := hc
    rcases h with h | ⟨x, xs, hx⟩
    · exact absurd ⟨hf, c, t, ht⟩ h
    · simp [hf, ht, hx, hgroup]
  · have hcond : (r._customFormatted &&
        match r._customTemplate with
        | some (_ :: _) => true
        | _ => false) = false := by
      cases hf : r._customFormatted with
      | false => rfl
      | true =>
        cases ht : r._customTemplate with
        | none => rfl
        | some t =>
          cases t with
          | nil => rfl
          | cons c t => exact absurd ⟨hf, c, t, ht⟩ hc
    simp only [hcond, Bool.false_eq_true, if_false, hgroup]

/-- A record with a template and two original ingredients, and a record
without template: each gives one group with the ingredients in order. -/
theorem single_ingredient_group_witness :
    wprmIngredientGroups (RecipeRecord.mk "Omelette".toList none ["x".toList]
      ["Mix.".toList] [] [] [] [] (NutritionInfo.mk [] [] [] [])
      (some ["2 eggs".toList, "1 cup flour".toList]) (some ["Mix.".toList]) true
      (some "**Ingredients**".toList)) =
      [⟨[], -1, [⟨0, [], [], "2 eggs".toList, []⟩, ⟨1, [], [], "1 cup flour".toList, []⟩]⟩] ∧
    wprmIngredientGroups (RecipeRecord.mk "Omelette".toList none ["2 eggs".toList]
      ["Mix.".toList] [] [] [] [] (NutritionInfo.mk [] [] [] []) none none false none) =
      [⟨[], -1, [⟨0, [], [], "2 eggs".toList, []⟩]⟩] :=
  ⟨(single_ingredient_group _ (Or.inr ⟨_, _, rfl⟩)).trans (by decide),
   (single_ingredient_group _ (Or.inl (fun h => Bool.false_ne_true h.1))).trans (by decide)⟩

/-- C17. Rendering reads the canonical lists only: for an enabled configuration,
`formatRecipeData` and `useFixedTemplate` keep the ingredients and the
instructions of the record and store them as `_originalIngredients` and
`_originalInstructions`; rendering the output of a previous rendering, with
either renderer, gives the same record as rendering the record itself. -/
theorem rendering_reads_canonical (r : RecipeRecord) (c : FormatConfig)
    (hc : c.enabled = true) :
    ((formatRecipeData r (some c)).ingredients = r.ingredients ∧
      (formatRecipeData r (some c)).instructions = r.instructions ∧
      (formatRecipeData r (some c))._originalIngredients = some r.ingredients ∧
      (formatRecipeData r (some c))._originalInstructions = some r.instructions) ∧
    ((useFixedTemplate r).ingredients = r.ingredients ∧
      (useFixedTemplate r).instructions = r.instructions ∧
      (useFixedTemplate r)._originalIngredients = some r.ingredients ∧
      (useFixedTemplate r)._originalInstructions = some r.instructions) ∧
    formatRecipeData (formatRecipeData r (some c)) (some c) = formatRecipeData r (some c) ∧
    formatRecipeData (useFixedTemplate r) (some c) = formatRecipeData r (some c) ∧
    useFixedTemplate (useFixedTemplate r) = useFixedTemplate r ∧
    useFixedTemplate (formatRecipeData r (some c)) = useFixedTemplate r := by
  refine ⟨?_, ?_, ?_, ?_, ?_, ?_⟩ <;> simp [formatRecipeData, useFixedTemplate, hc]

/-- Rendering twice with the default template gives the text of the first
rendering. -/
theorem rendering_reads_canonical_witness :
    (FormatConfig.mk true none false).enabled = true ∧
    (formatRecipeData (formatRecipeData (RecipeRecord.mk "Omelette".toList none
      ["2 eggs".toList] ["Mix.".toList] [] [] [] [] (NutritionInfo.mk [] [] [] [])
      none none false none) (some (FormatConfig.mk true none false)))
      (some (FormatConfig.mk true none false)))._customTemplate =
      some ("**Ingredients**\n**  **\n* * 2 eggs\n\n**Instructions**\n** **\n" ++
        "Step 1: Mix.").toList :=
  ⟨rfl, (congrArg (fun x => x._customTemplate)
    (rendering_reads_canonical _ (FormatConfig.mk true none false) rfl).2.2.1).trans
    (by decide)⟩

/-! ## Substitution in templates -/

theorem startsWith_append_self (p s : Str) : startsWith (p ++ s) p = true := by
  induction p with
  | nil => cases s <;> rfl
  | cons x p ih => simp [startsWith, ih]

theorem startsWith_cons_ne (c p : Char) (s ps : Str) (h : c ≠ p) :
    startsWith (c :: s) (p :: ps) = false := by
  simp [startsWith, h]

/-- The first occurrence of a pattern is not in a text that lacks its first
character. -/
theorem splitAtFirst_skip (p : Char) (ps x rest : Str) (hx : p ∉ x) :
    splitAtFirst (p :: ps) (x ++ rest) =
      match splitAtFirst (p :: ps) rest with
      | some (pre, post) => some (x ++ pre, post)
      | none => none := by
  induction x with
  | nil =>
    simp only [List.nil_append]
    cases splitAtFirst (p :: ps) rest with
    | none => rfl
    | some q =>
      obtain ⟨pre, post⟩ := q
      rfl
  | cons c t ih =>
    have hc : c ≠ p := fun e => hx (by simp [e])
    have ht : p ∉ t := fun e => hx (List.mem_cons_of_mem _ e)
    rw [List.cons_append]
    simp only [splitAtFirst, startsWith_cons_ne c p _ ps hc, Bool.false_eq_true, if_false]
    rw [ih ht]
    cases splitAtFirst (p :: ps) rest with
    | none => rfl
    | some q =>
      obtain ⟨pre, post⟩ := q
      rfl

theorem splitAtFirst_here (pat post : Str) :
    splitAtFirst pat (pat ++ post) = some ([], post) := by
  cases h : pat ++ post with
  | nil =>
    have h1 : pat = [] := (List.append_eq_nil.mp h).1
    have h2 : post = [] := (List.append_eq_nil.mp h).2
    subst h1 h2
    rfl
  | cons c t =>
    have hs : startsWith (c :: t) pat = true := by
      rw [← h]
      exact startsWith_append_self pat post
    simp only [splitAtFirst, hs, if_true]
    rw [← h]
    simp

theorem splitAtFirst_of_head (p : Char) (ps pre post : Str) (h : p ∉ pre) :
    splitAtFirst (p :: ps) (pre ++ ((p :: ps) ++ post)) = some (pre, post) := by
  rw [splitAtFirst_skip p ps pre _ h, splitAtFirst_here]
  simp

theorem splitAtFirst_eq (pat s a b : Str) (h : splitAtFirst pat s = some (a, b)) :
    s = a ++ pat ++ b := by
  induction s generalizing a with
  | nil =>
    simp only [splitAtFirst] at h
    split at h
    · rename_i hs
      cases pat with
      | nil => simp at h; simp [h.1, h.2]
      | cons x p => simp [startsWith] at hs
    · cases h
  | cons c t ih =>
    simp only [splitAtFirst] at h
    split at h
    · rename_i hs
      simp only [Option.some.injEq, Prod.mk.injEq] at h
      obtain ⟨rfl, rfl⟩ := h
      have : ∀ (s p : Str), startsWith s p = true → s = p ++ s.drop p.length := by
        intro s p
        induction p generalizing s with
        | nil => intro _; rfl
        | cons x p ihp =>
          intro hsp
          cases s with
          | nil => simp [startsWith] at hsp
          | cons y s =>
            simp only [startsWith, Bool.and_eq_true, beq_iff_eq] at hsp
            obtain ⟨rfl, h2⟩ := hsp
            simp only [List.cons_append, List.length_cons, List.drop_succ_cons, List.cons.injEq,
              true_and]
            exact ihp s h2
      simpa using this (c :: t) pat hs
    · cases hq : splitAtFirst pat t with
      | none => rw [hq] at h; cases h
      | some q =>
        obtain ⟨pre, post⟩ := q
        rw [hq] at h
        simp only [Option.some.injEq, Prod.mk.injEq] at h
        obtain ⟨rfl, rfl⟩ := h
        have := ih pre hq
        simp [this]

theorem includes_of_splitAtFirst (pat s : Str) (q : Str × Str)
    (h : splitAtFirst pat s = some q) : includes s pat = true := by
  induction s generalizing q with
  | nil =>
    simp only [splitAtFirst] at h
    split at h
    · rename_i hs
      simpa [includes] using hs
    · cases h
  | cons c t ih =>
    simp only [splitAtFirst] at h
    split at h
    · rename_i hs
      simp [includes, hs]
    · cases hq : splitAtFirst pat t with
      | none => rw [hq] at h; cases h
      | some q' =>
        simp [includes, ih q' hq]

theorem expandDollar_of_no_dollar (m pre post s : Str) (h : '$' ∉ s) :
    expandDollar m pre post s = s := by
  induction s with
  | nil => rfl
  | cons c t ih =>
    have hc : (c == '$') = false := by
      rw [beq_eq_false_iff_ne]
      exact fun e => h (by simp [e])
    have ht : '$' ∉ t := fun e => h (List.mem_cons_of_mem _ e)
    cases t with
    | nil => rfl
    | cons d t' =>
      simp only [expandDollar, hc, Bool.false_eq_true, if_false]
      rw [ih ht]

theorem not_mem_join (c : Char) (sep : Str) (xs : List Str) (hsep : c ∉ sep)
    (hxs : ∀ x ∈ xs, c ∉ x) : c ∉ join sep xs := by
  induction xs with
  | nil => simp [join]
  | cons x t ih =>
    cases t with
    | nil => simpa [join] using hxs x (List.mem_cons_self _ _)
    | cons y t' =>
      simp only [join, List.mem_append, not_or]
      exact ⟨⟨hxs x (List.mem_cons_self _ _), hsep⟩,
        ih (fun z hz => hxs z (List.mem_cons_of_mem _ hz))⟩

theorem digitChar_ne (d : Nat) : Nat.digitChar d ≠ '$' ∧ Nat.digitChar d ≠ '{' := by
  by_cases h : d < 16
  · interval_cases d <;> exact ⟨by decide, by decide⟩
  · have hstar : Nat.digitChar d = '*' := by
      unfold Nat.digitChar
      rw [if_neg (by omega), if_neg (by omega), if_neg (by omega), if_neg (by omega),
        if_neg (by omega), if_neg (by omega), if_neg (by omega), if_neg (by omega),
        if_neg (by omega), if_neg (by omega), if_neg (by omega), if_neg (by omega),
        if_neg (by omega), if_neg (by omega), if_neg (by omega), if_neg (by omega)]
    rw [hstar]
    exact ⟨by decide, by decide⟩

theorem toDigitsCore_not_mem (c : Char) (hc : c = '$' ∨ c = '{') (fuel n : Nat) (ds : List Char)
    (hds : c ∉ ds) : c ∉ Nat.toDigitsCore 10 fuel n ds := by
  induction fuel generalizing n ds with
  | zero => simpa [Nat.toDigitsCore] using hds
  | succ fuel ih =>
    have hd : c ∉ Nat.digitChar (n % 10) :: ds := by
      intro h
      rcases List.mem_cons.mp h with h | h
      · rcases hc with rfl | rfl
        · exact (digitChar_ne (n % 10)).1 h.symm
        · exact (digitChar_ne (n % 10)).2 h.symm
      · exact hds h
    simp only [Nat.toDigitsCore]
    split
    · exact hd
    · exact ih _ _ hd

theorem not_mem_natToStr (c : Char) (hc : c = '$' ∨ c = '{') (n : Nat) : c ∉ natToStr n :=
  toDigitsCore_not_mem c hc _ _ [] (by simp)

theorem not_mem_bulletList (c : Char) (hc : c = '$' ∨ c = '{') (xs : List Str)
    (hxs : ∀ x ∈ xs, c ∉ x) : c ∉ bulletList xs := by
  apply not_mem_join
  · rcases hc with rfl | rfl <;> decide
  · intro y hy
    obtain ⟨x, hx, rfl⟩ := List.mem_map.mp hy
    simp only [List.mem_append, not_or]
    refine ⟨?_, hxs x hx⟩
    rcases hc with rfl | rfl <;> decide

theorem mem_mapIndexFrom {α β : Type} (f : α → Nat → β) (i : Nat) (xs : List α) (y : β)
    (h : y ∈ mapIndexFrom f i xs) : ∃ x ∈ xs, ∃ j, y = f x j := by
  induction xs generalizing i with
  | nil => simp [mapIndexFrom] at h
  | cons x t ih =>
    simp only [mapIndexFrom, List.mem_cons] at h
    rcases h with h | h
    · exact ⟨x, List.mem_cons_self _ _, i, h⟩
    · obtain ⟨x', hx', j, hj⟩ := ih (i + 1) h
      exact ⟨x', List.mem_cons_of_mem _ hx', j, hj⟩

theorem not_mem_stepList (c : Char) (hc : c = '$' ∨ c = '{') (xs : List Str)
    (hxs : ∀ x ∈ xs, c ∉ x) : c ∉ stepList xs := by
  apply not_mem_join
  · rcases hc with rfl | rfl <;> decide
  · intro y hy
    obtain ⟨x, hx, j, rfl⟩ := mem_mapIndexFrom _ 0 xs y hy
    simp only [List.mem_append, not_or]
    refine ⟨⟨⟨?_, not_mem_natToStr c hc _⟩, ?_⟩, hxs x hx⟩
    · rcases hc with rfl | rfl <;> decide
    · rcases hc with rfl | rfl <;> decide

theorem mem_dropWhile_of_not (p : Char → Bool) (c : Char) (s : Str) (hc : c ∈ s)
    (hp : p c = false) : c ∈ s.dropWhile p := by
  induction s with
  | nil => simp at hc
  | cons y t ih =>
    by_cases hy : p y = true
    · have : c ≠ y := by
        intro e
        subst e
        rw [hp] at hy
        cases hy
      have hct : c ∈ t := by
        rcases List.mem_cons.mp hc with h | h
        · exact absurd h this
        · exact h
      simpa [List.dropWhile, hy] using ih hct
    · simpa [List.dropWhile, hy] using hc

theorem trimStart_eq_dropWhile (s : Str) : trimStart s = s.dropWhile isWhiteSpace := by
  induction s with
  | nil => rfl
  | cons y t ih =>
    by_cases hy : isWhiteSpace y = true <;> simp [trimStart, List.dropWhile, hy, ih]

theorem trim_ne_nil_of_mem (s : Str) (c : Char) (hc : c ∈ s) (hw : isWhiteSpace c = false) :
    trim s ≠ [] := by
  have h1 : c ∈ (trimStart s).reverse := by
    rw [trimStart_eq_dropWhile, List.mem_reverse]
    exact mem_dropWhile_of_not _ c s hc hw
  have h2 : c ∈ trim s := by
    unfold trim
    rw [List.mem_reverse, trimStart_eq_dropWhile]
    exact mem_dropWhile_of_not _ c _ h1 hw
  exact List.ne_nil_of_mem h2

theorem formatRecipeData_template (r : RecipeRecord) (cfg : FormatConfig) (t : Str)
    (hen : cfg.enabled = true) (ht : cfg.customTemplate = some t) (hblank : trim t ≠ []) :
    (formatRecipeData r (some cfg))._customTemplate =
      some (fillTemplate t r.ingredients r.instructions) := by
  have h1 : (trim t).length ≠ 0 := by
    simpa [List.length_eq_zero] using hblank
  have h2 : t.length ≠ 0 := by
    intro e
    rw [List.length_eq_zero] at e
    subst e
    exact hblank rfl
  simp [formatRecipeData, hen, ht, h1, h2]

theorem replaceStr_of_split (s pat repl a b : Str) (h : splitAtFirst pat s = some (a, b)) :
    replaceStr s pat repl = a ++ expandDollar pat a b repl ++ b := by
  simp [replaceStr, h]

theorem splitAtFirst_cons_of_not (pat : Str) (c : Char) (t : Str)
    (h : startsWith (c :: t) pat = false) :
    splitAtFirst pat (c :: t) =
      match splitAtFirst pat t with
      | some (pre, post) => some (c :: pre, post)
      | none => none := by
  simp [splitAtFirst, h]

theorem fillTemplate_ingredients_first (a b c : Str) (ings ins : List Str)
    (ha : '{' ∉ a) (hb : '{' ∉ b)
    (hing : ∀ x ∈ ings, '$' ∉ x ∧ '{' ∉ x) (hins : ∀ x ∈ ins, '$' ∉ x) :
    fillTemplate (a ++ "{ingredients}".toList ++ b ++ "{instructions}".toList ++ c) ings ins =
      a ++ bulletList ings ++ b ++ stepList ins ++ c := by
  have hL1d : '$' ∉ bulletList ings :=
    not_mem_bulletList '$' (Or.inl rfl) ings (fun x hx => (hing x hx).1)
  have hL1b : '{' ∉ bulletList ings :=
    not_mem_bulletList '{' (Or.inr rfl) ings (fun x hx => (hing x hx).2)
  have hL2d : '$' ∉ stepList ins := not_mem_stepList '$' (Or.inl rfl) ins hins
  have hs1 : splitAtFirst "{ingredients}".toList
      (a ++ "{ingredients}".toList ++ b ++ "{instructions}".toList ++ c) =
      some (a, b ++ "{instructions}".toList ++ c) := by
    have := splitAtFirst_of_head '{' "ingredients\x7d".toList a
      (b ++ "{instructions}".toList ++ c) ha
    simpa using this
  have hpre : '{' ∉ a ++ bulletList ings ++ b := by
    simp only [List.mem_append, not_or]
    exact ⟨⟨ha, hL1b⟩, hb⟩
  have hs2 : splitAtFirst "{instructions}".toList
      (a ++ bulletList ings ++ (b ++ "{instructions}".toList ++ c)) =
      some (a ++ bulletList ings ++ b, c) := by
    have := splitAtFirst_of_head '{' "instructions\x7d".toList (a ++ bulletList ings ++ b) c hpre
    simpa using this
  unfold fillTemplate
  simp only [includes_of_splitAtFirst _ _ _ hs1, if_true, replaceStr_of_split _ _ _ _ _ hs1,
    expandDollar_of_no_dollar _ _ _ _ hL1d, includes_of_splitAtFirst _ _ _ hs2,
    replaceStr_of_split _ _ _ _ _ hs2, expandDollar_of_no_dollar _ _ _ _ hL2d]

theorem fillTemplate_instructions_first (a b c : Str) (ings ins : List Str)
    (ha : '{' ∉ a) (hb : '{' ∉ b)
    (hing : ∀ x ∈ ings, '$' ∉ x ∧ '{' ∉ x) (hins : ∀ x ∈ ins, '$' ∉ x) :
    fillTemplate (a ++ "{instructions}".toList ++ b ++ "{ingredients}".toList ++ c) ings ins =
      a ++ stepList ins ++ b ++ bulletList ings ++ c := by
  have hL1d : '$' ∉ bulletList ings :=
    not_mem_bulletList '$' (Or.inl rfl) ings (fun x hx => (hing x hx).1)
  have hL2d : '$' ∉ stepList ins := not_mem_stepList '$' (Or.inl rfl) ins hins
  have hmid : '{' ∉ "instructions\x7d".toList ++ b := by
    simp only [List.mem_append, not_or]
    exact ⟨by decide, hb⟩
  have hs1 : splitAtFirst "{ingredients}".toList
      (a ++ "{instructions}".toList ++ b ++ "{ingredients}".toList ++ c) =
      some (a ++ "{instructions}".toList ++ b, c) := by
    have e : a ++ "{instructions}".toList ++ b ++ "{ingredients}".toList ++ c =
        a ++ ('{' :: (("instructions\x7d".toList ++ b) ++ ("{ingredients}".toList ++ c))) := by
      simp
    have hne : startsWith ('{' :: (("instructions\x7d".toList ++ b) ++
        (('{' :: "ingredients\x7d".toList) ++ c))) ('{' :: "ingredients\x7d".toList) = false := rfl
    rw [e, show "{ingredients}".toList = '{' :: "ingredients\x7d".toList from rfl,
      splitAtFirst_skip '{' "ingredients\x7d".toList a _ ha,
      splitAtFirst_cons_of_not _ _ _ hne,
      splitAtFirst_of_head '{' "ingredients\x7d".toList ("instructions\x7d".toList ++ b) c hmid]
    simp
  have hs2 : splitAtFirst "{instructions}".toList
      (a ++ "{instructions}".toList ++ b ++ bulletList ings ++ c) =
      some (a, b ++ bulletList ings ++ c) := by
    have := splitAtFirst_of_head '{' "instructions\x7d".toList a (b ++ bulletList ings ++ c) ha
    simpa using this
  unfold fillTemplate
  simp only [includes_of_splitAtFirst _ _ _ hs1, if_true, replaceStr_of_split _ _ _ _ _ hs1,
    expandDollar_of_no_dollar _ _ _ _ hL1d, includes_of_splitAtFirst _ _ _ hs2,
    replaceStr_of_split _ _ _ _ _ hs2, expandDollar_of_no_dollar _ _ _ _ hL2d]
  simp

set_option maxRecDepth 1000000 in
/-- C15, the failing inputs. An ingredient text with `$$` is not inserted
verbatim: `String.prototype.replace` reads `$$` in the replacement text as one
dollar sign, so `'5$$ sugar'` arrives as `'5$ sugar'`. An ingredient text that
holds `{instructions}` is not kept either: the second replacement acts on the
first `{instructions}` of the text already substituted, which is the one inside
the ingredient, and the placeholder of the template stays. -/
theorem flat_text_not_verbatim :
    (formatRecipeData (RecipeRecord.mk "Cake".toList none
      ["5$$ sugar".toList] ["Mix.".toList] [] [] [] []
      (NutritionInfo.mk [] [] [] []) none none false none)
      (some (FormatConfig.mk true (some "{ingredients}|{instructions}".toList)
        false)))._customTemplate =
      some "* 5$ sugar|Step 1: Mix.".toList ∧
    bulletList ["5$$ sugar".toList] ++ "|".toList ++ stepList ["Mix.".toList] =
      "* 5$$ sugar|Step 1: Mix.".toList ∧
    (formatRecipeData (RecipeRecord.mk "Cake".toList none
      ["{instructions}".toList] ["Mix.".toList] [] [] [] []
      (NutritionInfo.mk [] [] [] []) none none false none)
      (some (FormatConfig.mk true (some "{ingredients}|{instructions}".toList)
        false)))._customTemplate =
      some "* Step 1: Mix.|{instructions}".toList ∧
    bulletList ["{instructions}".toList] ++ "|".toList ++ stepList ["Mix.".toList] =
      "* {instructions}|Step 1: Mix.".toList := by
  refine ⟨by decide, by decide, by decide, by decide⟩

set_option maxRecDepth 1000000 in
/-- C16, the failing input. The template `'I: {ingredients}'` holds `{ingredients}`
only, and an ingredient text holds `{instructions}`: the test for
`{instructions}` runs on the text after the first substitution, and the
instructions are substituted into the ingredient, `'I: * Step 1: Mix.'` instead
of `'I: * {instructions}'`. -/
theorem absent_placeholder_rescan :
    includes "I: {ingredients}".toList "{instructions}".toList = false ∧
    (formatRecipeData (RecipeRecord.mk "Cake".toList none
      ["{instructions}".toList] ["Mix.".toList] [] [] [] []
      (NutritionInfo.mk [] [] [] []) none none false none)
      (some (FormatConfig.mk true (some "I: {ingredients}".toList)
        false)))._customTemplate = some "I: * Step 1: Mix.".toList ∧
    "I: ".toList ++ bulletList ["{instructions}".toList] = "I: * {instructions}".toList ∧
    (formatRecipeData (RecipeRecord.mk "Cake".toList none
      ["2 eggs".toList] ["Mix.".toList] [] [] [] []
      (NutritionInfo.mk [] [] [] []) none none false none)
      (some (FormatConfig.mk true (some "See the article.".toList)
        false)))._customTemplate = some "See the article.".toList := by
  refine ⟨by decide, by decide, by decide, by decide⟩

/-! ## The parsing of the reply -/

theorem starLoop_greedy_scan (f : Flags) (r : Re) (P : Str → Bool) (hr : IsStep f r P) (k : Cont)
    (n : Nat) (s : Str) (c : Caps) (hn : s.length ≤ n) :
    starLoop (matchRe f r) [] true n s c k = greedyScan P k c s := by
  induction n generalizing s with
  | zero =>
    have : s = [] := List.length_eq_zero.mp (Nat.le_zero.mp hn)
    subst this
    simp [starLoop, greedyScan]
  | succ n ih =>
    cases s with
    | nil => simp [starLoop, hr.2, greedyScan]
    | cons y t =>
      have ht : t.length ≤ n := by simpa using hn
      by_cases hp : P (y :: t) = true
      · simp only [starLoop, hr.2, clearCaps_nil, hp, if_true, List.length_cons,
          Nat.lt_succ_self, greedyScan, ih t ht]
      · simp [starLoop, hr.2, hp, greedyScan]

theorem matchRe_star_greedy_scan (f : Flags) (r : Re) (P : Str → Bool) (hr : IsStep f r P)
    (k : Cont) (s : Str) (c : Caps) :
    matchRe f (.star true r) s c k = greedyScan P k c s := by
  simp only [matchRe, hr.1]
  exact starLoop_greedy_scan f r P hr k _ s c (le_refl _)

theorem isStep_anyChar (f : Flags) :
    IsStep f (.cls false [.space, .nspace]) (headTest (fun _ => true)) := by
  have h := isStep_cls f false [.space, .nspace]
  have e : clsTest f false [.space, .nspace] = fun _ => true := by
    funext y
    simp [clsTest, itemMatch]
  rwa [e] at h

theorem greedyScan_brace (c : Caps) (s : Str) :
    greedyScan (headTest (fun _ => true))
      (fun s' c' => matchRe flags0 (Re.cat [.chr '}']) s' c' (fun s'' c'' => some (s'', c''))) c s =
      match afterLast '}' s with
      | some r => some (r, c)
      | none => none := by
  induction s with
  | nil => simp [greedyScan, afterLast, Re.cat, matchRe]
  | cons y t ih =>
    simp only [greedyScan, headTest, if_true, ih, afterLast]
    cases afterLast '}' t with
    | some r => rfl
    | none =>
      simp only [Re.cat, matchRe, charEq_flags0]
      by_cases hy : y = '}'
      · subst hy
        simp
      · have h1 : ('}' == y) = false := by
          rw [beq_eq_false_iff_ne]
          exact fun e => hy e.symm
        have h2 : (y == '}') = false := by
          rw [beq_eq_false_iff_ne]
          exact hy
        simp [h1, h2]

/-- The match of `\\{[\\s\\S]*\\}` at the start of the input: from an opening brace to
the last closing brace. -/
theorem matchAt_jsonObject (s : Str) :
    matchAt flags0 jsonObjectRegex s =
      match s with
      | [] => none
      | x :: t =>
        if x == '{' then
          match afterLast '}' t with
          | some r => some (r, [])
          | none => none
        else none := by
  unfold matchAt jsonObjectRegex
  rw [matchRe_cat_cons, (isStep_chr flags0 '{').2]
  cases s with
  | nil => rfl
  | cons x t =>
    have e : headTest (charEq flags0 '{') (x :: t) = (x == '{') := by
      simp only [headTest, charEq_flags0]
      rw [Bool.eq_iff_iff, beq_iff_eq, beq_iff_eq]
      exact eq_comm
    dsimp only
    rw [e]
    cases hx : (x == '{') with
    | false => simp
    | true =>
      simp only [if_true]
      rw [matchRe_cat_cons, matchRe_star_greedy_scan flags0 _ _ (isStep_anyChar flags0)]
      exact greedyScan_brace [] t

theorem afterLast_none (x : Char) (s : Str) (h : x ∉ s) : afterLast x s = none := by
  induction s with
  | nil => rfl
  | cons y t ih =>
    have hy : (y == x) = false := by
      rw [beq_eq_false_iff_ne]
      exact fun e => h (by simp [e])
    simp [afterLast, ih (fun e => h (List.mem_cons_of_mem _ e)), hy]

theorem not_mem_of_afterLast_none (x : Char) (s : Str) (h : afterLast x s = none) : x ∉ s := by
  induction s with
  | nil => simp
  | cons y t ih =>
    simp only [afterLast] at h
    cases ht : afterLast x t with
    | some r => rw [ht] at h; cases h
    | none =>
      rw [ht] at h
      simp only at h
      split at h
      · cases h
      · rename_i hy
        rw [beq_iff_eq] at hy
        intro hmem
        rcases List.mem_cons.mp hmem with e | e
        · exact hy e.symm
        · exact ih ht e

theorem afterLast_append (x : Char) (mid post : Str) (h : x ∉ post) :
    afterLast x (mid ++ x :: post) = some post := by
  induction mid with
  | nil => simp [afterLast, afterLast_none x post h]
  | cons y t ih => simp [afterLast, ih]

theorem afterLast_some (x : Char) (s r : Str) (h : afterLast x s = some r) :
    ∃ mid, s = mid ++ x :: r ∧ x ∉ r := by
  induction s with
  | nil => simp [afterLast] at h
  | cons y t ih =>
    simp only [afterLast] at h
    cases ht : afterLast x t with
    | some r' =>
      rw [ht] at h
      simp only [Option.some.injEq] at h
      subst h
      obtain ⟨mid, hm, hr⟩ := ih ht
      exact ⟨y :: mid, by simp [hm], hr⟩
    | none =>
      rw [ht] at h
      simp only at h
      split at h
      · rename_i hy
        simp only [Option.some.injEq] at h
        subst h
        rw [beq_iff_eq] at hy
        subst hy
        exact ⟨[], rfl, not_mem_of_afterLast_none y t ht⟩
      · cases h

/-- A match found by the search starts at the first position at which the
pattern matches. -/
theorem searchFrom_some (f : Flags) (r : Re) (acc s : Str) (m : Match)
    (h : searchFrom f r acc s = some m) :
    ∃ pre rest s' c, s = pre ++ rest ∧
      (∀ u y v, pre = u ++ y :: v → matchAt f r (y :: v ++ rest) = none) ∧
      matchAt f r rest = some (s', c) ∧ m.matched = rest.take (rest.length - s'.length) := by
  induction s generalizing acc with
  | nil =>
    simp only [searchFrom] at h
    cases hm : matchAt f r [] with
    | none => rw [hm] at h; cases h
    | some q =>
      obtain ⟨s', c⟩ := q
      rw [hm] at h
      simp only [Option.some.injEq] at h
      subst h
      exact ⟨[], [], s', c, rfl, by simp, hm, by simp⟩
  | cons x t ih =>
    simp only [searchFrom] at h
    cases hm : matchAt f r (x :: t) with
    | some q =>
      obtain ⟨s', c⟩ := q
      rw [hm] at h
      simp only [Option.some.injEq] at h
      subst h
      exact ⟨[], x :: t, s', c, rfl, by simp, hm, rfl⟩
    | none =>
      rw [hm] at h
      obtain ⟨pre, rest, s', c, hs, hmiss, hhit, hmat⟩ := ih (x :: acc) h
      refine ⟨x :: pre, rest, s', c, by simp [hs], ?_, hhit, hmat⟩
      intro u y v e
      cases u with
      | nil =>
        simp only [List.nil_append, List.cons.injEq] at e
        obtain ⟨rfl, rfl⟩ := e
        show matchAt f r (x :: (pre ++ rest)) = none
        rw [← hs]
        exact hm
      | cons z u' =>
        simp only [List.cons_append, List.cons.injEq] at e
        exact hmiss u' y v e.2

theorem take_braces (mid post : Str) :
    List.take (('{' :: (mid ++ '}' :: post)).length - post.length) ('{' :: (mid ++ '}' :: post)) =
      '{' :: (mid ++ ['}']) := by
  have e : '{' :: (mid ++ '}' :: post) = ('{' :: (mid ++ ['}'])) ++ post := by simp
  rw [e]
  apply List.take_left'
  simp only [List.length_append, List.length_cons, List.length_nil]
  omega

/-- The text matched by `\\{[\\s\\S]*\\}`: from the first opening brace to the last
closing brace. -/
theorem search_jsonObject (pre mid post : Str) (hpre : '{' ∉ pre) (hpost : '}' ∉ post) :
    (search flags0 jsonObjectRegex (pre ++ '{' :: (mid ++ '}' :: post))).map
      (fun m => m.matched) = some ('{' :: (mid ++ ['}'])) := by
  have hmiss : ∀ u y v, pre = u ++ y :: v →
      matchAt flags0 jsonObjectRegex (y :: v ++ '{' :: (mid ++ '}' :: post)) = none := by
    intro u y v e
    have hy : (y == '{') = false := by
      rw [beq_eq_false_iff_ne]
      intro e'
      apply hpre
      rw [e, e']
      simp
    rw [List.cons_append, matchAt_jsonObject]
    simp [hy]
  have hhit : matchAt flags0 jsonObjectRegex ('{' :: (mid ++ '}' :: post)) = some (post, []) := by
    rw [matchAt_jsonObject]
    simp [afterLast_append '}' mid post hpost]
  rw [search_skip_hit flags0 jsonObjectRegex pre _ post [] hmiss hhit]
  simp only [Option.map_some', take_braces]

theorem search_jsonObject_some (content : Str) (m : Match)
    (h : search flags0 jsonObjectRegex content = some m) :
    ∃ pre mid post, content = pre ++ '{' :: (mid ++ '}' :: post) ∧ '{' ∉ pre ∧ '}' ∉ post ∧
      m.matched = '{' :: (mid ++ ['}']) := by
  obtain ⟨pre, rest, s', c, hs, hmiss, hhit, hmat⟩ := searchFrom_some _ _ _ _ _ h
  rw [matchAt_jsonObject] at hhit
  cases rest with
  | nil => cases hhit
  | cons x t =>
    simp only at hhit
    split at hhit
    · rename_i hx
      rw [beq_iff_eq] at hx
      subst hx
      cases ha : afterLast '}' t with
      | none => rw [ha] at hhit; cases hhit
      | some post =>
        rw [ha] at hhit
        simp only [Option.some.injEq, Prod.mk.injEq] at hhit
        obtain ⟨rfl, rfl⟩ := hhit
        obtain ⟨mid, hmid, hpost⟩ := afterLast_some '}' t post ha
        subst hmid
        refine ⟨pre, mid, post, hs, ?_, hpost, ?_⟩
        · intro hmem
          obtain ⟨u, v, huv⟩ := List.append_of_mem hmem
          have := hmiss u '{' v huv
          rw [List.cons_append, matchAt_jsonObject] at this
          have hsome : afterLast '}' (v ++ '{' :: (mid ++ '}' :: post)) = some post := by
            have := afterLast_append '}' (v ++ '{' :: mid) post hpost
            simpa using this
          simp [hsome] at this
        · rw [hmat]
          exact take_braces mid post
    · cases hhit

/-- **C14.** Three-tier parse fallback: the reply is parsed by `JSON.parse`; when
that raises, the text from the first `{` to the last `}` is parsed; when there is
no such text or its parse raises, the result is the stub record, with the
keyword in the title, its first character in upper case, and `' Recipe'` after
it, the keyword in the description, one sentinel ingredient, one sentinel
instruction, the times `'30 mins'`, the yield `'4 servings'` and the nutrition
values `'N/A'`.  The properties of a parsed object are the fields that are
validated and formatted (of two members with one name the later one), a parsed
array has none of them, and a parsed `null`, boolean, number or string, and a
call that raises, give the stub of the outer `catch`, with the same fields: the
function returns a record in every case. -/
theorem three_tier_parse (jsonParse : Str → Option JVal) (format : ParsedReply → ParsedReply)
    (keyword content : Str) :
    (∀ v, jsonParse content = some v → parseReply jsonParse content = some v) ∧
    (jsonParse content = none → ∀ pre mid post, content = pre ++ '{' :: (mid ++ '}' :: post) →
      '{' ∉ pre → '}' ∉ post →
      parseReply jsonParse content = jsonParse ('{' :: (mid ++ ['}']))) ∧
    (jsonParse content = none →
      (∀ pre mid post, content = pre ++ '{' :: (mid ++ '}' :: post) → '{' ∉ pre → '}' ∉ post →
        jsonParse ('{' :: (mid ++ ['}'])) = none) →
      parseReply jsonParse content = none) ∧
    (∀ fields, parseReply jsonParse content = some (.obj fields) →
      generateRecipeData jsonParse format keyword (some content) =
        format (validateRecipe keyword
          ⟨(fields.reverse).lookup "title".toList, (fields.reverse).lookup "description".toList,
            (fields.reverse).lookup "ingredients".toList,
            (fields.reverse).lookup "instructions".toList,
            (fields.reverse).lookup "prep_time".toList,
            (fields.reverse).lookup "cook_time".toList, (fields.reverse).lookup "yield".toList,
            fields.filter (fun p =>
              !(["title".toList, "description".toList, "ingredients".toList,
                "instructions".toList, "prep_time".toList, "cook_time".toList,
                "yield".toList].contains p.1))⟩)) ∧
    (∀ xs, parseReply jsonParse content = some (.arr xs) →
      generateRecipeData jsonParse format keyword (some content) =
        format (validateRecipe keyword
          ⟨none, none, none, none, none, none, none,
            mapIndex (fun x i => (natToStr i, x)) xs⟩)) ∧
    (∀ v, parseReply jsonParse content = some v →
      (v = .null ∨ (∃ b, v = .bool b) ∨ (∃ q, v = .num q) ∨ ∃ s, v = .str s) →
      generateRecipeData jsonParse format keyword (some content) = errorStub keyword) ∧
    (parseReply jsonParse content = none →
      generateRecipeData jsonParse format keyword (some content) = fallbackStub keyword) ∧
    generateRecipeData jsonParse format keyword none = errorStub keyword ∧
    (∀ stub ∈ [fallbackStub keyword, errorStub keyword],
      stub.title = some (.str
        ((match keyword with
          | [] => []
          | c :: t => upperChar c ++ t) ++ " Recipe".toList)) ∧
      stub.description = some (.str ("A delicious ".toList ++ keyword ++ " recipe.".toList)) ∧
      stub.ingredients =
        some (.arr [.str "Please check the recipe description for ingredients".toList]) ∧
      stub.instructions =
        some (.arr [.str "Please follow the instructions in the article".toList]) ∧
      stub.prep_time = some (.str "30 mins".toList) ∧
      stub.cook_time = some (.str "30 mins".toList) ∧
      stub.yield = some (.str "4 servings".toList) ∧
      (stub.others.reverse).lookup "nutrition_info".toList =
        some (.obj [("Calories".toList, .str "N/A".toList), ("Protein".toList, .str "N/A".toList),
          ("Carbs".toList, .str "N/A".toList), ("Fat".toList, .str "N/A".toList)])) := by
  refine ⟨?_, ?_, ?_, ?_, ?_, ?_, ?_, rfl, ?_⟩
  · intro v hv
    simp [parseReply, hv]
  · intro hn pre mid post hc hpre hpost
    have hs := search_jsonObject pre mid post hpre hpost
    rw [← hc] at hs
    simp only [parseReply, hn]
    cases hm : search flags0 jsonObjectRegex content with
    | none => rw [hm] at hs; cases hs
    | some m =>
      rw [hm] at hs
      simp only [Option.map_some', Option.some.injEq] at hs
      simp [hs]
  · intro hn hall
    simp only [parseReply, hn]
    cases hm : search flags0 jsonObjectRegex content with
    | none => rfl
    | some m =>
      obtain ⟨pre, mid, post, hc, hpre, hpost, hmat⟩ := search_jsonObject_some content m hm
      simp only [hmat]
      exact hall pre mid post hc hpre hpost
  · intro fields hv
    simp only [generateRecipeData, hv]
    rfl
  · intro xs hv
    simp only [generateRecipeData, hv]
    rfl
  · intro v hv hk
    rcases hk with rfl | ⟨b, rfl⟩ | ⟨q, rfl⟩ | ⟨s, rfl⟩ <;>
      · simp only [generateRecipeData, hv]
        rfl
  · intro hn
    simp [generateRecipeData, hn]
  · intro stub hstub
    simp only [List.mem_cons, List.mem_singleton, List.not_mem_nil, or_false] at hstub
    rcases hstub with rfl | rfl
    · exact ⟨rfl, rfl, rfl, rfl, rfl, rfl, rfl, rfl⟩
    · exact ⟨rfl, rfl, rfl, rfl, rfl, rfl, rfl, rfl⟩

set_option maxRecDepth 1000000 in
/-- A reply with text around an object that has a title only: the strict parse
raises, the text from the first `{` to the last `}` is parsed, its title is
kept and the missing fields get their defaults; here `JSON.parse` is a function
that accepts this one text.  A reply without any brace gives the stub, whose
title for the keyword `'šunka'` is `'Šunka Recipe'`. -/
theorem three_tier_parse_witness :
    generateRecipeData
        (fun s => if s = "\x7b\"title\": \"Leek soup\"\x7d".toList then
          some (.obj [("title".toList, .str "Leek soup".toList)]) else none)
        (fun r => r) "soup".toList
        (some "Here it is: \x7b\"title\": \"Leek soup\"\x7d Enjoy!".toList) =
      ⟨some (.str "Leek soup".toList), some (.str "A delicious soup recipe.".toList),
        some (.arr [.str "Please check the recipe description for ingredients".toList]),
        some (.arr [.str "Please follow the instructions in the article".toList]),
        some (.str "30 mins".toList), some (.str "30 mins".toList),
        some (.str "4 servings".toList), []⟩ ∧
    (generateRecipeData (fun _ => none) (fun r => r) "šunka".toList
        (some "I have no recipe for that.".toList)).title =
      some (.str "Šunka Recipe".toList) :=
  ⟨((three_tier_parse _ (fun r => r) "soup".toList
        "Here it is: \x7b\"title\": \"Leek soup\"\x7d Enjoy!".toList).2.2.2.1
      [("title".toList, .str "Leek soup".toList)]
      (((three_tier_parse _ (fun r => r) "soup".toList
        "Here it is: \x7b\"title\": \"Leek soup\"\x7d Enjoy!".toList).2.1 (if_neg (by decide))
        "Here it is: ".toList "\"title\": \"Leek soup\"".toList " Enjoy!".toList
        (by decide) (by decide) (by decide)).trans (if_pos (by decide)))).trans rfl,
    (congrArg ParsedReply.title
      ((three_tier_parse (fun _ => none) (fun r => r) "šunka".toList
        "I have no recipe for that.".toList).2.2.2.2.2.2.1
        ((three_tier_parse (fun _ => none) (fun r => r) "šunka".toList
          "I have no recipe for that.".toList).2.2.1 rfl (fun _ _ _ _ _ _ => rfl)))).trans
      rfl⟩

/-! ## Scanning for a literal -/

theorem missAll_append (k : Cont) (x1 x2 rest : Str) :
    MissAll k (x1 ++ x2) rest ↔ MissAll k x1 (x2 ++ rest) ∧ MissAll k x2 rest := by
  induction x1 with
  | nil => simp [MissAll]
  | cons y v ih =>
    show ((∀ c, k (y :: ((v ++ x2) ++ rest)) c = none) ∧ MissAll k (v ++ x2) rest) ↔
      ((∀ c, k (y :: (v ++ (x2 ++ rest))) c = none) ∧ MissAll k v (x2 ++ rest)) ∧
        MissAll k x2 rest
    rw [ih, List.append_assoc]
    tauto

theorem lazyScan_hit (P : Str → Bool) (k : Cont) (c : Caps) (s : Str) (r : Str × Caps)
    (h : k s c = some r) : lazyScan P k c s = some r := by
  cases s with
  | nil => simpa [lazyScan] using h
  | cons y t => simp [lazyScan, h]

theorem lazyScan_skip (p : Char → Bool) (k : Cont) (c : Caps) (x rest : Str)
    (hmiss : MissAll k x rest) (hp : ∀ y ∈ x, p y = true) :
    lazyScan (headTest p) k c (x ++ rest) = lazyScan (headTest p) k c rest := by
  induction x with
  | nil => rfl
  | cons y v ih =>
    obtain ⟨h1, h2⟩ := hmiss
    have e := ih h2 (fun z hz => hp z (List.mem_cons_of_mem _ hz))
    show lazyScan (headTest p) k c (y :: (v ++ rest)) = _
    simp only [lazyScan, h1 c, headTest, hp y (List.mem_cons_self _ _), if_true]
    exact e

/-- When the continuation, at every position of `x`, fails or gives `r`, and the
scan from `rest` gives `r`, the scan from `x ++ rest` gives `r`. -/
theorem lazyScan_same (p : Char → Bool) (k : Cont) (c : Caps) (x rest : Str) (r : Str × Caps)
    (hx : ∀ u y v, x = u ++ y :: v → k (y :: (v ++ rest)) c = none ∨
      k (y :: (v ++ rest)) c = some r)
    (hp : ∀ y ∈ x, p y = true) (hrest : lazyScan (headTest p) k c rest = some r) :
    lazyScan (headTest p) k c (x ++ rest) = some r := by
  induction x with
  | nil => simpa using hrest
  | cons y v ih =>
    have hv : lazyScan (headTest p) k c (v ++ rest) = some r := by
      apply ih
      · intro u y' v' e
        exact hx (y :: u) y' v' (by simp [e])
      · exact fun z hz => hp z (List.mem_cons_of_mem _ hz)
    show lazyScan (headTest p) k c (y :: (v ++ rest)) = some r
    rcases hx [] y v rfl with h | h
    · simp only [lazyScan, h, headTest, hp y (List.mem_cons_self _ _), if_true, hv]
    · simp only [lazyScan, h]

theorem stripLit_append (f : Flags) (p q r t : Str) (h : stripLit f p q = some r) :
    stripLit f p (q ++ t) = some (r ++ t) := by
  induction p generalizing q with
  | nil =>
    simp only [stripLit, Option.some.injEq] at h
    subst h
    rfl
  | cons x p ih =>
    cases q with
    | nil => simp [stripLit] at h
    | cons y q =>
      simp only [stripLit] at h
      split at h
      · rename_i hxy
        simp only [List.cons_append, stripLit, hxy, if_true]
        exact ih q h
      · cases h

theorem stripLit_cat (f : Flags) (p q s : Str) :
    stripLit f (p ++ q) s =
      match stripLit f p s with
      | some t => stripLit f q t
      | none => none := by
  induction p generalizing s with
  | nil => rfl
  | cons x p ih =>
    cases s with
    | nil => rfl
    | cons y s =>
      simp only [List.cons_append, stripLit]
      split
      · exact ih s
      · rfl

theorem stripLit_drop (f : Flags) (p s t : Str) (h : stripLit f p s = some t) :
    t = s.drop p.length := by
  induction p generalizing s with
  | nil =>
    simp only [stripLit, Option.some.injEq] at h
    simp [h]
  | cons x p ih =>
    cases s with
    | nil => simp [stripLit] at h
    | cons y s =>
      simp only [stripLit] at h
      split at h
      · simpa using ih s h
      · cases h

/-- A literal that starts with `<` does not match at a character other than `<`. -/
theorem charEq_lt (f : Flags) (y : Char) (h : y ≠ '<') : charEq f '<' y = false := by
  have hne : y.toNat ≠ 0x3C := by
    intro e
    apply h
    apply Char.ext
    apply UInt32.ext
    simpa [Char.toNat] using e
  unfold charEq
  split
  · simp only [beq_eq_false_iff_ne, ne_eq]
    have h1 : canon '<' = 0x3C := by decide
    rw [h1]
    unfold canon
    split
    · rename_i hl
      simp only [Bool.and_eq_true, decide_eq_true_eq] at hl
      omega
    · exact fun e => hne e.symm
  · simp only [beq_eq_false_iff_ne, ne_eq]
    exact fun e => h e.symm

theorem stripFail_append (f : Flags) (p v rest : Str) (h : stripFail f p v = true) :
    stripLit f p (v ++ rest) = none := by
  induction p generalizing v with
  | nil => simp [stripFail] at h
  | cons x p ih =>
    cases v with
    | nil => simp [stripFail] at h
    | cons y t =>
      simp only [stripFail] at h
      show stripLit f (x :: p) (y :: (t ++ rest)) = none
      simp only [stripLit]
      split
      · rename_i hxy
        rw [if_pos hxy] at h
        exact ih t h
      · rfl

theorem missAll_iff (k : Cont) (x rest : Str) :
    MissAll k x rest ↔ ∀ u y v, x = u ++ y :: v → ∀ c, k (y :: (v ++ rest)) c = none := by
  induction x with
  | nil =>
    simp only [MissAll, true_iff]
    intro u y v e
    cases u <;> cases e
  | cons a t ih =>
    simp only [MissAll, ih]
    constructor
    · rintro ⟨h1, h2⟩ u y v e c
      cases u with
      | nil =>
        simp only [List.nil_append, List.cons.injEq] at e
        obtain ⟨rfl, rfl⟩ := e
        exact h1 c
      | cons b u =>
        simp only [List.cons_append, List.cons.injEq] at e
        exact h2 u y v e.2 c
    · intro h
      exact ⟨fun c => h [] a t rfl c, fun u y v e c => h (a :: u) y v (by simp [e]) c⟩

theorem missAll_suffix (k : Cont) (u w rest : Str) (h : MissAll k (u ++ w) rest) :
    MissAll k w rest :=
  ((missAll_append k u w rest).mp h).2

theorem missAll_of_allTailsFail (f : Flags) (p : Str) (k : Cont)
    (hk : ∀ s c, stripLit f p s = none → k s c = none) (x rest : Str)
    (h : allTailsFail f p x = true) : MissAll k x rest := by
  induction x with
  | nil => trivial
  | cons y t ih =>
    simp only [allTailsFail, Bool.and_eq_true] at h
    exact ⟨fun c => hk _ c (stripFail_append f p (y :: t) rest h.1), ih h.2⟩

theorem stripFail_mono (f : Flags) (p v w : Str) (h : stripFail f p v = true) :
    stripFail f p (v ++ w) = true := by
  induction p generalizing v with
  | nil => simp [stripFail] at h
  | cons x p ih =>
    cases v with
    | nil => simp [stripFail] at h
    | cons y t =>
      simp only [stripFail] at h
      show stripFail f (x :: p) (y :: (t ++ w)) = true
      simp only [stripFail]
      split
      · rename_i hxy
        rw [if_pos hxy] at h
        exact ih t h
      · rfl

theorem allTailsFail_append (f : Flags) (p x1 x2 : Str) (h1 : allTailsFail f p x1 = true)
    (h2 : allTailsFail f p x2 = true) : allTailsFail f p (x1 ++ x2) = true := by
  induction x1 with
  | nil => exact h2
  | cons y t ih =>
    simp only [allTailsFail, Bool.and_eq_true] at h1
    show allTailsFail f p (y :: (t ++ x2)) = true
    simp only [allTailsFail, Bool.and_eq_true]
    exact ⟨stripFail_mono f p (y :: t) x2 h1.1, ih h1.2⟩

theorem allTailsFail_text (f : Flags) (p a : Str) (h : ∀ y ∈ a, y ≠ '<') :
    allTailsFail f ('<' :: p) a = true := by
  induction a with
  | nil => rfl
  | cons y t ih =>
    simp only [allTailsFail, stripFail, charEq_lt f y (h y (List.mem_cons_self _ _)),
      Bool.and_eq_true]
    exact ⟨by simp, ih (fun z hz => h z (List.mem_cons_of_mem _ hz))⟩

/-! ## The heading-scoped pattern as a scan -/

theorem matchRe_chr_strip (f : Flags) (x : Char) (s : Str) (c : Caps) (k : Cont) :
    matchRe f (.chr x) s c k =
      match stripLit f [x] s with
      | some t => k t c
      | none => none := by
  cases s with
  | nil => rfl
  | cons y t =>
    by_cases h : charEq f x y = true <;> simp [matchRe, stripLit, h]

theorem matchRe_h23 (f : Flags) (s : Str) (c : Caps) (k : Cont) :
    matchRe f h23 s c k =
      match s with
      | [] => none
      | y :: t => if clsTest f false [.range '2' '3'] y then k t c else none := by
  cases s with
  | nil => rfl
  | cons y t => simp [h23, matchRe, clsTest]

theorem matchRe_close (f : Flags) (tag : String) (s : Str) (c : Caps) (k : Cont) :
    matchRe f (Re.cat [lit "</", lit tag, .chr '>']) s c k =
      match stripLit f ('<' :: '/' :: (tag.toList ++ ['>'])) s with
      | some t => k t c
      | none => none := by
  rw [matchRe_cat_cons, matchRe_lit]
  rw [show ('<' :: '/' :: (tag.toList ++ ['>']) : Str) = "</".toList ++ (tag.toList ++ ['>'])
    from rfl, stripLit_cat]
  cases stripLit f "</".toList s with
  | none => rfl
  | some t =>
    show matchRe f (Re.cat [lit tag, .chr '>']) t c k =
      match stripLit f (tag.toList ++ ['>']) t with
      | some t => k t c
      | none => none
    rw [matchRe_cat_cons, matchRe_lit, stripLit_cat]
    cases stripLit f tag.toList t with
    | none => rfl
    | some u =>
      show matchRe f (.chr '>') u c k = _
      rw [matchRe_chr_strip]

theorem matchRe_listK (f : Flags) (tag : String) (s : Str) (c : Caps) :
    matchRe f (Re.cat [.chr '<', lit tag, .chr '>', .group 1 (.star false .any), lit "</",
      lit tag, .chr '>']) s c (fun s' c' => some (s', c')) = listK f tag.toList s c := by
  rw [matchRe_cat_cons, matchRe_chr_strip]
  unfold listK
  rw [show ('<' :: (tag.toList ++ ['>']) : Str) = ['<'] ++ (tag.toList ++ ['>']) from rfl,
    stripLit_cat]
  cases stripLit f ['<'] s with
  | none => rfl
  | some t =>
    show matchRe f (Re.cat [lit tag, .chr '>', .group 1 (.star false .any), lit "</",
      lit tag, .chr '>']) t c _ =
      match stripLit f (tag.toList ++ ['>']) t with
      | some t =>
        lazyScan (headTest (dotTest f)) (closeK f ('<' :: '/' :: (tag.toList ++ ['>'])) t) c t
      | none => none
    rw [matchRe_cat_cons, matchRe_lit, stripLit_cat]
    cases stripLit f tag.toList t with
    | none => rfl
    | some u =>
      show matchRe f (Re.cat [.chr '>', .group 1 (.star false .any), lit "</",
        lit tag, .chr '>']) u c _ =
        match stripLit f ['>'] u with
        | some t =>
          lazyScan (headTest (dotTest f)) (closeK f ('<' :: '/' :: (tag.toList ++ ['>'])) t) c t
        | none => none
      rw [matchRe_cat_cons, matchRe_chr_strip]
      cases stripLit f ['>'] u with
      | none => rfl
      | some v =>
        show matchRe f (Re.cat [.group 1 (.star false .any), lit "</",
          lit tag, .chr '>']) v c _ = _
        rw [matchRe_cat_cons, matchRe_group, matchRe_star_lazy f .any _ (isStep_any f)]
        show _ = lazyScan (headTest (dotTest f))
          (closeK f ('<' :: '/' :: (tag.toList ++ ['>'])) v) c v
        congr 1
        funext s' c'
        rw [matchRe_close]
        rfl

theorem matchRe_seq (f : Flags) (a b : Re) (s : Str) (c : Caps) (k : Cont) :
    matchRe f (.seq a b) s c k = matchRe f a s c (fun s' c' => matchRe f b s' c' k) := rfl

theorem matchRe_chr_cons (f : Flags) (x y : Char) (t : Str) (c : Caps) (k : Cont) :
    matchRe f (.chr x) (y :: t) c k = if charEq f x y then k t c else none := rfl

theorem matchRe_nlook (f : Flags) (a : Re) (s : Str) (c : Caps) (k : Cont) :
    matchRe f (.nlook a) s c k =
      match matchRe f a s c (fun s' c' => some (s', c')) with
      | some _ => none
      | none => k s c := rfl

theorem opensHeading_iff (f : Flags) (s : Str) (c : Caps) :
    matchRe f (.seq (lit "<h") h23) s c (fun s' c' => some (s', c')) = none ↔
      opensHeading f s = false := by
  rw [matchRe_seq, matchRe_lit]
  unfold opensHeading
  cases stripLit f "<h".toList s with
  | none => simp
  | some u =>
    cases u with
    | nil => simp [matchRe_h23, headTest]
    | cons z w =>
      by_cases hz : clsTest f false [.range '2' '3'] z = true
      · simp [matchRe_h23, hz, headTest]
      · simp [matchRe_h23, hz, headTest]

theorem isStep_noHeading (f : Flags) :
    IsStep f (.seq (.nlook (.seq (lit "<h") h23)) .any) (noHeadTest f) := by
  refine ⟨rfl, ?_⟩
  intro s c k
  rw [matchRe_seq, matchRe_nlook]
  cases s with
  | nil => rfl
  | cons y t =>
    cases ho : opensHeading f (y :: t) with
    | false =>
      rw [(opensHeading_iff f (y :: t) c).mpr ho]
      simp [noHeadTest, ho, matchRe, headTest, dotTest]
    | true =>
      cases hm : matchRe f (.seq (lit "<h") h23) (y :: t) c (fun s' c' => some (s', c')) with
      | none =>
        rw [(opensHeading_iff f (y :: t) c).mp hm] at ho
        cases ho
      | some r => simp [noHeadTest, ho]

theorem matchRe_noHeading (f : Flags) (s : Str) (c : Caps) (k : Cont) :
    matchRe f noHeading s c k = lazyScan (noHeadTest f) k c s :=
  matchRe_star_lazy f _ _ (isStep_noHeading f) k s c

theorem matchRe_headEndK (f : Flags) (tag : String) (s : Str) (c : Caps) :
    matchRe f (Re.cat [lit "</h", h23, .chr '>', noHeading, .chr '<', lit tag, .chr '>',
      .group 1 (.star false .any), lit "</", lit tag, .chr '>']) s c
      (fun s' c' => some (s', c')) = headEndK f tag.toList s c := by
  rw [matchRe_cat_cons, matchRe_lit]
  unfold headEndK
  cases stripLit f "</h".toList s with
  | none => rfl
  | some t =>
    show matchRe f (Re.cat [h23, .chr '>', noHeading, .chr '<', lit tag, .chr '>',
      .group 1 (.star false .any), lit "</", lit tag, .chr '>']) t c _ = _
    rw [matchRe_cat_cons, matchRe_h23]
    cases t with
    | nil => rfl
    | cons y t =>
      cases t with
      | nil =>
        by_cases hy : clsTest f false [.range '2' '3'] y = true
        · simp only [hy, if_true]
          rw [matchRe_cat_cons]
          rfl
        · simp [hy]
      | cons z t =>
        by_cases hy : clsTest f false [.range '2' '3'] y = true
        · simp only [hy, if_true, Bool.true_and]
          rw [matchRe_cat_cons, matchRe_chr_cons]
          by_cases hz : charEq f '>' z = true
          · simp only [hz, if_true]
            rw [matchRe_cat_cons, matchRe_noHeading]
            congr 1
            funext s' c'
            exact matchRe_listK f tag s' c'
          · simp [hz]
        · simp [hy]

theorem matchRe_wordK (f : Flags) (word tag : String) (s : Str) (c : Caps) :
    matchRe f (Re.cat [lit word, .star false .any, lit "</h", h23, .chr '>', noHeading,
      .chr '<', lit tag, .chr '>', .group 1 (.star false .any), lit "</", lit tag, .chr '>'])
      s c (fun s' c' => some (s', c')) = wordK f word.toList tag.toList s c := by
  rw [matchRe_cat_cons, matchRe_lit]
  unfold wordK
  cases stripLit f word.toList s with
  | none => rfl
  | some t =>
    show matchRe f (Re.cat [.star false .any, lit "</h", h23, .chr '>', noHeading,
      .chr '<', lit tag, .chr '>', .group 1 (.star false .any), lit "</", lit tag, .chr '>'])
      t c _ = _
    rw [matchRe_cat_cons, matchRe_star_lazy f .any _ (isStep_any f)]
    congr 1
    funext s' c'
    exact matchRe_headEndK f tag s' c'

theorem matchAt_sectionRe (f : Flags) (word tag : String) (s : Str) :
    matchAt f (sectionRe (lit word) (lit tag)) s = sectionAt f word.toList tag.toList s := by
  unfold matchAt sectionRe sectionAt
  rw [matchRe_cat_cons, matchRe_lit]
  cases stripLit f "<h".toList s with
  | none => rfl
  | some t =>
    show matchRe f (Re.cat [h23, .star true (.cls true [.chr '>']), .chr '>',
      .star false .any, lit word, .star false .any, lit "</h", h23, .chr '>', noHeading,
      .chr '<', lit tag, .chr '>', .group 1 (.star false .any), lit "</", lit tag, .chr '>'])
      t [] _ = _
    rw [matchRe_cat_cons, matchRe_h23]
    cases t with
    | nil => rfl
    | cons y t =>
      by_cases hy : clsTest f false [.range '2' '3'] y = true
      · simp only [hy, if_true]
        rw [matchRe_cat_cons, matchRe_star_greedy f _ _ (isStep_cls f true [.chr '>'])]
        · rw [matchRe_cat_cons]
          cases hsk : skipWhile (headTest (clsTest f true [.chr '>'])) t with
          | nil => rfl
          | cons z u =>
            rw [matchRe_chr_cons]
            by_cases hz : charEq f '>' z = true
            · simp only [hz, if_true]
              rw [matchRe_cat_cons, matchRe_star_lazy f .any _ (isStep_any f)]
              congr 1
              funext s' c'
              exact matchRe_wordK f word tag s' c'
            · simp [hz]
        · intro s' c' hs'
          rw [matchRe_cat_cons]
          cases s' with
          | nil => rfl
          | cons z u =>
            simp only [headTest, clsTest, List.any_cons, List.any_nil, Bool.or_false, itemMatch,
              bne_iff_ne, ne_eq, Bool.not_eq_true] at hs'
            simp [matchRe, hs']
      · simp [hy]

theorem allTailsFail_items (f : Flags) (p : Str)
    (h1 : allTailsFail f ('<' :: p) "<li>".toList = true)
    (h2 : allTailsFail f ('<' :: p) "</li>".toList = true)
    (xs : List Str) (hx : ∀ a ∈ xs, ∀ y ∈ a, y ≠ '<') :
    allTailsFail f ('<' :: p) (itemsHtml xs) = true := by
  induction xs with
  | nil => rfl
  | cons a t ih =>
    unfold itemsHtml
    apply allTailsFail_append _ _ _ _ h1
    apply allTailsFail_append _ _ _ _ (allTailsFail_text f p a (hx a (List.mem_cons_self _ _)))
    apply allTailsFail_append _ _ _ _ h2
    exact ih (fun b hb => hx b (List.mem_cons_of_mem _ hb))

theorem closeK_none (f : Flags) (p start s : Str) (c : Caps) (h : stripLit f p s = none) :
    closeK f p start s c = none := by
  simp [closeK, h]

theorem scanClose (f : Flags) (p p' x rest : Str) (c : Caps)
    (hx : allTailsFail f p x = true) (hdot : ∀ y ∈ x, dotTest f y = true)
    (hp : stripLit f p p' = some []) :
    lazyScan (headTest (dotTest f)) (closeK f p (x ++ (p' ++ rest))) c (x ++ (p' ++ rest)) =
      some (rest, (1, x) :: c) := by
  rw [lazyScan_skip (dotTest f) _ c x (p' ++ rest)
    (missAll_of_allTailsFail f p _ (fun s c => closeK_none f p _ s c) x _ hx) hdot]
  apply lazyScan_hit
  have := stripLit_append f p p' [] rest hp
  simp only [List.nil_append] at this
  simp only [closeK, this, List.length_append]
  have e : x.length + (p'.length + rest.length) - (p'.length + rest.length) = x.length := by
    omega
  rw [e, List.take_left' rfl]

theorem dotTest_flagsIS (y : Char) : dotTest flagsIS y = true := rfl

theorem wordK_none (f : Flags) (word tag s : Str) (c : Caps) (h : stripLit f word s = none) :
    wordK f word tag s c = none := by
  simp [wordK, h]

theorem headEndK_none (f : Flags) (tag s : Str) (c : Caps)
    (h : stripLit f "</h".toList s = none) : headEndK f tag s c = none := by
  unfold headEndK
  rw [h]

theorem sectionAt_ingredients (I rest : Str)
    (hI : allTailsFail flagsIS "</ul>".toList I = true) :
    sectionAt flagsIS "ingredients".toList "ul".toList
      ("<h2>Ingredients</h2><ul>".toList ++ (I ++ ("</ul>".toList ++ rest))) =
      some (rest, [(1, I)]) := by
  have e0 : sectionAt flagsIS "ingredients".toList "ul".toList
      ("<h2>Ingredients</h2><ul>".toList ++ (I ++ ("</ul>".toList ++ rest))) =
      lazyScan (headTest (dotTest flagsIS)) (wordK flagsIS "ingredients".toList "ul".toList) []
        ("Ingredients</h2><ul>".toList ++ (I ++ ("</ul>".toList ++ rest))) := rfl
  rw [e0]
  apply lazyScan_hit
  have e1 : wordK flagsIS "ingredients".toList "ul".toList
      ("Ingredients</h2><ul>".toList ++ (I ++ ("</ul>".toList ++ rest))) [] =
      lazyScan (headTest (dotTest flagsIS)) (headEndK flagsIS "ul".toList) []
        ("</h2><ul>".toList ++ (I ++ ("</ul>".toList ++ rest))) := rfl
  rw [e1]
  apply lazyScan_hit
  have e2 : headEndK flagsIS "ul".toList
      ("</h2><ul>".toList ++ (I ++ ("</ul>".toList ++ rest))) [] =
      lazyScan (noHeadTest flagsIS) (listK flagsIS "ul".toList) []
        ("<ul>".toList ++ (I ++ ("</ul>".toList ++ rest))) := rfl
  rw [e2]
  apply lazyScan_hit
  have e3 : listK flagsIS "ul".toList ("<ul>".toList ++ (I ++ ("</ul>".toList ++ rest))) [] =
      lazyScan (headTest (dotTest flagsIS))
        (closeK flagsIS "</ul>".toList (I ++ ("</ul>".toList ++ rest))) []
        (I ++ ("</ul>".toList ++ rest)) := rfl
  rw [e3]
  exact scanClose flagsIS _ _ I rest [] hI (fun y _ => dotTest_flagsIS y) (by decide)

theorem headEnd_instructions (S rest : Str)
    (hS : allTailsFail flagsIS "</ol>".toList S = true) :
    lazyScan (headTest (dotTest flagsIS)) (headEndK flagsIS "ol".toList) []
      ("</h2><ol>".toList ++ (S ++ ("</ol>".toList ++ rest))) = some (rest, [(1, S)]) := by
  apply lazyScan_hit
  have e2 : headEndK flagsIS "ol".toList
      ("</h2><ol>".toList ++ (S ++ ("</ol>".toList ++ rest))) [] =
      lazyScan (noHeadTest flagsIS) (listK flagsIS "ol".toList) []
        ("<ol>".toList ++ (S ++ ("</ol>".toList ++ rest))) := rfl
  rw [e2]
  apply lazyScan_hit
  have e3 : listK flagsIS "ol".toList ("<ol>".toList ++ (S ++ ("</ol>".toList ++ rest))) [] =
      lazyScan (headTest (dotTest flagsIS))
        (closeK flagsIS "</ol>".toList (S ++ ("</ol>".toList ++ rest))) []
        (S ++ ("</ol>".toList ++ rest)) := rfl
  rw [e3]
  exact scanClose flagsIS _ _ S rest [] hS (fun y _ => dotTest_flagsIS y) (by decide)

theorem sectionAt_instructions (I S rest : Str)
    (hI : allTailsFail flagsIS "</h".toList I = true)
    (hS : allTailsFail flagsIS "</ol>".toList S = true) :
    sectionAt flagsIS "instructions".toList "ol".toList
      ("<h2>Ingredients</h2><ul>".toList ++
        (I ++ ("</ul><h2>Instructions</h2><ol>".toList ++ (S ++ ("</ol>".toList ++ rest))))) =
      some (rest, [(1, S)]) := by
  have e0 : sectionAt flagsIS "instructions".toList "ol".toList
      ("<h2>Ingredients</h2><ul>".toList ++
        (I ++ ("</ul><h2>Instructions</h2><ol>".toList ++ (S ++ ("</ol>".toList ++ rest))))) =
      lazyScan (headTest (dotTest flagsIS)) (wordK flagsIS "instructions".toList "ol".toList) []
        ("Ingredients</h2><ul>".toList ++
          (I ++ ("</ul><h2>Instructions</h2><ol>".toList ++
            (S ++ ("</ol>".toList ++ rest))))) := rfl
  rw [e0]
  rw [lazyScan_skip (dotTest flagsIS) _ [] "Ingredients</h2><ul>".toList _
    (missAll_of_allTailsFail flagsIS "instructions".toList _
      (fun s c => wordK_none flagsIS _ _ s c) _ _ (by decide))
    (fun y _ => dotTest_flagsIS y)]
  have hZ := headEnd_instructions S rest hS
  generalize hZdef : "</h2><ol>".toList ++ (S ++ ("</ol>".toList ++ rest)) = Z at hZ
  have e1 : I ++ ("</ul><h2>Instructions</h2><ol>".toList ++ (S ++ ("</ol>".toList ++ rest))) =
      (I ++ "</ul><h2>".toList) ++ ("Instructions".toList ++ Z) := by
    rw [← hZdef]
    simp only [List.append_assoc]
    rfl
  rw [e1]
  have hmiss : MissAll (headEndK flagsIS "ol".toList)
      ((I ++ "</ul><h2>".toList) ++ "Instructions".toList) Z :=
    missAll_of_allTailsFail flagsIS "</h".toList _
      (fun s c => headEndK_none flagsIS _ s c) _ _
      (allTailsFail_append _ _ _ _ (allTailsFail_append _ _ _ _ hI (by decide)) (by decide))
  apply lazyScan_same (dotTest flagsIS) _ [] _ _ _ _ (fun y _ => dotTest_flagsIS y)
  · apply lazyScan_hit
    have e2 : wordK flagsIS "instructions".toList "ol".toList ("Instructions".toList ++ Z) [] =
        lazyScan (headTest (dotTest flagsIS)) (headEndK flagsIS "ol".toList) [] Z := rfl
    rw [e2]
    exact hZ
  · intro u y v e
    cases hs : stripLit flagsIS "instructions".toList (y :: (v ++ ("Instructions".toList ++ Z)))
      with
    | none => exact Or.inl (wordK_none flagsIS _ _ _ _ hs)
    | some t =>
      right
      have ht := stripLit_drop flagsIS _ _ _ hs
      have hlen : "instructions".toList.length ≤ ((y :: v) ++ "Instructions".toList).length := by
        simp only [List.length_append]
        have : "Instructions".toList.length = "instructions".toList.length := rfl
        omega
      have ht2 : t = ((y :: v) ++ "Instructions".toList).drop "instructions".toList.length ++ Z := by
        rw [ht, ← List.drop_append_of_le_length hlen]
        simp
      have hw : MissAll (headEndK flagsIS "ol".toList)
          (((y :: v) ++ "Instructions".toList).drop "instructions".toList.length) Z := by
        apply missAll_suffix _
          (u ++ ((y :: v) ++ "Instructions".toList).take "instructions".toList.length)
        rw [List.append_assoc, List.take_append_drop, ← List.append_assoc, ← e]
        exact hmiss
      show wordK flagsIS "instructions".toList "ol".toList
        (y :: (v ++ ("Instructions".toList ++ Z))) [] = _
      simp only [wordK, hs]
      rw [ht2, lazyScan_skip (dotTest flagsIS) _ [] _ Z hw (fun y _ => dotTest_flagsIS y)]
      exact hZ

theorem sectionAt_none (f : Flags) (word tag s : Str) (h : opensHeading f s = false) :
    sectionAt f word tag s = none := by
  unfold opensHeading at h
  unfold sectionAt
  cases hs : stripLit f "<h".toList s with
  | none => rfl
  | some u =>
    rw [hs] at h
    cases u with
    | nil => rfl
    | cons z w =>
      simp only [headTest] at h
      simp [h]

theorem opensHeading_append_lt (v rest : Str) (hv : v ≠ [])
    (h : opensHeading flagsIS v = false) : opensHeading flagsIS (v ++ '<' :: rest) = false := by
  match v, hv, h with
  | [y], _, _ =>
    show opensHeading flagsIS (y :: '<' :: rest) = false
    unfold opensHeading
    have e : stripLit flagsIS "<h".toList (y :: '<' :: rest) = none := by
      show (if charEq flagsIS '<' y then
        (if charEq flagsIS 'h' '<' then some rest else none) else none) = none
      rw [show charEq flagsIS 'h' '<' = false from by decide]
      simp
    rw [e]
  | [y, z], _, _ =>
    show opensHeading flagsIS (y :: z :: '<' :: rest) = false
    unfold opensHeading
    by_cases h1 : charEq flagsIS '<' y = true
    · by_cases h2 : charEq flagsIS 'h' z = true
      · have e : stripLit flagsIS "<h".toList (y :: z :: '<' :: rest) = some ('<' :: rest) := by
          show (if charEq flagsIS '<' y then
            (if charEq flagsIS 'h' z then some ('<' :: rest) else none) else none) = _
          rw [if_pos h1, if_pos h2]
        rw [e]
        rfl
      · have e : stripLit flagsIS "<h".toList (y :: z :: '<' :: rest) = none := by
          show (if charEq flagsIS '<' y then
            (if charEq flagsIS 'h' z then some ('<' :: rest) else none) else none) = _
          rw [if_pos h1, if_neg h2]
        rw [e]
    · have e : stripLit flagsIS "<h".toList (y :: z :: '<' :: rest) = none := by
        show (if charEq flagsIS '<' y then
          (if charEq flagsIS 'h' z then some ('<' :: rest) else none) else none) = _
        rw [if_neg h1]
      rw [e]
  | y :: z :: w :: t, _, h =>
    show opensHeading flagsIS (y :: z :: w :: (t ++ '<' :: rest)) = false
    unfold opensHeading at h ⊢
    by_cases h1 : charEq flagsIS '<' y = true
    · by_cases h2 : charEq flagsIS 'h' z = true
      · have e : ∀ q : Str, stripLit flagsIS "<h".toList (y :: z :: w :: q) = some (w :: q) := by
          intro q
          show (if charEq flagsIS '<' y then
            (if charEq flagsIS 'h' z then some (w :: q) else none) else none) = _
          rw [if_pos h1, if_pos h2]
        rw [e] at h ⊢
        exact h
      · have e : ∀ q : Str, stripLit flagsIS "<h".toList (y :: z :: w :: q) = none := by
          intro q
          show (if charEq flagsIS '<' y then
            (if charEq flagsIS 'h' z then some (w :: q) else none) else none) = _
          rw [if_pos h1, if_neg h2]
        rw [e]
    · have e : ∀ q : Str, stripLit flagsIS "<h".toList (y :: z :: w :: q) = none := by
        intro q
        show (if charEq flagsIS '<' y then
          (if charEq flagsIS 'h' z then some (w :: q) else none) else none) = _
        rw [if_neg h1]
      rw [e]

theorem opensHeading_of_hasHeadingOpener (pre : Str) (h : hasHeadingOpener pre = false)
    (u : Str) (y : Char) (v : Str) (e : pre = u ++ y :: v) :
    opensHeading flagsIS (y :: v) = false := by
  induction pre generalizing u with
  | nil => cases u <;> cases e
  | cons a t ih =>
    simp only [hasHeadingOpener, Bool.or_eq_false_iff] at h
    cases u with
    | nil =>
      simp only [List.nil_append, List.cons.injEq] at e
      obtain ⟨rfl, rfl⟩ := e
      exact h.1
    | cons b u =>
      simp only [List.cons_append, List.cons.injEq] at e
      exact ih h.2 u e.2

/-- Before a text that starts with `<`, in a text where no heading opens, the
heading-scoped pattern does not match. -/
theorem section_miss_pre (word tag : String) (pre rest : Str)
    (h : hasHeadingOpener pre = false) (u : Str) (y : Char) (v : Str) (e : pre = u ++ y :: v) :
    matchAt flagsIS (sectionRe (lit word) (lit tag)) (y :: v ++ '<' :: rest) = none := by
  rw [matchAt_sectionRe]
  apply sectionAt_none
  exact opensHeading_append_lt (y :: v) rest (by simp)
    (opensHeading_of_hasHeadingOpener pre h u y v e)

/-! ## The items of a list -/

theorem plainItem_lt {a : Str} (h : plainItem a = true) : ∀ y ∈ a, y ≠ '<' := by
  intro y hy
  simp only [plainItem, Bool.and_eq_true, List.all_eq_true] at h
  have := (h.1 y hy).1
  simpa using this

theorem plainItem_dot {a : Str} (h : plainItem a = true) (f : Flags) :
    ∀ y ∈ a, dotTest f y = true := by
  intro y hy
  simp only [plainItem, Bool.and_eq_true, List.all_eq_true] at h
  have := (h.1 y hy).2
  simp only [Bool.not_eq_true'] at this
  simp [dotTest, this]

theorem plainItem_trim {a : Str} (h : plainItem a = true) : trim a = a := by
  simp only [plainItem, Bool.and_eq_true, beq_iff_eq] at h
  exact h.2

theorem matchAt_liRe (f : Flags) (s : Str) :
    matchAt f liRe s =
      match stripLit f "<li>".toList s with
      | some t => lazyScan (headTest (dotTest f)) (closeK f "</li>".toList t) [] t
      | none => none := by
  unfold matchAt liRe
  rw [matchRe_cat_cons, matchRe_lit]
  cases stripLit f "<li>".toList s with
  | none => rfl
  | some t =>
    show matchRe f (Re.cat [.group 1 (.star false .any), lit "</li>"]) t [] _ = _
    rw [matchRe_cat_cons, matchRe_group, matchRe_star_lazy f .any _ (isStep_any f)]
    show _ = lazyScan (headTest (dotTest f)) (closeK f "</li>".toList t) [] t
    congr 1
    funext s' c'
    show matchRe f (lit "</li>") s' _ _ = _
    rw [matchRe_lit]
    rfl

theorem matchAt_liRe_item (f : Flags) (a rest : Str) (ha : plainItem a = true) :
    matchAt f liRe ("<li>".toList ++ (a ++ ("</li>".toList ++ rest))) =
      some (rest, [(1, a)]) := by
  rw [matchAt_liRe, stripLit_self_append]
  exact scanClose f "</li>".toList "</li>".toList a rest []
    (allTailsFail_text f _ a (plainItem_lt ha)) (plainItem_dot ha f)
    (by simpa using stripLit_self_append f "</li>".toList [])

theorem search_liRe_item (f : Flags) (a rest : Str) (ha : plainItem a = true) :
    search f liRe ("<li>".toList ++ (a ++ ("</li>".toList ++ rest))) =
      some ⟨[], "<li>".toList ++ (a ++ "</li>".toList), rest, [(1, a)]⟩ := by
  have h := searchFrom_hit f liRe [] _ _ _ (matchAt_liRe_item f a rest ha)
  rw [search, h]
  congr 2
  have e : ("<li>".toList ++ (a ++ ("</li>".toList ++ rest))).length - rest.length =
      ("<li>".toList ++ (a ++ "</li>".toList)).length := by
    simp only [List.length_append]
    omega
  rw [e]
  have e2 : "<li>".toList ++ (a ++ ("</li>".toList ++ rest)) =
      ("<li>".toList ++ (a ++ "</li>".toList)) ++ rest := by
    simp only [List.append_assoc]
  rw [e2, List.take_left' rfl]

theorem globalMatches_items (xs : List Str) (hx : ∀ a ∈ xs, plainItem a = true) (n : Nat)
    (hn : xs.length + 1 ≤ n) :
    (globalMatches flags0 liRe n (itemsHtml xs)).map (fun m => m.matched) =
      xs.map (fun a => "<li>".toList ++ (a ++ "</li>".toList)) := by
  induction xs generalizing n with
  | nil =>
    cases n with
    | zero => omega
    | succ n => rfl
  | cons a t ih =>
    cases n with
    | zero => omega
    | succ n =>
      unfold itemsHtml
      unfold globalMatches
      rw [search_liRe_item flags0 a (itemsHtml t) (hx a (List.mem_cons_self _ _))]
      show ((⟨[], "<li>".toList ++ (a ++ "</li>".toList), itemsHtml t, [(1, a)]⟩ : Match) ::
        globalMatches flags0 liRe n (itemsHtml t)).map (fun m => m.matched) = _
      simp only [List.map_cons, List.cons.injEq, true_and]
      exact ih (fun b hb => hx b (List.mem_cons_of_mem _ hb)) n (by simpa using hn)

theorem length_le_itemsHtml (xs : List Str) : xs.length ≤ (itemsHtml xs).length := by
  induction xs with
  | nil => simp
  | cons a t ih =>
    unfold itemsHtml
    simp only [List.length_cons, List.length_append]
    have : "<li>".toList.length = 4 := rfl
    omega

theorem matchAllG_items (xs : List Str) (hne : xs ≠ []) (hx : ∀ a ∈ xs, plainItem a = true) :
    matchAllG flags0 liRe (itemsHtml xs) =
      some (xs.map (fun a => "<li>".toList ++ (a ++ "</li>".toList))) := by
  have h := globalMatches_items xs hx ((itemsHtml xs).length + 1)
    (by have := length_le_itemsHtml xs; omega)
  unfold matchAllG
  cases hg : globalMatches flags0 liRe ((itemsHtml xs).length + 1) (itemsHtml xs) with
  | nil =>
    rw [hg] at h
    cases xs with
    | nil => exact absurd rfl hne
    | cons a t => cases h
  | cons m ms =>
    rw [hg] at h
    simp only
    rw [h]

theorem matchAt_tagRe_none (y : Char) (t : Str) (hy : y ≠ '<') :
    matchAt flags0 tagRe (y :: t) = none := by
  unfold matchAt tagRe
  rw [matchRe_cat_cons, matchRe_chr_cons, charEq_lt flags0 y hy]
  rfl

theorem stripTags_plain (a : Str) (ha : ∀ y ∈ a, y ≠ '<') :
    replaceAll flags0 tagRe (fun _ => []) a = a := by
  have hs : search flags0 tagRe a = none := by
    apply search_none
    intro u v e
    cases v with
    | nil => rfl
    | cons y t =>
      apply matchAt_tagRe_none
      apply ha
      rw [e]
      simp
  simp [replaceAll, replaceAllFrom, hs]

theorem cleanItem_item (a : Str) (ha : plainItem a = true) :
    cleanItem ("<li>".toList ++ (a ++ "</li>".toList)) = a := by
  have hs := search_liRe_item flagsI a [] ha
  simp only [List.append_nil] at hs
  unfold cleanItem replaceFirst
  rw [hs]
  show trim (replaceAll flags0 tagRe (fun _ => []) ([] ++ a ++ [])) = a
  simp only [List.nil_append, List.append_nil]
  rw [stripTags_plain a (plainItem_lt ha), plainItem_trim ha]

theorem listItems_items (xs : List Str) (hne : xs ≠ []) (hx : ∀ a ∈ xs, plainItem a = true) :
    listItems (itemsHtml xs) = some xs := by
  unfold listItems
  rw [matchAllG_items xs hne hx]
  simp only [Option.map_some', List.map_map, Option.some.injEq]
  conv_rhs => rw [← List.map_id xs]
  apply List.map_congr_left
  intro a ha
  exact cleanItem_item a (hx a ha)

/-! ## End-to-end extraction -/

theorem itemsHtml_ne_nil (xs : List Str) (hne : xs ≠ []) :
    ∃ t, itemsHtml xs = '<' :: t := by
  cases xs with
  | nil => exact absurd rfl hne
  | cons a t => exact ⟨_, rfl⟩

theorem truthyCap1_some (m : Match) (inner : Str) (h : m.cap 1 = some inner)
    (hne : inner ≠ []) : truthyCap1 (some m) = some inner := by
  cases inner with
  | nil => exact absurd rfl hne
  | cons x t => simp [truthyCap1, h]

theorem extractList_hit (primary fallback : Re) (content inner : Str) (xs : List Str)
    (h1 : truthyCap1 (search flagsIS primary content) = some inner)
    (h2 : listItems inner = some xs) (hne : xs ≠ []) :
    extractList primary fallback content = xs := by
  have hl : xs.length ≠ 0 := fun h => hne (List.length_eq_zero.mp h)
  simp [extractList, h1, h2, hl]

theorem allTailsFail_plainItems (p : Str)
    (h1 : allTailsFail flagsIS ('<' :: p) "<li>".toList = true)
    (h2 : allTailsFail flagsIS ('<' :: p) "</li>".toList = true)
    (xs : List Str) (hx : ∀ a ∈ xs, plainItem a = true) :
    allTailsFail flagsIS ('<' :: p) (itemsHtml xs) = true :=
  allTailsFail_items flagsIS p h1 h2 xs (fun a ha => plainItem_lt (hx a ha))

theorem search_ingredients (pre post : Str) (as ss : List Str)
    (has : ∀ a ∈ as, plainItem a = true) (hpre : hasHeadingOpener pre = false) :
    ∃ m, search flagsIS ingredientsRegex (pre ++ (recipeBlock as ss ++ post)) = some m ∧
      m.cap 1 = some (itemsHtml as) := by
  have hB : recipeBlock as ss ++ post = "<h2>Ingredients</h2><ul>".toList ++ (itemsHtml as ++
      ("</ul>".toList ++ ("<h2>Instructions</h2><ol>".toList ++
        (itemsHtml ss ++ ("</ol>".toList ++ post))))) := by
    unfold recipeBlock
    simp only [List.append_assoc]
    rfl
  have hit : matchAt flagsIS ingredientsRegex (recipeBlock as ss ++ post) =
      some ("<h2>Instructions</h2><ol>".toList ++ (itemsHtml ss ++ ("</ol>".toList ++ post)),
        [(1, itemsHtml as)]) := by
    rw [hB]
    show matchAt flagsIS (sectionRe (lit "ingredients") (lit "ul")) _ = _
    rw [matchAt_sectionRe]
    exact sectionAt_ingredients _ _ (allTailsFail_plainItems _ (by decide) (by decide) as has)
  have hmiss : ∀ u y v, pre = u ++ y :: v →
      matchAt flagsIS ingredientsRegex (y :: v ++ (recipeBlock as ss ++ post)) = none := by
    intro u y v e
    rw [hB]
    exact section_miss_pre "ingredients" "ul" pre _ hpre u y v e
  exact ⟨_, search_skip_hit flagsIS ingredientsRegex pre _ _ _ hmiss hit, rfl⟩

theorem search_instructions (pre post : Str) (as ss : List Str)
    (has : ∀ a ∈ as, plainItem a = true) (hss : ∀ a ∈ ss, plainItem a = true)
    (hpre : hasHeadingOpener pre = false) :
    ∃ m, search flagsIS instructionsRegex (pre ++ (recipeBlock as ss ++ post)) = some m ∧
      m.cap 1 = some (itemsHtml ss) := by
  have hB : recipeBlock as ss ++ post = "<h2>Ingredients</h2><ul>".toList ++ (itemsHtml as ++
      ("</ul><h2>Instructions</h2><ol>".toList ++
        (itemsHtml ss ++ ("</ol>".toList ++ post)))) := by
    unfold recipeBlock
    simp only [List.append_assoc]
  have hit : matchAt flagsIS instructionsRegex (recipeBlock as ss ++ post) =
      some (post, [(1, itemsHtml ss)]) := by
    rw [hB]
    show matchAt flagsIS (sectionRe (lit "instructions") (lit "ol")) _ = _
    rw [matchAt_sectionRe]
    exact sectionAt_instructions _ _ _
      (allTailsFail_plainItems _ (by decide) (by decide) as has)
      (allTailsFail_plainItems _ (by decide) (by decide) ss hss)
  have hmiss : ∀ u y v, pre = u ++ y :: v →
      matchAt flagsIS instructionsRegex (y :: v ++ (recipeBlock as ss ++ post)) = none := by
    intro u y v e
    rw [hB]
    exact section_miss_pre "instructions" "ol" pre _ hpre u y v e
  exact ⟨_, search_skip_hit flagsIS instructionsRegex pre _ _ _ hmiss hit, rfl⟩

/-- **C3.** End-to-end extraction.  Let the content be a text `pre` in which no
heading of level 2 or 3 opens, then the block
`<h2>Ingredients</h2><ul><li>a1</li>...<li>am</li></ul><h2>Instructions</h2><ol><li>s1</li>...<li>sn</li></ol>`
with `m, n ≥ 1`, then any text `post`; let every item be free of `<`, of line
terminators (LF, CR, U+2028, U+2029) and of white space at its ends, and let
the content hold a marker phrase.  Then `extractRecipeData` returns a record
whose ingredients are exactly `[a1, ..., am]` and whose instructions are exactly
`[s1, ..., sn]`, in order. -/
theorem end_to_end_extraction (pre post keyword : Str) (as ss : List Str)
    (hm : as ≠ []) (hn : ss ≠ [])
    (has : ∀ a ∈ as, plainItem a = true) (hss : ∀ a ∈ ss, plainItem a = true)
    (hpre : hasHeadingOpener pre = false)
    (hind : hasRecipeIndicators (pre ++ (recipeBlock as ss ++ post)) = true) :
    ∃ r, extractRecipeData (pre ++ (recipeBlock as ss ++ post)) keyword = some r ∧
      r.ingredients = as ∧ r.instructions = ss := by
  obtain ⟨m1, hs1, hc1⟩ := search_ingredients pre post as ss has hpre
  obtain ⟨m2, hs2, hc2⟩ := search_instructions pre post as ss has hss hpre
  obtain ⟨t1, ht1⟩ := itemsHtml_ne_nil as hm
  obtain ⟨t2, ht2⟩ := itemsHtml_ne_nil ss hn
  have h1 : extractList ingredientsRegex anyListRegex (pre ++ (recipeBlock as ss ++ post)) =
      as := by
    apply extractList_hit _ _ _ (itemsHtml as) as _ (listItems_items as hm has) hm
    rw [hs1]
    exact truthyCap1_some m1 _ hc1 (by rw [ht1]; simp)
  have h2 : extractList instructionsRegex anyOrderedListRegex
      (pre ++ (recipeBlock as ss ++ post)) = ss := by
    apply extractList_hit _ _ _ (itemsHtml ss) ss _ (listItems_items ss hn hss) hn
    rw [hs2]
    exact truthyCap1_some m2 _ hc2 (by rw [ht2]; simp)
  have hlen : (pre ++ (recipeBlock as ss ++ post)).length ≠ 0 := by
    unfold recipeBlock
    simp
  have hl1 : as.length ≠ 0 := fun h => hm (List.length_eq_zero.mp h)
  have hl2 : ss.length ≠ 0 := fun h => hn (List.length_eq_zero.mp h)
  unfold extractRecipeData
  rw [if_neg hlen, hind]
  simp only [Bool.not_true, Bool.false_eq_true, if_false, h1, h2]
  simp [hl1, hl2]

/-- The input of the specification, after a paragraph with a marker phrase:
the ingredients are `2 eggs` and `1 cup flour`, the instructions are `Mix.` and
`Bake.`. -/
theorem end_to_end_extraction_witness :
    ∃ r, extractRecipeData
        ("<p>Ingredients: see below.</p>".toList ++
          (recipeBlock ["2 eggs".toList, "1 cup flour".toList]
            ["Mix.".toList, "Bake.".toList] ++ [])) "cake".toList = some r ∧
      r.ingredients = ["2 eggs".toList, "1 cup flour".toList] ∧
      r.instructions = ["Mix.".toList, "Bake.".toList] :=
  end_to_end_extraction "<p>Ingredients: see below.</p>".toList [] "cake".toList
    ["2 eggs".toList, "1 cup flour".toList] ["Mix.".toList, "Bake.".toList]
    (by decide) (by decide) (by decide) (by decide) (by decide) (by decide)

/-! ## The verbs of the step titles -/

theorem find_action_some (instruction : Str)
    (h : ∃ a ∈ cookingActions,
      includes instruction a = true ∨ includes instruction (toLowerCase a) = true) :
    ∃ a ∈ cookingActions,
      (includes instruction a = true ∨ includes instruction (toLowerCase a) = true) ∧
      cookingActions.find? (fun action =>
        includes instruction action || includes instruction (toLowerCase action)) = some a := by
  cases hf : cookingActions.find? (fun action =>
      includes instruction action || includes instruction (toLowerCase action)) with
  | none =>
    obtain ⟨a, ha, hin⟩ := h
    have := List.find?_eq_none.mp hf a ha
    simp only [Bool.or_eq_true, not_or, Bool.not_eq_true] at this
    rcases hin with h1 | h1
    · rw [this.1] at h1
      cases h1
    · rw [this.2] at h1
      cases h1
  | some a =>
    refine ⟨a, List.mem_of_find?_eq_some hf, ?_, rfl⟩
    have := List.find?_some hf
    simpa using this

/-- **C21**, amended. Every instruction that contains a verb of the vocabulary
as the list writes it (capitalised) or in lower case gets a title derived from a
verb of the vocabulary that occurs in it in one of these two forms, in both
copies of `getStepTitle` and whatever the step number: the table of ordinal
titles is not used. -/
theorem verb_scan_two_cases (instruction : Str)
    (h : ∃ a ∈ cookingActions,
      includes instruction a = true ∨ includes instruction (toLowerCase a) = true) :
    ∃ a ∈ cookingActions,
      (includes instruction a = true ∨ includes instruction (toLowerCase a) = true) ∧
      ∀ n, getStepTitle n instruction = actionTitle instruction a ∧
        Formatter.getStepTitle n instruction = actionTitle instruction a := by
  obtain ⟨a, ha, hin, hf⟩ := find_action_some instruction h
  refine ⟨a, ha, hin, fun n => ⟨?_, ?_⟩⟩
  · simp only [getStepTitle, hf]
  · simp only [Formatter.getStepTitle, hf]

set_option maxRecDepth 1000000 in
/-- The instruction `'Bake the cake for an hour'` has the verb as the list writes
it: both copies give the title `'Bake the cake for'`. -/
theorem verb_scan_two_cases_witness :
    ∃ a ∈ cookingActions,
      (includes "Bake the cake for an hour".toList a = true ∨
        includes "Bake the cake for an hour".toList (toLowerCase a) = true) ∧
      ∀ n, getStepTitle n "Bake the cake for an hour".toList =
          actionTitle "Bake the cake for an hour".toList a ∧
        Formatter.getStepTitle n "Bake the cake for an hour".toList =
          actionTitle "Bake the cake for an hour".toList a :=
  verb_scan_two_cases "Bake the cake for an hour".toList
    ⟨"Bake".toList, by decide, Or.inl (by decide)⟩

set_option maxRecDepth 1000000 in
/-- C21, the counterexample. The instructions `'MIX the batter'` and
`'bAKE for an hour'` contain a verb of the vocabulary when the letter case is
disregarded, and both copies of `getStepTitle` give them the ordinal title. -/
theorem verb_scan_counterexample :
    includes (toLowerCase "MIX the batter".toList) (toLowerCase "Mix".toList) = true ∧
    includes (toLowerCase "bAKE for an hour".toList) (toLowerCase "Bake".toList) = true ∧
    getStepTitle 1 "MIX the batter".toList = "Prepare Ingredients".toList ∧
    Formatter.getStepTitle 1 "MIX the batter".toList = "Prepare Ingredients".toList ∧
    getStepTitle 2 "bAKE for an hour".toList = "Cook".toList ∧
    Formatter.getStepTitle 2 "bAKE for an hour".toList = "Mix Components".toList := by
  refine ⟨by decide, by decide, by decide, by decide, by decide, by decide⟩

/-! ## The sequence indices of groups and steps -/

theorem getElem?_mapIndexFrom {α β : Type} (f : α → Nat → β) (i : Nat) (xs : List α) (j : Nat) :
    (mapIndexFrom f i xs)[j]? = (xs[j]?).map (fun x => f x (i + j)) := by
  induction xs generalizing i j with
  | nil => simp [mapIndexFrom]
  | cons x t ih =>
    cases j with
    | zero => simp [mapIndexFrom]
    | succ j =>
      simp only [mapIndexFrom, List.getElem?_cons_succ, ih]
      congr 1
      funext y
      congr 1
      omega

theorem getElem?_mapIndex {α β : Type} (f : α → Nat → β) (xs : List α) (j : Nat) :
    (mapIndex f xs)[j]? = (xs[j]?).map (fun x => f x j) := by
  simp [mapIndex, getElem?_mapIndexFrom]

theorem formatted_groups_indices (raw : List RawGroup) (g : Nat) (G : InstructionGroup)
    (hG : (mapIndex formatGroup raw)[g]? = some G) :
    G.uid = (g : ℤ) ∧
      ∀ (j : Nat) (st : InstructionStep), G.instructions[j]? = some st →
        st.uid = j ∧ st.image = 0 ∧ st.name = [] ∧ st.ingredients = [] := by
  rw [getElem?_mapIndex] at hG
  cases hr : raw[g]? with
  | none => simp [hr] at hG
  | some r =>
    simp only [hr, Option.map_some', Option.some.injEq] at hG
    subst hG
    refine ⟨rfl, ?_⟩
    intro j st hst
    simp only [formatGroup] at hst
    rw [getElem?_mapIndex] at hst
    cases hi : r.instructions[j]? with
    | none => simp [hi] at hst
    | some i =>
      simp only [hi, Option.map_some', Option.some.injEq] at hst
      subst hst
      exact ⟨rfl, rfl, rfl, rfl⟩

theorem wprmFormatted_structured (r : RecipeRecord) (instructions : List Str)
    (hne : instructions ≠ []) (hf : r._customFormatted = true)
    (ht : ∃ c t, r._customTemplate = some (c :: t))
    (hins : r._originalInstructions = some instructions) :
    wprmFormattedInstructions r = wprmInstructionGroups instructions := by
  obtain ⟨c, t, ht⟩ := ht
  obtain ⟨x, xs, rfl⟩ := List.exists_cons_of_ne_nil hne
  simp [wprmFormattedInstructions, hf, ht, hins]

/-- **C22**, amended. Zero-based sequence indices. In the groups that
`processInstructionsIntoGroups` returns for any list, and in the groups that
`addRecipeToPost` of `wp-recipe-maker.js` builds for a custom-formatted record
whose original instructions are a list that is not empty (its structured
grouping), the group at the position `g` has the uid `g`, and the step at the
position `j` of a group has the uid `j`, the image 0, the name `''` and no
ingredients. -/
theorem zero_based_indices (instructions : List Str) (groups : List InstructionGroup)
    (h : groups = processInstructionsIntoGroups instructions ∨
      (instructions ≠ [] ∧ ∃ r : RecipeRecord, r._customFormatted = true ∧
        (∃ c t, r._customTemplate = some (c :: t)) ∧
        r._originalInstructions = some instructions ∧
        groups = wprmFormattedInstructions r))
    (g : Nat) (G : InstructionGroup) (hG : groups[g]? = some G) :
    G.uid = (g : ℤ) ∧
      ∀ (j : Nat) (st : InstructionStep), G.instructions[j]? = some st →
        st.uid = j ∧ st.image = 0 ∧ st.name = [] ∧ st.ingredients = [] := by
  rcases h with h | ⟨hne, r, hf, ht, hins, h⟩
  · subst h
    exact formatted_groups_indices _ g G hG
  · rw [wprmFormatted_structured r instructions hne hf ht hins] at h
    subst h
    exact formatted_groups_indices _ g G hG

set_option maxRecDepth 1000000 in
/-- The second group of a list with two headers, in `processInstructionsIntoGroups`
and in the payload of `addRecipeToPost` for a custom-formatted record with this
list: the uid is 1 and the steps have the uids 0 and 1. -/
theorem zero_based_indices_witness :
    ((⟨"Step 2: Cook".toList, 1,
        [⟨0, [], "<p>Boil.</p>".toList, 0, []⟩, ⟨1, [], "<p>Drain.</p>".toList, 0, []⟩]⟩ :
        InstructionGroup).uid = ((1 : Nat) : ℤ) ∧
      ∀ (j : Nat) (st : InstructionStep), (⟨"Step 2: Cook".toList, 1,
          [⟨0, [], "<p>Boil.</p>".toList, 0, []⟩, ⟨1, [], "<p>Drain.</p>".toList, 0, []⟩]⟩ :
          InstructionGroup).instructions[j]? = some st →
        st.uid = j ∧ st.image = 0 ∧ st.name = [] ∧ st.ingredients = []) ∧
    ((⟨"Step 2: Boil.".toList, 1, [⟨0, [], "<p>Boil.</p>".toList, 0, []⟩]⟩ :
        InstructionGroup).uid = ((1 : Nat) : ℤ) ∧
      ∀ (j : Nat) (st : InstructionStep),
        (⟨"Step 2: Boil.".toList, 1, [⟨0, [], "<p>Boil.</p>".toList, 0, []⟩]⟩ :
          InstructionGroup).instructions[j]? = some st →
        st.uid = j ∧ st.image = 0 ∧ st.name = [] ∧ st.ingredients = []) :=
  ⟨zero_based_indices ["Step 1: Prep".toList, "Wash.".toList,
      "Step 2: Cook".toList, "Boil.".toList, "Drain.".toList] _ (Or.inl rfl) 1 _ (by decide),
    zero_based_indices ["Wash.".toList, "Peel.".toList, "Boil.".toList]
      (wprmFormattedInstructions
        ⟨"Soup".toList, none, ["1 leek".toList],
          ["Wash.".toList, "Peel.".toList, "Boil.".toList], [], [], [], [], ⟨[], [], [], []⟩,
          some ["1 leek".toList], some ["Wash.".toList, "Peel.".toList, "Boil.".toList], true,
          some "T".toList⟩)
      (Or.inr ⟨by decide, _, rfl, ⟨'T', [], rfl⟩, rfl, rfl⟩) 1 _ (by decide)⟩

set_option maxRecDepth 1000000 in
/-- C22, the counterexample. For a custom-formatted record whose original
instructions are the empty list, `addRecipeToPost` does not run the structured
grouping: it reads the template, here the one that `useFixedTemplate` builds for
this record, and the group at the position 0 has the uid `-1`. -/
theorem empty_list_uid_counterexample :
    (useFixedTemplate
        ⟨"Soup".toList, none, ["1 leek".toList], [], [], [], [], [], ⟨[], [], [], []⟩,
          none, none, false, none⟩)._customTemplate =
      some "**Ingredients**\n**  **\n* 1 leek\n\n**Instructions**\n** **\n".toList ∧
    wprmFormattedInstructions
        ⟨"Soup".toList, none, ["1 leek".toList], [], [], [], [], [], ⟨[], [], [], []⟩,
          some ["1 leek".toList], some [], true,
          some "**Ingredients**\n**  **\n* 1 leek\n\n**Instructions**\n** **\n".toList⟩ =
      [⟨[], -1, [⟨0, " ".toList, "<p><strong> </strong></p>".toList, 0, []⟩]⟩] ∧
    ((wprmFormattedInstructions
        ⟨"Soup".toList, none, ["1 leek".toList], [], [], [], [], [], ⟨[], [], [], []⟩,
          some ["1 leek".toList], some [], true,
          some "**Ingredients**\n**  **\n* 1 leek\n\n**Instructions**\n** **\n".toList⟩)[0]?).map
        (fun G => G.uid) = some (-1) := by
  refine ⟨by decide, by decide, by decide⟩

/-! ## The header scan on any list -/

theorem scanInv_step (p : List Str) (st : ScanState) (x : Str) (h : ScanInv p st) :
    ScanInv (p ++ [x]) (scanStep st x) := by
  obtain ⟨h1, h2, h3, h4⟩ := h
  cases hx : isStepHeader x with
  | true =>
    have hnh : nonHeaders (p ++ [x]) = nonHeaders p := by
      simp [nonHeaders, List.filter_append, hx]
    have hany : (p ++ [x]).any isStepHeader = true := by
      simp [List.any_append, hx]
    have hxne := isStepHeader_ne_nil hx
    have keep : ScanInv (p ++ [x]) ⟨st.groupedInstructions, some x, st.groupInstructions⟩ := by
      refine ⟨by rw [hnh]; exact h1, h2, (fun e => by cases e), ?_⟩
      intro h e
      cases e
      exact ⟨hxne, hany⟩
    unfold scanStep
    rw [hx, if_pos rfl]
    cases hc : st.currentGroup with
    | none => exact keep
    | some cur =>
      cases cur with
      | nil => exact keep
      | cons y g =>
        by_cases hl : st.groupInstructions.length > 0
        · simp only [hl, if_true]
          refine ⟨?_, ?_, (fun e => by cases e), ?_⟩
          · rw [hnh, ← h1]
            simp
          · intro g' hg'
            rcases List.mem_append.mp hg' with hg' | hg'
            · exact h2 g' hg'
            · simp only [List.mem_singleton] at hg'
              subst hg'
              exact List.length_pos.mp hl
          · intro h e
            cases e
            exact ⟨hxne, hany⟩
        · simp only [hl, if_false]
          exact keep
  | false =>
    have hnh : nonHeaders (p ++ [x]) = nonHeaders p ++ [x] := by
      simp [nonHeaders, List.filter_append, hx]
    have hany : (p ++ [x]).any isStepHeader = p.any isStepHeader := by
      simp [List.any_append, hx]
    unfold scanStep
    rw [hx]
    simp only [Bool.false_eq_true, if_false]
    refine ⟨?_, h2, ?_, ?_⟩
    · rw [hnh, ← h1, List.append_assoc]
    · intro e
      rw [hany]
      exact h3 e
    · intro h e
      rw [hany]
      exact h4 h e

theorem scanInv_foldl (ins p : List Str) (st : ScanState) (h : ScanInv p st) :
    ScanInv (p ++ ins) (ins.foldl scanStep st) := by
  induction ins generalizing p st with
  | nil => simpa using h
  | cons x t ih =>
    have := ih (p ++ [x]) (scanStep st x) (scanInv_step p st x h)
    simpa using this

theorem scanInv_init : ScanInv [] ⟨[], none, []⟩ := by
  refine ⟨rfl, by simp, fun _ => ⟨rfl, rfl⟩, ?_⟩
  intro h e
  cases e

/-- The groups of the header scan: their steps are the lines that are not
headers when the list has a header, there is no group when it has none, and no
group is empty. -/
theorem scanGroups_spec (ins : List Str) :
    (ins.any isStepHeader = true →
      (scanGroups ins).flatMap (fun g => g.instructions) = nonHeaders ins) ∧
    (ins.any isStepHeader = false → scanGroups ins = []) ∧
    (∀ g ∈ scanGroups ins, g.instructions ≠ []) := by
  have hinv := scanInv_foldl ins [] _ scanInv_init
  simp only [List.nil_append] at hinv
  obtain ⟨h1, h2, h3, h4⟩ := hinv
  unfold scanGroups scanFlush
  generalize ins.foldl scanStep ⟨[], none, []⟩ = st at h1 h2 h3 h4
  cases hc : st.currentGroup with
  | none =>
    obtain ⟨hG, hany⟩ := h3 hc
    rw [hG]
    refine ⟨fun e => ?_, fun _ => rfl, ?_⟩
    · rw [hany] at e
      cases e
    · intro g hg
      cases hg
  | some cur =>
    obtain ⟨hne, hany⟩ := h4 cur hc
    cases cur with
    | nil => exact absurd rfl hne
    | cons y g =>
      by_cases hl : st.groupInstructions.length > 0
      · simp only [hl, if_true]
        refine ⟨fun _ => ?_, fun e => ?_, ?_⟩
        · rw [← h1]
          simp
        · rw [hany] at e
          cases e
        · intro g' hg'
          rcases List.mem_append.mp hg' with hg' | hg'
          · exact h2 g' hg'
          · simp only [List.mem_singleton] at hg'
            subst hg'
            exact List.length_pos.mp hl
      · simp only [hl, if_false]
        have hnil : st.groupInstructions = [] := by
          cases hgi : st.groupInstructions with
          | nil => rfl
          | cons a t =>
            rw [hgi] at hl
            simp at hl
        refine ⟨fun _ => ?_, fun e => ?_, h2⟩
        · rw [← h1, hnil, List.append_nil]
        · rw [hany] at e
          cases e

theorem nonHeaders_eq_nil_iff (ins : List Str) :
    nonHeaders ins = [] ↔ ins.any (fun s => !isStepHeader s) = false := by
  unfold nonHeaders
  rw [List.filter_eq_nil_iff]
  simp

theorem scanGroups_eq_nil_iff (ins : List Str) :
    scanGroups ins = [] ↔ hasHeaderAndBody ins = false := by
  obtain ⟨h1, h2, h3⟩ := scanGroups_spec ins
  unfold hasHeaderAndBody
  cases hh : ins.any isStepHeader with
  | false => simp [h2 hh]
  | true =>
    simp only [Bool.true_and]
    rw [← nonHeaders_eq_nil_iff, ← h1 hh]
    constructor
    · intro e
      rw [e]
      rfl
    · intro e
      cases hs : scanGroups ins with
      | nil => rfl
      | cons g t =>
        rw [hs] at e h3
        simp only [List.flatMap_cons, List.append_eq_nil] at e
        exact absurd e.1 (h3 g (List.mem_cons_self _ _))

theorem stepTexts_formatted (raw : List RawGroup) :
    stepTexts (mapIndex formatGroup raw) =
      (raw.flatMap (fun g => g.instructions)).map paragraph := by
  unfold stepTexts
  rw [List.flatMap_def, List.flatMap_def, List.map_flatten, List.map_map]
  congr 1
  rw [map_mapIndex formatGroup _ (fun g => g.instructions.map paragraph)]
  · rfl
  · intro g i
    exact map_mapIndex formatStep _ paragraph (fun _ _ => rfl) g.instructions

/-- The texts of the steps of `processInstructionsIntoGroups`. -/
theorem stepTexts_process (ins : List Str) :
    stepTexts (processInstructionsIntoGroups ins) =
      (if hasHeaderAndBody ins then nonHeaders ins else ins).map paragraph := by
  unfold processInstructionsIntoGroups
  simp only []
  rw [stepTexts_formatted]
  cases hb : hasHeaderAndBody ins with
  | false =>
    have hnil := (scanGroups_eq_nil_iff ins).mpr hb
    simp [hnil]
  | true =>
    have hne : scanGroups ins ≠ [] := by
      intro e
      rw [(scanGroups_eq_nil_iff ins).mp e] at hb
      cases hb
    have hlen : (scanGroups ins).length ≠ 0 := fun e => hne (List.length_eq_zero.mp e)
    have hany : ins.any isStepHeader = true := by
      unfold hasHeaderAndBody at hb
      simp only [Bool.and_eq_true] at hb
      exact hb.1
    simp only [hlen, if_false, if_true]
    rw [(scanGroups_spec ins).1 hany]

/-- **C23.** Order preservation. The texts of the steps of the groups that
`processInstructionsIntoGroups` returns, taken in the order of the groups and
without the `<p>` wrapper, are the lines that are not headers when the input
has a header line and a line that is not a header, and the whole input
otherwise; in both cases a subsequence of the input in its order. -/
theorem order_preserved (instructions : List Str) :
    stepTexts (processInstructionsIntoGroups instructions) =
      (if hasHeaderAndBody instructions then nonHeaders instructions
        else instructions).map paragraph ∧
    (if hasHeaderAndBody instructions then nonHeaders instructions
      else instructions).Sublist instructions := by
  refine ⟨stepTexts_process instructions, ?_⟩
  split
  · exact List.filter_sublist _
  · exact List.Sublist.refl _

theorem mem_stepTexts (groups : List InstructionGroup) (t : Str) (h : t ∈ stepTexts groups) :
    ∃ g ∈ groups, ∃ st ∈ g.instructions, st.text = t := by
  unfold stepTexts at h
  obtain ⟨g, hg, ht⟩ := List.mem_flatMap.mp h
  obtain ⟨st, hst, e⟩ := List.mem_map.mp ht
  exact ⟨g, hg, st, hst, e⟩

/-- **C25**, amended. Every line of the input that is not a header appears in the
output of `processInstructionsIntoGroups` as the text of a step; and every line
appears so when the input has no header line or has only header lines. -/
theorem no_body_line_lost (instructions : List Str) (s : Str) (hs : s ∈ instructions)
    (h : isStepHeader s = false ∨ hasHeaderAndBody instructions = false) :
    ∃ g ∈ processInstructionsIntoGroups instructions,
      ∃ st ∈ g.instructions, st.text = paragraph s := by
  apply mem_stepTexts
  rw [stepTexts_process]
  apply List.mem_map_of_mem
  cases hb : hasHeaderAndBody instructions with
  | false => simpa using hs
  | true =>
    rcases h with h | h
    · simp only [if_true, nonHeaders, List.mem_filter]
      exact ⟨hs, by simp [h]⟩
    · rw [hb] at h
      cases h

set_option maxRecDepth 1000000 in
/-- The line `'Stir'` after two headers is the text of a step. -/
theorem no_body_line_lost_witness :
    ∃ g ∈ processInstructionsIntoGroups
        ["Step 1: Prep".toList, "Step 2: Cook".toList, "Stir".toList],
      ∃ st ∈ g.instructions, st.text = paragraph "Stir".toList :=
  no_body_line_lost ["Step 1: Prep".toList, "Step 2: Cook".toList, "Stir".toList]
    "Stir".toList (by decide) (Or.inl (by decide))

set_option maxRecDepth 1000000 in
/-- C25, the counterexample. A header that is followed by another header is
dropped: from `['Step 1: Prep', 'Step 2: Cook', 'Stir']` the only group is
`'Step 2: Cook'`, and `'Step 1: Prep'` is neither a group name nor the text of a
step. A header that ends the list after a flush is dropped too. -/
theorem header_lost_counterexample :
    processInstructionsIntoGroups
        ["Step 1: Prep".toList, "Step 2: Cook".toList, "Stir".toList] =
      [⟨"Step 2: Cook".toList, 0, [⟨0, [], "<p>Stir</p>".toList, 0, []⟩]⟩] ∧
    ¬ (∃ g ∈ processInstructionsIntoGroups
          ["Step 1: Prep".toList, "Step 2: Cook".toList, "Stir".toList],
        g.name = "Step 1: Prep".toList ∨
          ∃ st ∈ g.instructions, st.text = "Step 1: Prep".toList ∨
            st.text = paragraph "Step 1: Prep".toList) ∧
    processInstructionsIntoGroups
        ["Step 1: Prep".toList, "Stir".toList, "Step 2: Cook".toList] =
      [⟨"Step 1: Prep".toList, 0, [⟨0, [], "<p>Stir</p>".toList, 0, []⟩]⟩] := by
  refine ⟨by decide, by decide, by decide⟩

theorem process_of_scan_nil (ins : List Str) (h : scanGroups ins = []) :
    processInstructionsIntoGroups ins =
      [⟨"Instructions".toList, 0, mapIndex formatStep ins⟩] := by
  simp [processInstructionsIntoGroups, h, mapIndex, mapIndexFrom, formatGroup]

theorem wprm_of_scan_nil (ins : List Str) (h : scanGroups ins = []) :
    (wprmInstructionGroups ins).head?.map (fun g => g.name.head?) = none ∨
      (wprmInstructionGroups ins).head?.map (fun g => g.name.head?) = some (some 'S') := by
  cases ins with
  | nil =>
    left
    simp [wprmInstructionGroups, h, chunkLoop, mapIndex, mapIndexFrom]
  | cons x t =>
    right
    simp only [wprmInstructionGroups, h, List.length_nil, if_true, List.length_cons, chunkLoop,
      Nat.zero_lt_succ, mapIndex, mapIndexFrom, formatGroup]
    rfl

/-- **C26**, amended. The grouping of `processInstructionsIntoGroups` and the
grouping of `addRecipeToPost` of `wp-recipe-maker.js` give the same groups exactly
on the lists that have a header line and a line that is not a header. -/
theorem groupers_agree_iff (instructions : List Str) :
    processInstructionsIntoGroups instructions = wprmInstructionGroups instructions ↔
      hasHeaderAndBody instructions = true := by
  constructor
  · intro e
    cases hb : hasHeaderAndBody instructions with
    | true => rfl
    | false =>
      exfalso
      have hnil := (scanGroups_eq_nil_iff instructions).mpr hb
      rw [process_of_scan_nil instructions hnil] at e
      have e2 := congrArg (fun l => l.head?.map (fun g => g.name.head?)) e
      simp only [List.head?_cons, Option.map_some'] at e2
      rcases wprm_of_scan_nil instructions hnil with h | h
      · rw [h] at e2
        cases e2
      · rw [h] at e2
        revert e2
        decide
  · intro hb
    have hne : (scanGroups instructions).length ≠ 0 := by
      intro e
      rw [(scanGroups_eq_nil_iff instructions).mp (List.length_eq_zero.mp e)] at hb
      cases hb
    simp [processInstructionsIntoGroups, wprmInstructionGroups, hne]

set_option maxRecDepth 1000000 in
/-- C26, the counterexample. Three lines without any header: the one grouping
gives the single group `'Instructions'`, the other two chunks named
`'Step 1: Prepare Ingredients'` and `'Step 2: Cook'`. -/
theorem groupers_differ_counterexample :
    (processInstructionsIntoGroups
        ["Wash the rice".toList, "Heat the pan".toList, "Add oil".toList]).map
        (fun g => (g.name, g.instructions.length)) = [("Instructions".toList, 3)] ∧
    (wprmInstructionGroups
        ["Wash the rice".toList, "Heat the pan".toList, "Add oil".toList]).map
        (fun g => (g.name, g.instructions.length)) =
      [("Step 1: Prepare Ingredients".toList, 2), ("Step 2: Cook".toList, 1)] ∧
    processInstructionsIntoGroups
        ["Wash the rice".toList, "Heat the pan".toList, "Add oil".toList] ≠
      wprmInstructionGroups
        ["Wash the rice".toList, "Heat the pan".toList, "Add oil".toList] := by
  refine ⟨by decide, by decide, by decide⟩

/-! ## The default template -/

theorem default_fill (ings ins : List Str)
    (hing : ∀ x ∈ ings, '$' ∉ x ∧ '{' ∉ x) (hins : ∀ x ∈ ins, '$' ∉ x) :
    fillTemplate defaultTemplate ings ins =
      "**Ingredients**\n**  **\n* ".toList ++ bulletList ings ++
        "\n\n**Instructions**\n** **\n".toList ++ stepList ins := by
  have h := fillTemplate_ingredients_first "**Ingredients**\n**  **\n* ".toList
    "\n\n**Instructions**\n** **\n".toList [] ings ins (by decide) (by decide) hing hins
  simp only [List.append_nil] at h
  rw [← h]
  rfl

theorem formatRecipeData_blank (r : RecipeRecord) (cfg : FormatConfig)
    (hen : cfg.enabled = true)
    (hblank : cfg.customTemplate = none ∨ ∃ t, cfg.customTemplate = some t ∧ trim t = []) :
    (formatRecipeData r (some cfg))._customTemplate =
      some (fillTemplate defaultTemplate r.ingredients r.instructions) := by
  rcases hblank with h | ⟨t, h, ht⟩
  · simp [formatRecipeData, hen, h]
  · simp [formatRecipeData, hen, h, ht]

/-- **C28**, the divergence. For every record whose texts have no `$` and whose
ingredients have no `{`, and every enabled format config whose template is
missing or blank, the `_customTemplate` of `formatRecipeData` is
`'**Ingredients**\n**  **\n* '` followed by the bulleted ingredients, then the
instructions: the default template has a bullet of its own before
`{ingredients}`, so that the first ingredient line has two bullets, and the text
is two characters longer than the dynamic template of `recipe-helper.js`. -/
theorem default_template_double_bullet (r : RecipeRecord) (cfg : FormatConfig)
    (hen : cfg.enabled = true)
    (hblank : cfg.customTemplate = none ∨ ∃ t, cfg.customTemplate = some t ∧ trim t = [])
    (hing : ∀ x ∈ r.ingredients, '$' ∉ x ∧ '{' ∉ x) (hins : ∀ x ∈ r.instructions, '$' ∉ x) :
    (formatRecipeData r (some cfg))._customTemplate =
      some ("**Ingredients**\n**  **\n* ".toList ++ bulletList r.ingredients ++
        "\n\n**Instructions**\n** **\n".toList ++ stepList r.instructions) ∧
    ((formatRecipeData r (some cfg))._customTemplate.getD []).length =
      (dynamicTemplate r.ingredients r.instructions).length + 2 ∧
    (formatRecipeData r (some cfg))._customTemplate ≠
      some (dynamicTemplate r.ingredients r.instructions) := by
  have h1 := formatRecipeData_blank r cfg hen hblank
  rw [default_fill r.ingredients r.instructions hing hins] at h1
  have h2 : ((formatRecipeData r (some cfg))._customTemplate.getD []).length =
      (dynamicTemplate r.ingredients r.instructions).length + 2 := by
    rw [h1]
    simp only [Option.getD_some, dynamicTemplate, List.length_append]
    have e1 : "**Ingredients**\n**  **\n* ".toList.length =
        "**Ingredients**\n**  **\n".toList.length + 2 := rfl
    omega
  refine ⟨h1, h2, ?_⟩
  intro e
  rw [e] at h2
  simp at h2

set_option maxRecDepth 1000000 in
/-- C28, the failing input: two ingredients, one instruction and an empty
template. The first ingredient line is `'* * 2 eggs'`. -/
theorem default_template_double_bullet_witness :
    (formatRecipeData
        ⟨"Cake".toList, none, ["2 eggs".toList, "1 cup flour".toList], ["Mix.".toList],
          [], [], [], [], ⟨[], [], [], []⟩, none, none, false, none⟩
        (some ⟨true, some [], false⟩))._customTemplate =
      some "**Ingredients**\n**  **\n* * 2 eggs\n* 1 cup flour\n\n**Instructions**\n** **\nStep 1: Mix.".toList ∧
    dynamicTemplate ["2 eggs".toList, "1 cup flour".toList] ["Mix.".toList] =
      "**Ingredients**\n**  **\n* 2 eggs\n* 1 cup flour\n\n**Instructions**\n** **\nStep 1: Mix.".toList :=
  ⟨((default_template_double_bullet
      ⟨"Cake".toList, none, ["2 eggs".toList, "1 cup flour".toList], ["Mix.".toList],
        [], [], [], [], ⟨[], [], [], []⟩, none, none, false, none⟩
      ⟨true, some [], false⟩ rfl (Or.inr ⟨[], rfl, rfl⟩) (by decide) (by decide)).1).trans
      (by decide),
    by decide⟩

/-! ## Keyword eligibility -/

theorem includes_nil (s : Str) : includes s [] = true := by
  cases s <;> simp [includes, startsWith]

/-- **C29**, the divergence. With the integration enabled and
`addToAllKeywords` off, `shouldAddRecipe` returns `true` for every keyword as soon
as one entry of the comma-separated `keywords` is empty after trimming: the empty
text is a substring of every keyword. So it is with an empty `keywords`, with
commas and blanks only, and with a trailing comma. -/
theorem empty_entry_matches_all (keyword keywords : Str)
    (h : ∃ k ∈ splitOnChar ',' keywords, trim k = []) :
    shouldAddRecipe keyword (some ⟨true, false, some keywords⟩) = some true := by
  obtain ⟨k, hk, hkt⟩ := h
  simp only [shouldAddRecipe, Bool.not_true, Bool.false_eq_true, if_false, Option.some.injEq,
    List.any_eq_true, List.mem_map]
  refine ⟨toLowerCase (trim k), ⟨k, hk, rfl⟩, ?_⟩
  rw [hkt]
  exact includes_nil _

set_option maxRecDepth 1000000 in
/-- C29, the failing inputs: the keyword `'car insurance'` with the keywords `''`,
`' , '` and `'cake,'`. -/
theorem empty_entry_matches_all_witness :
    shouldAddRecipe "car insurance".toList (some ⟨true, false, some "".toList⟩) = some true ∧
    shouldAddRecipe "car insurance".toList (some ⟨true, false, some " , ".toList⟩) = some true ∧
    shouldAddRecipe "car insurance".toList (some ⟨true, false, some "cake,".toList⟩) =
      some true ∧
    shouldAddRecipe "car insurance".toList (some ⟨true, false, some "cake".toList⟩) =
      some false :=
  ⟨empty_entry_matches_all "car insurance".toList "".toList ⟨[], by decide, by decide⟩,
    by decide, by decide, by decide⟩

/-! ## The title of the extraction -/

set_option maxRecDepth 1000000 in
/-- C30, the failing input. The input of the specification with a marker
phrase before it has the two section headings only, and the title that
`extractRecipeData` returns is `'Ingredients'`, the text of the first of them:
the first title pattern, with its optional `Recipe:` and `Recipe`, matches any
heading of level 2 or 3 in one line. The keyword is not used. -/
theorem title_from_section_heading :
    (extractRecipeData
      ("<p>Ingredients: see below.</p>" ++
        "<h2>Ingredients</h2><ul><li>2 eggs</li><li>1 cup flour</li></ul>" ++
        "<h2>Instructions</h2><ol><li>Mix.</li><li>Bake.</li></ol>").toList
      "sponge cake".toList).map (fun r => (r.title, r.ingredients, r.instructions)) =
      some ("Ingredients".toList, ["2 eggs".toList, "1 cup flour".toList],
        ["Mix.".toList, "Bake.".toList]) ∧
    (search flagsI titleRe1
      ("<h2>Ingredients</h2><ul><li>2 eggs</li></ul>").toList).map
        (fun m => (m.matched, m.cap 1)) =
      some ("<h2>Ingredients</h2>".toList, some "Ingredients".toList) := by
  refine ⟨by decide, by decide⟩

/-! ## The template read back -/

set_option maxRecDepth 1000000 in
/-- C27, the failing input. The template that `useFixedTemplate` builds for the
ingredients `'2 eggs'` and `'1 cup flour'`, read back by the fallback of
`addRecipeToPost`, gives four ingredients: the lines `**Ingredients**` and
`**  **` of the template start with `*` too and come back as `'*Ingredients**'`
and `'*  **'`. -/
theorem template_read_back_extra_entries :
    (useFixedTemplate
        ⟨"Cake".toList, none, ["2 eggs".toList, "1 cup flour".toList], ["Mix.".toList],
          [], [], [], [], ⟨[], [], [], []⟩, none, none, false, none⟩)._customTemplate =
      some "**Ingredients**\n**  **\n* 2 eggs\n* 1 cup flour\n\n**Instructions**\n** **\n**Step 1: Mix.**\n1- Mix.".toList ∧
    wprmIngredientGroups
        ⟨"Cake".toList, none, ["2 eggs".toList, "1 cup flour".toList], ["Mix.".toList],
          [], [], [], [], ⟨[], [], [], []⟩, none, none, true,
          some "**Ingredients**\n**  **\n* 2 eggs\n* 1 cup flour\n\n**Instructions**\n** **\n**Step 1: Mix.**\n1- Mix.".toList⟩ =
      [ingredientGroup ["*Ingredients**".toList, "*  **".toList, "2 eggs".toList,
        "1 cup flour".toList]] := by
  refine ⟨by decide, by decide⟩

/-! ## The position of the verb -/

set_option maxRecDepth 1000000 in
/-- C24, the failing input. In `'İ Mix well'` the verb `Mix` starts at the
position 2; the lower-cased text is one character longer (U+0130 becomes two
characters), the verb is found there at the position 3, and the title is cut from
the position 3 of the instruction itself: `'ix well'`, not `'Mix well'`. On the
example `'Chop onions and cook until soft'` the title is `'cook until soft'`. -/
theorem title_index_shift :
    cookingActions.find? (fun action => includes "İ Mix well".toList action ||
      includes "İ Mix well".toList (toLowerCase action)) = some "Mix".toList ∧
    ("İ Mix well".toList.length, (toLowerCase "İ Mix well".toList).length) = (10, 11) ∧
    indexOf (toLowerCase "İ Mix well".toList) (toLowerCase "Mix".toList) = 3 ∧
    getStepTitle 1 "İ Mix well".toList = "ix well".toList ∧
    Formatter.getStepTitle 1 "İ Mix well".toList = "ix well".toList ∧
    getStepTitle 1 "Chop onions and cook until soft".toList = "cook until soft".toList := by
  refine ⟨by decide, by decide, by decide, by decide, by decide, by decide⟩

/-! ## The title from the verb onward -/

theorem startsWith_append_right (s p t : Str) (h : startsWith s p = true) :
    startsWith (s ++ t) p = true := by
  induction s generalizing p with
  | nil =>
    cases p with
    | nil => cases t <;> rfl
    | cons d p => simp [startsWith] at h
  | cons c s ih =>
    cases p with
    | nil => rfl
    | cons d p =>
      simp only [startsWith, Bool.and_eq_true] at h
      simp only [List.cons_append, startsWith, Bool.and_eq_true]
      exact ⟨h.1, ih p h.2⟩

theorem includes_append_left (l s p : Str) (h : includes s p = true) :
    includes (l ++ s) p = true := by
  induction l with
  | nil => exact h
  | cons c l ih => simp [includes, ih]

theorem includes_append_right (s p t : Str) (h : includes s p = true) (hp : p ≠ []) :
    includes (s ++ t) p = true := by
  induction s with
  | nil =>
    cases p with
    | nil => exact absurd rfl hp
    | cons d p => simp [includes, startsWith] at h
  | cons c s ih =>
    simp only [includes, Bool.or_eq_true] at h
    simp only [List.cons_append, includes, Bool.or_eq_true]
    rcases h with h | h
    · exact Or.inl (startsWith_append_right (c :: s) p t h)
    · exact Or.inr (ih h)

theorem startsWith_toLowerCase (s p : Str) (h : startsWith s p = true) :
    startsWith (toLowerCase s) (toLowerCase p) = true := by
  induction s generalizing p with
  | nil =>
    cases p with
    | nil => rfl
    | cons d p => simp [startsWith] at h
  | cons c s ih =>
    cases p with
    | nil => cases toLowerCase (c :: s) <;> rfl
    | cons d p =>
      simp only [startsWith, Bool.and_eq_true, beq_iff_eq] at h
      obtain ⟨rfl, h2⟩ := h
      have := ih p h2
      simp only [toLowerCase]
      generalize lowerChar c = l
      induction l with
      | nil => exact this
      | cons x l ihl => simp [startsWith, ihl]

theorem includes_toLowerCase (s p : Str) (h : includes s p = true) :
    includes (toLowerCase s) (toLowerCase p) = true := by
  induction s with
  | nil =>
    simp only [includes] at h
    simpa [includes, toLowerCase] using startsWith_toLowerCase [] p h
  | cons c s ih =>
    simp only [includes, Bool.or_eq_true] at h
    rcases h with h | h
    · have h1 := startsWith_toLowerCase (c :: s) p h
      cases hl : toLowerCase (c :: s) with
      | nil =>
        rw [hl] at h1
        simpa [includes] using h1
      | cons x l =>
        rw [hl] at h1
        simp [includes, h1]
    · exact includes_append_left (lowerChar c) _ _ (ih h)

theorem indexOf_nonneg_of_includes (s p : Str) (h : includes s p = true) : 0 ≤ indexOf s p := by
  induction s with
  | nil =>
    simp only [includes] at h
    simp [indexOf, h]
  | cons c s ih =>
    simp only [includes, Bool.or_eq_true] at h
    unfold indexOf
    by_cases h1 : startsWith (c :: s) p = true
    · simp [h1]
    · rcases h with h | h
      · exact absurd h h1
      · have := ih h
        simp only [h1, Bool.false_eq_true, if_false]
        split
        · omega
        · omega

theorem lowerChar_length (c : Char) (h : c.toNat ≠ 0x130) : ∃ d, lowerChar c = [d] := by
  unfold lowerChar
  split
  · exact ⟨_, rfl⟩
  · split
    · exact ⟨_, rfl⟩
    · split
      · exact ⟨_, rfl⟩
      · split
        · rename_i h4
          simp only [beq_iff_eq] at h4
          exact absurd h4 h
        · exact ⟨_, rfl⟩

/-- In a text without U+0130, the position of the verb found in the lower-cased
text is the position of its first occurrence in the text itself. -/
theorem substring_at_index (p instr : Str) (hI : ∀ c ∈ instr, c.toNat ≠ 0x130)
    (h : includes (toLowerCase instr) (toLowerCase p) = true) :
    substringFrom instr (indexOf (toLowerCase instr) (toLowerCase p)) =
      fromFirstOccurrence p instr := by
  induction instr with
  | nil => simp [substringFrom, fromFirstOccurrence]
  | cons c t ih =>
    obtain ⟨d, hd⟩ := lowerChar_length c (hI c (List.mem_cons_self _ _))
    have hl : toLowerCase (c :: t) = d :: toLowerCase t := by
      simp [toLowerCase, hd]
    unfold fromFirstOccurrence
    rw [hl] at h ⊢
    by_cases h1 : startsWith (d :: toLowerCase t) (toLowerCase p) = true
    · simp [indexOf, h1, substringFrom]
    · have h2 : includes (toLowerCase t) (toLowerCase p) = true := by
        simp only [includes, Bool.or_eq_true] at h
        rcases h with h | h
        · exact absurd h h1
        · exact h
      have hnn := indexOf_nonneg_of_includes _ _ h2
      have iht := ih (fun x hx => hI x (List.mem_cons_of_mem _ hx)) h2
      have hlt : ¬ indexOf (toLowerCase t) (toLowerCase p) < 0 := by omega
      have hidx : indexOf (d :: toLowerCase t) (toLowerCase p) =
          indexOf (toLowerCase t) (toLowerCase p) + 1 := by
        rw [indexOf]
        simp only [h1, Bool.false_eq_true, if_false, hlt]
      simp only [h1, Bool.false_eq_true, if_false]
      rw [← iht, hidx]
      unfold substringFrom
      have e : (indexOf (toLowerCase t) (toLowerCase p) + 1).toNat =
          (indexOf (toLowerCase t) (toLowerCase p)).toNat + 1 := by
        omega
      rw [e]
      rfl

set_option maxRecDepth 1000000 in
theorem toLowerCase_action_idem : ∀ a ∈ cookingActions,
    toLowerCase (toLowerCase a) = toLowerCase a := by
  decide

/-- For an instruction without U+0130 that has a verb of the vocabulary as the
list writes it or in lower case, the verb chosen is the first entry of the
vocabulary that occurs so, and the title is the instruction from the first
occurrence of this verb (in any letter case) onward, cut to four fields between
spaces. -/
theorem step_title_shape (instruction : Str) (hI : ∀ c ∈ instruction, c.toNat ≠ 0x130)
    (h : ∃ a ∈ cookingActions,
      includes instruction a = true ∨ includes instruction (toLowerCase a) = true) :
    ∃ a before after, cookingActions = before ++ a :: after ∧
      (includes instruction a = true ∨ includes instruction (toLowerCase a) = true) ∧
      (∀ b ∈ before,
        includes instruction b = false ∧ includes instruction (toLowerCase b) = false) ∧
      ∀ n, getStepTitle n instruction =
          join " ".toList ((splitOnChar ' ' (fromFirstOccurrence a instruction)).take 4) ∧
        Formatter.getStepTitle n instruction =
          join " ".toList ((splitOnChar ' ' (fromFirstOccurrence a instruction)).take 4) := by
  obtain ⟨a, ha, hin, hf⟩ := find_action_some instruction h
  obtain ⟨_, before, after, hsplit, hbefore⟩ := List.find?_eq_some.mp hf
  have hocc : includes (toLowerCase instruction) (toLowerCase a) = true := by
    rcases hin with h1 | h1
    · exact includes_toLowerCase _ _ h1
    · have := includes_toLowerCase _ _ h1
      rwa [toLowerCase_action_idem a ha] at this
  have htitle : actionTitle instruction a =
      join " ".toList ((splitOnChar ' ' (fromFirstOccurrence a instruction)).take 4) := by
    unfold actionTitle
    simp only []
    rw [substring_at_index a instruction hI hocc]
  refine ⟨a, before, after, hsplit, hin, ?_, fun n => ⟨?_, ?_⟩⟩
  · intro b hb
    have := hbefore b hb
    simpa using this
  · simp only [getStepTitle, hf, htitle]
  · simp only [Formatter.getStepTitle, hf, htitle]

end Recipe
